import Mathlib

/-!
# HighConcurrencySTL: concurrent_queue, concurrent_map and concurrent_vector

A shallow embedding of `include/hcstl/concurrent_queue.hpp`,
`include/hcstl/concurrent_map.hpp` and `include/hcstl/concurrent_vector.hpp`: first with the
calls executed one at a time, then, for calls that overlap in time, as threads whose
statements are interleaved by a schedule (`thread_step`, `run_schedule` of the queue and of
the vector, `Step` of the map).

Conventions of the embedding

* A pointer is a natural number, `nullptr` is `0`.
* `std::size_t` counters are natural numbers reduced modulo `SIZE_MOD = 2 ^ 64`
  by every `fetch_add` / `fetch_sub`.
* The address returned by `node_allocator_.allocate(1)` is an argument of the
  operation that allocates.  The allocator's contract (the address is not null,
  fits a pointer, and is not the address of a node that is currently allocated)
  appears as an explicit side condition on executions.
* Likewise the address at which `std::make_unique<Segment>()` allocates is an argument of
  `push_back`; its contract is that the segment lies inside the address space and overlaps
  no allocated segment.
* A `compare_exchange` whose expected value matches succeeds (no spurious
  failure of `compare_exchange_weak`).
* The `while (true)` loops of the queue run with an iteration budget; the
  theorems show that one iteration is enough in every state reached by calls
  executed one at a time.
* In a schedule, every access to an atomic member or to a node of the queue is a step of
  its own; a section of the map that holds a bucket lock is one step; a call of `push_back`
  is the five steps load `size_`, `ensure_segment`, write the slot, increment the segment
  counter, increment `size_`.
* `run_schedule` of the vector runs whole statements on the current table and is used to
  exhibit executions; `run_schedule_checked` also faults at the data race between
  `segments_.resize` (under `mutex_`) and the accesses `segments_[segment_index]` that
  `push_back` makes without `mutex_`.
* `assoc_run` executes map calls on an association list keyed by equality; it is the map of
  the specification, with which `concurrent_map.run` is compared.
-/

namespace hcstl

/-- The number of values of `std::size_t` (and of a pointer). -/
def SIZE_MOD : Nat := 2 ^ 64

/-- The null pointer. -/
def nullptr : Nat := 0

/-- What `node_allocator_.allocate(1)` may return: a non-null address that fits a pointer. -/
def valid_addr (p : Nat) : Prop := p ≠ nullptr ∧ p < SIZE_MOD

instance (p : Nat) : Decidable (valid_addr p) := by
  unfold valid_addr; infer_instance

/-- `std::atomic<size_t>::fetch_add(1)`: the stored value afterwards. -/
def fetch_add_one (s : Nat) : Nat := (s + 1) % SIZE_MOD

/-- `std::atomic<size_t>::fetch_sub(1)`: the stored value afterwards (wraps below zero). -/
def fetch_sub_one (s : Nat) : Nat := (s + SIZE_MOD - 1) % SIZE_MOD

/-- Result of one pass through the body of a `while (true)` loop. -/
inductive Iter (ρ σ : Type) where
  /-- a null or deallocated node was dereferenced -/
  | fault : Iter ρ σ
  /-- the end of the body was reached: the loop goes round again -/
  | retry (s : σ) : Iter ρ σ
  /-- a `return` statement was executed -/
  | ret (r : ρ) (s : σ) : Iter ρ σ
deriving DecidableEq, Repr

/-- Result of a call. -/
inductive Outcome (α : Type) where
  /-- the call returned -/
  | ok (a : α) : Outcome α
  /-- a null or deallocated node was dereferenced -/
  | fault : Outcome α
  /-- the iteration budget ran out before the loop returned -/
  | timeout : Outcome α
deriving DecidableEq, Repr

/-- The value a call returned with, if it returned. -/
def Outcome.result? {α : Type} : Outcome α → Option α
  | .ok a => some a
  | .fault => none
  | .timeout => none

/-! ## concurrent_queue -/

/-- `concurrent_queue::Node`. -/
structure concurrent_queue.Node (T : Type) where
  next : Nat
  data : T
deriving DecidableEq, Repr

/-- `concurrent_queue`: the storage of the nodes that are currently allocated (by address),
and the three atomic members. -/
structure concurrent_queue (T : Type) where
  mem : Nat → Option (concurrent_queue.Node T)
  head_ : Nat
  tail_ : Nat
  size_ : Nat

namespace concurrent_queue

variable {T : Type}

/-- Memory with the node at address `a` (re)written. -/
def store (mem : Nat → Option (Node T)) (a : Nat) (n : Node T) : Nat → Option (Node T) :=
  fun b => if b = a then some n else mem b

/-- Memory after `destroy` and `deallocate` of the node at address `a`. -/
def free (mem : Nat → Option (Node T)) (a : Nat) : Nat → Option (Node T) :=
  fun b => if b = a then none else mem b

/-- Dereference a node pointer: `none` for `nullptr` and for a node that is not allocated. -/
def deref (mem : Nat → Option (Node T)) (p : Nat) : Option (Node T) :=
  if p = nullptr then none else mem p

/-- The constructor: `dummy` is the address returned by `allocate(1)`; the sentinel is
constructed without arguments, so its payload is the default value of `T`. -/
def new [Inhabited T] (dummy : Nat) : concurrent_queue T where
  mem := store (fun _ => none) dummy ⟨nullptr, default⟩
  head_ := dummy
  tail_ := dummy
  size_ := 0

/-- One pass through the loop body of `push`. -/
def push_iter (new_node : Nat) (q : concurrent_queue T) : Iter Unit (concurrent_queue T) :=
  let tail := q.tail_
  match deref q.mem tail with
  | none => .fault
  | some tail_node =>
    let next := tail_node.next
    if tail = q.tail_ then
      if next = nullptr then
        -- tail->next.compare_exchange_weak(next, new_node)
        if tail_node.next = next then
          let mem1 := store q.mem tail { tail_node with next := new_node }
          -- tail_.compare_exchange_strong(tail, new_node)
          let tail1 := if q.tail_ = tail then new_node else q.tail_
          .ret () { mem := mem1, head_ := q.head_, tail_ := tail1, size_ := fetch_add_one q.size_ }
        else .retry q
      else
        -- tail_.compare_exchange_strong(tail, next)
        .retry { q with tail_ := if q.tail_ = tail then next else q.tail_ }
    else .retry q

/-- The `while (true)` loop of `push`, with an iteration budget. -/
def push_loop (new_node : Nat) : Nat → concurrent_queue T → Outcome (concurrent_queue T)
  | 0, _ => .timeout
  | fuel + 1, q =>
    match push_iter new_node q with
    | .fault => .fault
    | .retry q1 => push_loop new_node fuel q1
    | .ret _ q1 => .ok q1

/-- `push(value)`: `new_node` is the address returned by `allocate(1)`; the node is constructed
from `value` (its `next` is null), then the loop links it. -/
def push (fuel : Nat) (new_node : Nat) (value : T) (q : concurrent_queue T) :
    Outcome (concurrent_queue T) :=
  push_loop new_node fuel { q with mem := store q.mem new_node ⟨nullptr, value⟩ }

/-- One pass through the loop body of `try_pop`; `value` is the caller's output variable. -/
def try_pop_iter (value : T) (q : concurrent_queue T) :
    Iter (Bool × T) (T × concurrent_queue T) :=
  let head := q.head_
  let tail := q.tail_
  match deref q.mem head with
  | none => .fault
  | some head_node =>
    let next := head_node.next
    if head = q.head_ then
      if head = tail then
        if next = nullptr then
          .ret (false, value) (value, q)
        else
          -- tail_.compare_exchange_strong(tail, next)
          .retry (value, { q with tail_ := if q.tail_ = tail then next else q.tail_ })
      else
        match deref q.mem next with
        | none => .fault
        | some next_node =>
          let value1 := next_node.data
          -- head_.compare_exchange_weak(head, next)
          if q.head_ = head then
            .ret (true, value1)
              (value1, { mem := free q.mem head, head_ := next, tail_ := q.tail_,
                         size_ := fetch_sub_one q.size_ })
          else .retry (value1, q)
    else .retry (value, q)

/-- The `while (true)` loop of `try_pop`, with an iteration budget.  The result is the returned
`bool`, the content of the caller's output variable afterwards, and the queue afterwards. -/
def try_pop : Nat → T → concurrent_queue T → Outcome ((Bool × T) × concurrent_queue T)
  | 0, _, _ => .timeout
  | fuel + 1, value, q =>
    match try_pop_iter value q with
    | .fault => .fault
    | .retry (value1, q1) => try_pop fuel value1 q1
    | .ret r (_, q1) => .ok (r, q1)

/-- `size()`. -/
def size (q : concurrent_queue T) : Nat := q.size_

/-- `empty()`. -/
def empty (q : concurrent_queue T) : Bool := q.size == 0

/-- A call on the queue.  `push new_node value`: `push(value)` during which `allocate(1)`
returns `new_node`.  `try_pop value`: `try_pop(x)` for a variable `x` that holds `value`. -/
inductive Call (T : Type) where
  | push (new_node : Nat) (value : T) : Call T
  | try_pop (value : T) : Call T
deriving DecidableEq, Repr

/-- Execute calls one at a time, each with iteration budget `fuel`.  The result lists, per
`try_pop` in call order, the returned `bool` and the content of the output variable. -/
def run (fuel : Nat) : List (Call T) → concurrent_queue T →
    Outcome (List (Bool × T) × concurrent_queue T)
  | [], q => .ok ([], q)
  | .push new_node value :: calls, q =>
    match push fuel new_node value q with
    | .ok q1 => run fuel calls q1
    | .fault => .fault
    | .timeout => .timeout
  | .try_pop value :: calls, q =>
    match try_pop fuel value q with
    | .ok (r, q1) =>
      match run fuel calls q1 with
      | .ok (rs, q2) => .ok (r :: rs, q2)
      | .fault => .fault
      | .timeout => .timeout
    | .fault => .fault
    | .timeout => .timeout

/-- The allocator's contract along an execution: each address returned to `push` is a valid
address at which no node is allocated at that moment. -/
def alloc_ok (fuel : Nat) : List (Call T) → concurrent_queue T → Bool
  | [], _ => true
  | .push new_node value :: calls, q =>
    decide (valid_addr new_node) && (q.mem new_node).isNone &&
      match push fuel new_node value q with
      | .ok q1 => alloc_ok fuel calls q1
      | _ => true
  | .try_pop value :: calls, q =>
    match try_pop fuel value q with
    | .ok (_, q1) => alloc_ok fuel calls q1
    | _ => true

/-- The values passed to `push`, in call order. -/
def pushed : List (Call T) → List T
  | [] => []
  | .push _ value :: calls => value :: pushed calls
  | .try_pop _ :: calls => pushed calls

/-- The values delivered by the successful `try_pop` calls, in call order. -/
def popped (results : List (Bool × T)) : List T :=
  (results.filter (fun r => r.1)).map (fun r => r.2)

/-- `Chain mem a bs`: the node at `a` is allocated, following `next` from it visits exactly the
addresses `bs`, in this order, and the last node visited has a null `next`. -/
def Chain (mem : Nat → Option (Node T)) : Nat → List Nat → Prop
  | a, [] => ∃ n, mem a = some n ∧ n.next = nullptr
  | a, b :: bs => ∃ n, mem a = some n ∧ n.next = b ∧ Chain mem b bs

/-- The last address of the chain that starts at `a` and goes on through `bs`. -/
def chain_last : Nat → List Nat → Nat
  | a, [] => a
  | _, b :: bs => chain_last b bs

/-- Well-formed queue state: `bs` are the addresses of the nodes after the sentinel `head_`, in
chain order, and `xs` their payloads.  `tail_` is the last node of the chain, the nodes of the
chain are distinct valid addresses, and the counter is the number of nodes after the sentinel. -/
structure WF (q : concurrent_queue T) (bs : List Nat) (xs : List T) : Prop where
  chain : Chain q.mem q.head_ bs
  nodup : (q.head_ :: bs).Nodup
  valid : ∀ a ∈ q.head_ :: bs, valid_addr a
  tail : q.tail_ = chain_last q.head_ bs
  payload : bs.map (fun b => (q.mem b).map Node.data) = xs.map some
  size : q.size_ = xs.length

/-- The states reached from a newly constructed queue by `push` and `try_pop` calls executed
one at a time, the allocator keeping its contract. -/
inductive Reachable [Inhabited T] : concurrent_queue T → Prop where
  | new (dummy : Nat) : valid_addr dummy → Reachable (new dummy)
  | push (q q1 : concurrent_queue T) (fuel new_node : Nat) (value : T) :
      Reachable q → valid_addr new_node → q.mem new_node = none →
      push fuel new_node value q = .ok q1 → Reachable q1
  | try_pop (q q1 : concurrent_queue T) (fuel : Nat) (value : T) (r : Bool × T) :
      Reachable q → try_pop fuel value q = .ok (r, q1) → Reachable q1

/-- Well-formed queue state with a lagging tail: `bs` are the addresses of the nodes after
`head_`, in chain order, `xs` their payloads, and `tail_` is the node of the chain that lies
`d` links before the last node.  The size counter is not constrained: between the linking of
a node and `size_.fetch_add` it is behind the chain. -/
structure WFL (q : concurrent_queue T) (bs : List Nat) (xs : List T) (d : Nat) : Prop where
  chain : Chain q.mem q.head_ bs
  nodup : (q.head_ :: bs).Nodup
  valid : ∀ a ∈ q.head_ :: bs, valid_addr a
  lag : d ≤ bs.length
  tail : (q.head_ :: bs)[bs.length - d]? = some q.tail_
  payload : bs.map (fun b => (q.mem b).map Node.data) = xs.map some

/-- A queue state with a lagging tail, as it arises between the two compare-exchanges of a
`push`: the node at address 2 (payload 10) is linked after the sentinel at address 1 while
`tail_` still points at the sentinel and the counter is still 0. -/
def lagging_example : concurrent_queue Nat :=
  { mem := store (store (fun _ => none) 2 ⟨nullptr, 10⟩) 1 ⟨2, 0⟩,
    head_ := 1, tail_ := 1, size_ := 0 }

/-- Result of a step of a thread. -/
inductive StepResult (σ : Type) where
  /-- the statement was executed -/
  | ok (s : σ) : StepResult σ
  /-- the statement dereferenced or deallocated a null or deallocated node -/
  | fault : StepResult σ
  /-- the step asks the allocator for an address it may not return (null, out of the address
  space, or that of an allocated node): there is no such execution -/
  | no_alloc : StepResult σ
deriving DecidableEq, Repr

/-- Position of a thread inside a call of `push` or `try_pop`: the statement it executes
next, with its locals (`new_node`, `tail`, `next`, `head`, and the output variable
`value`). -/
inductive PC (T : Type) where
  /-- between calls -/
  | idle : PC T
  /-- next: `new_node = allocate(1); construct(new_node, value)` -/
  | push_alloc (new_node : Nat) (value : T) : PC T
  /-- next: `tail = tail_.load()` -/
  | push_load_tail (new_node : Nat) : PC T
  /-- next: `next = tail->next.load()` -/
  | push_load_next (new_node tail : Nat) : PC T
  /-- next: `if (tail == tail_.load())` and `if (next == nullptr)` -/
  | push_check (new_node tail next : Nat) : PC T
  /-- next: `tail->next.compare_exchange_weak(next, new_node)` -/
  | push_link (new_node tail next : Nat) : PC T
  /-- next: `tail_.compare_exchange_strong(tail, new_node)` -/
  | push_swing (new_node tail : Nat) : PC T
  /-- next: `tail_.compare_exchange_strong(tail, next)` -/
  | push_help (new_node tail next : Nat) : PC T
  /-- next: `size_.fetch_add(1); return` -/
  | push_count : PC T
  /-- next: `head = head_.load()` -/
  | pop_load_head (value : T) : PC T
  /-- next: `tail = tail_.load()` -/
  | pop_load_tail (value : T) (head : Nat) : PC T
  /-- next: `next = head->next.load()` -/
  | pop_load_next (value : T) (head tail : Nat) : PC T
  /-- next: `if (head == head_.load())`, `if (head == tail)` and `if (next == nullptr)` -/
  | pop_check (value : T) (head tail next : Nat) : PC T
  /-- next: `tail_.compare_exchange_strong(tail, next)` -/
  | pop_help (value : T) (tail next : Nat) : PC T
  /-- next: `value = next->data` -/
  | pop_read (value : T) (head next : Nat) : PC T
  /-- next: `head_.compare_exchange_weak(head, next)` -/
  | pop_cas (value : T) (head next : Nat) : PC T
  /-- next: `destroy(head); deallocate(head, 1)` -/
  | pop_free (value : T) (head : Nat) : PC T
  /-- next: `size_.fetch_sub(1); return true` -/
  | pop_count (value : T) : PC T
deriving DecidableEq, Repr

/-- A thread that makes the calls of `todo` in order; `todo` holds the calls not yet begun,
`results` the returned `bool` and output variable of each `try_pop` that has returned. -/
structure Thread (T : Type) where
  todo : List (Call T)
  pc : PC T
  results : List (Bool × T)
deriving DecidableEq, Repr

/-- The next statement of a thread, run atomically on the shared queue: every access to an
atomic member or to a node is a step of its own. -/
def thread_step (t : Thread T) (q : concurrent_queue T) :
    StepResult (Thread T × concurrent_queue T) :=
  match t.pc with
  | .idle =>
    match t.todo with
    | [] => .ok (t, q)
    | .push new_node value :: rest =>
      .ok ({ todo := rest, pc := .push_alloc new_node value, results := t.results }, q)
    | .try_pop value :: rest =>
      .ok ({ todo := rest, pc := .pop_load_head value, results := t.results }, q)
  | .push_alloc new_node value =>
    if valid_addr new_node ∧ (q.mem new_node).isNone then
      .ok ({ t with pc := .push_load_tail new_node },
        { q with mem := store q.mem new_node ⟨nullptr, value⟩ })
    else .no_alloc
  | .push_load_tail new_node =>
    .ok ({ t with pc := .push_load_next new_node q.tail_ }, q)
  | .push_load_next new_node tail =>
    match deref q.mem tail with
    | none => .fault
    | some tail_node => .ok ({ t with pc := .push_check new_node tail tail_node.next }, q)
  | .push_check new_node tail next =>
    if tail = q.tail_ then
      if next = nullptr then .ok ({ t with pc := .push_link new_node tail next }, q)
      else .ok ({ t with pc := .push_help new_node tail next }, q)
    else .ok ({ t with pc := .push_load_tail new_node }, q)
  | .push_link new_node tail next =>
    match deref q.mem tail with
    | none => .fault
    | some tail_node =>
      if tail_node.next = next then
        .ok ({ t with pc := .push_swing new_node tail },
          { q with mem := store q.mem tail { tail_node with next := new_node } })
      else .ok ({ t with pc := .push_load_tail new_node }, q)
  | .push_swing new_node tail =>
    .ok ({ t with pc := .push_count },
      { q with tail_ := if q.tail_ = tail then new_node else q.tail_ })
  | .push_help new_node tail next =>
    .ok ({ t with pc := .push_load_tail new_node },
      { q with tail_ := if q.tail_ = tail then next else q.tail_ })
  | .push_count =>
    .ok ({ t with pc := .idle }, { q with size_ := fetch_add_one q.size_ })
  | .pop_load_head value =>
    .ok ({ t with pc := .pop_load_tail value q.head_ }, q)
  | .pop_load_tail value head =>
    .ok ({ t with pc := .pop_load_next value head q.tail_ }, q)
  | .pop_load_next value head tail =>
    match deref q.mem head with
    | none => .fault
    | some head_node => .ok ({ t with pc := .pop_check value head tail head_node.next }, q)
  | .pop_check value head tail next =>
    if head = q.head_ then
      if head = tail then
        if next = nullptr then
          .ok ({ t with pc := .idle, results := t.results ++ [(false, value)] }, q)
        else .ok ({ t with pc := .pop_help value tail next }, q)
      else .ok ({ t with pc := .pop_read value head next }, q)
    else .ok ({ t with pc := .pop_load_head value }, q)
  | .pop_help value tail next =>
    .ok ({ t with pc := .pop_load_head value },
      { q with tail_ := if q.tail_ = tail then next else q.tail_ })
  | .pop_read _ head next =>
    match deref q.mem next with
    | none => .fault
    | some next_node => .ok ({ t with pc := .pop_cas next_node.data head next }, q)
  | .pop_cas value head next =>
    if q.head_ = head then
      .ok ({ t with pc := .pop_free value head }, { q with head_ := next })
    else .ok ({ t with pc := .pop_load_head value }, q)
  | .pop_free value head =>
    match deref q.mem head with
    | none => .fault
    | some _ => .ok ({ t with pc := .pop_count value }, { q with mem := free q.mem head })
  | .pop_count value =>
    .ok ({ t with pc := .idle, results := t.results ++ [(true, value)] },
      { q with size_ := fetch_sub_one q.size_ })

/-- A queue shared by threads. -/
structure System (T : Type) where
  q : concurrent_queue T
  threads : List (Thread T)

/-- A queue constructed with its sentinel at `dummy`, and one thread for each list of
calls. -/
def System.start [Inhabited T] (dummy : Nat) (calls : List (List (Call T))) : System T :=
  { q := new dummy, threads := calls.map (fun l => { todo := l, pc := .idle, results := [] }) }

/-- One step of the system: thread `i` runs its next statement.  An index that names no
thread leaves the system as it is. -/
def sys_step (i : Nat) (s : System T) : StepResult (System T) :=
  match s.threads[i]? with
  | none => .ok s
  | some t =>
    match thread_step t s.q with
    | .ok (t1, q1) => .ok { q := q1, threads := s.threads.set i t1 }
    | .fault => .fault
    | .no_alloc => .no_alloc

/-- The system after the steps of a schedule, an interleaving of the threads' statements. -/
def run_schedule : List Nat → System T → StepResult (System T)
  | [], s => .ok s
  | i :: rest, s =>
    match sys_step i s with
    | .ok s1 => run_schedule rest s1
    | .fault => .fault
    | .no_alloc => .no_alloc

/-- What is seen of a state: `head_`, `tail_` and `size_`, the nodes at the given addresses,
and the threads. -/
def System.view (addrs : List Nat) (s : System T) :
    (Nat × Nat × Nat) × List (Option (Node T)) × List (Thread T) :=
  ((s.q.head_, s.q.tail_, s.q.size_), addrs.map s.q.mem, s.threads)

/-- The view of the state a run ends in; `none` if the run does not end in a state. -/
def view_of (addrs : List Nat) (r : StepResult (System T)) :
    Option ((Nat × Nat × Nat) × List (Option (Node T)) × List (Thread T)) :=
  match r with
  | .ok s => some (s.view addrs)
  | _ => none

/-- The values delivered to a thread by its successful `try_pop` calls. -/
def Thread.popped (t : Thread T) : List T := concurrent_queue.popped t.results

/-- Threads of the use-after-free scenario: a producer and two consumers on a queue whose
sentinel is at address 1. -/
def uaf_start : System Nat :=
  System.start 1 [[.push 2 10, .push 3 20], [.try_pop 0], [.try_pop 0, .try_pop 0]]

/-- The steps before the use-after-free: the producer (thread 0) completes both calls;
consumer 1 loads `head`, `tail`, `next` and passes the test `head == head_.load()`; consumer
2 completes two calls, the second of which deallocates the node consumer 1 holds in `next`. -/
def uaf_schedule : List Nat :=
  List.replicate 16 0 ++ List.replicate 5 1 ++ List.replicate 18 2

/-- Threads of the reuse scenario: a producer (the allocator gives its third call the address
1 again, free by then) and two consumers on a queue whose sentinel is at address 1. -/
def aba_start : System Nat :=
  System.start 1 [[.push 2 10, .push 3 20, .push 1 30], [.try_pop 0],
    [.try_pop 0, .try_pop 0, .try_pop 0]]

/-- An interleaving of the reuse scenario that runs every call to its return.  The producer
completes two calls; consumer 1 runs up to, not including, its compare-exchange on `head_`;
consumer 2 completes one call; the producer completes its third call; consumer 2 completes two
more calls; consumer 1 completes its call. -/
def aba_schedule : List Nat :=
  List.replicate 16 0 ++ List.replicate 6 1 ++ List.replicate 9 2 ++ List.replicate 8 0 ++
    List.replicate 18 2 ++ List.replicate 3 1

/-- Whether a run ended in a fault. -/
def StepResult.faulted {σ : Type} : StepResult σ → Bool
  | .fault => true
  | _ => false

/-- The next `n` statements of a thread that no other thread interrupts. -/
def solo : Nat → Thread T → concurrent_queue T → StepResult (Thread T × concurrent_queue T)
  | 0, t, q => .ok (t, q)
  | n + 1, t, q =>
    match thread_step t q with
    | .ok (t1, q1) => solo n t1 q1
    | .fault => .fault
    | .no_alloc => .no_alloc

/-- The queue a run ends with; `none` if the run does not end in a state. -/
def queue_of (r : StepResult (System T)) : Option (concurrent_queue T) :=
  match r with
  | .ok s => some s.q
  | _ => none

/-- Threads of the counter scenario: a producer that calls `push(10)` (node at address 2) and
a consumer that calls `try_pop`, on a queue whose sentinel is at address 1. -/
def wrap_start : System Nat :=
  System.start 1 [[.push 2 10], [.try_pop 0]]

/-- An interleaving of the counter scenario that runs both calls to their return.  The
producer runs up to and including the compare-exchange that links its node (6 steps); the
consumer makes its whole call (14 steps: one pass that helps `tail_` forward, one pass that
removes the node), the last step being `size_.fetch_sub(1)`; the producer then executes its
compare-exchange on `tail_` and `size_.fetch_add(1)`. -/
def wrap_schedule : List Nat :=
  List.replicate 6 0 ++ List.replicate 14 1 ++ List.replicate 2 0

/-- Threads of the scenarios for `try_pop` returning `false`: a producer that calls
`push(10)` (node at address 2) and two consumers that each call `try_pop` with an output
variable holding 0, on a queue whose sentinel is at address 1. -/
def stolen_start : System Nat :=
  System.start 1 [[.push 2 10], [.try_pop 0], [.try_pop 0]]

/-- An interleaving that runs every call to its return: the producer makes its whole call
(8 steps); consumer 1 runs up to and including `value = next->data` (6 steps); consumer 2
makes its whole call and takes the element (9 steps); consumer 1 then fails its
compare-exchange on `head_`, goes round again, finds `head_` without a successor and returns
`false` (5 steps). -/
def stolen_schedule : List Nat :=
  List.replicate 8 0 ++ List.replicate 6 1 ++ List.replicate 9 2 ++ List.replicate 5 1

/-- An interleaving that runs every call to its return: the producer runs up to and including
the compare-exchange that links its node (6 steps); consumer 1 finds `head_ == tail_` with a
successor and moves `tail_` forward (6 steps); consumer 2 makes its whole call and takes the
element (9 steps); consumer 1 goes round again and returns `false` (4 steps); the producer
finishes (2 steps). -/
def helped_schedule : List Nat :=
  List.replicate 6 0 ++ List.replicate 6 1 ++ List.replicate 9 2 ++ List.replicate 4 1 ++
    List.replicate 2 0

end concurrent_queue

end hcstl

/-! ## concurrent_map -/

namespace hcstl

/-- `concurrent_map::Node`: a node of a bucket chain, with the address it is allocated at and
its key/value pair.  The `next` pointer of a node is given by its position in the chain (see
`concurrent_map.Bucket`). -/
structure concurrent_map.Node (K V : Type) where
  addr : Nat
  data : K × V
deriving DecidableEq, Repr

/-- `concurrent_map::Bucket`.  `head` is the chain that starts at the `head` pointer, as the
list of its nodes in link order: `[]` for a null `head`, and each node's `next` points to the
node after it in the list (null for the last).  `size` is the bucket's counter.  The mutex
is not a field: a section of a call that holds it is executed as one step (see `Step`). -/
structure concurrent_map.Bucket (K V : Type) where
  head : List (concurrent_map.Node K V)
  size : Nat
deriving DecidableEq, Repr

/-- `concurrent_map`: the bucket table and the global counter. -/
structure concurrent_map (K V : Type) where
  buckets_ : List (concurrent_map.Bucket K V)
  size_ : Nat
deriving DecidableEq, Repr

namespace concurrent_map

variable {K V : Type}

/-- `NUM_SHARDS`. -/
def NUM_SHARDS : Nat := 32

/-- A default-constructed `Bucket`: null `head`, `size` 0. -/
def Bucket.init : Bucket K V := { head := [], size := 0 }

/-- The constructor: `buckets_(NUM_SHARDS)`, `size_{0}`. -/
def new : concurrent_map K V :=
  { buckets_ := List.replicate NUM_SHARDS Bucket.init, size_ := 0 }

/-- `bucket_idx(key)`, for the hash function `hasher_`. -/
def bucket_idx (hasher_ : K → Nat) (key : K) : Nat := hasher_ key % NUM_SHARDS

/-- `buckets_[bucket_index]`.  An index outside the table reads as a default bucket;
`bucket_idx` stays inside the table of every well-formed state (`WF.idx_lt`). -/
def bucket_at (m : concurrent_map K V) (bucket_index : Nat) : Bucket K V :=
  m.buckets_.getD bucket_index Bucket.init

/-- The `while (current)` loop of `insert`: whether some node of the chain has a key equal to
`key` (in which case `insert` returns `false`). -/
def chain_contains [DecidableEq K] (key : K) : List (Node K V) → Bool
  | [] => false
  | current :: rest => if current.data.1 = key then true else chain_contains key rest

/-- The `while (current)` loop of `find`: the value of the first node of the chain whose key
equals `key`. -/
def chain_find [DecidableEq K] (key : K) : List (Node K V) → Option V
  | [] => none
  | current :: rest => if current.data.1 = key then some current.data.2 else chain_find key rest

/-- The `while (current)` loop of `erase`: the chain after unlinking the first node whose key
equals `key` (the nodes before it keep their order and are followed by the nodes after it),
or `none` when no node has that key. -/
def chain_erase [DecidableEq K] (key : K) : List (Node K V) → Option (List (Node K V))
  | [] => none
  | current :: rest =>
    if current.data.1 = key then some rest
    else (chain_erase key rest).map (fun rest1 => current :: rest1)

/-- `insert(key, value)`; `new_node` is the address returned by `allocate(1)` when a node is
allocated.  The result is the returned `bool` and the map afterwards. -/
def insert [DecidableEq K] (hasher_ : K → Nat) (new_node : Nat) (key : K) (value : V)
    (m : concurrent_map K V) : Bool × concurrent_map K V :=
  let bucket_index := bucket_idx hasher_ key
  let bucket := m.bucket_at bucket_index
  if chain_contains key bucket.head then (false, m)
  else
    (true,
      { buckets_ := m.buckets_.set bucket_index
          { head := { addr := new_node, data := (key, value) } :: bucket.head,
            size := fetch_add_one bucket.size },
        size_ := fetch_add_one m.size_ })

/-- `find(key)`. -/
def find [DecidableEq K] (hasher_ : K → Nat) (key : K) (m : concurrent_map K V) : Option V :=
  let bucket_index := bucket_idx hasher_ key
  let bucket := m.bucket_at bucket_index
  chain_find key bucket.head

/-- `erase(key)`.  The result is the returned `bool` and the map afterwards. -/
def erase [DecidableEq K] (hasher_ : K → Nat) (key : K) (m : concurrent_map K V) :
    Bool × concurrent_map K V :=
  let bucket_index := bucket_idx hasher_ key
  let bucket := m.bucket_at bucket_index
  match chain_erase key bucket.head with
  | none => (false, m)
  | some chain =>
    (true,
      { buckets_ := m.buckets_.set bucket_index
          { head := chain, size := fetch_sub_one bucket.size },
        size_ := fetch_sub_one m.size_ })

/-- `size()`. -/
def size (m : concurrent_map K V) : Nat := m.size_

/-- `empty()`. -/
def empty (m : concurrent_map K V) : Bool := m.size == 0

/-- `clear()`: every bucket gets a null `head` and `size` 0, then the global counter is set
to 0. -/
def clear (m : concurrent_map K V) : concurrent_map K V :=
  { buckets_ := m.buckets_.map (fun _ => { head := [], size := 0 }), size_ := 0 }

/-- The nodes of all chains, bucket after bucket. -/
def all_nodes : List (Bucket K V) → List (Node K V)
  | [] => []
  | bucket :: rest => bucket.head ++ all_nodes rest

/-- The allocator's contract for the address returned to `insert`: a valid address at which
no node of the map is allocated. -/
def allocatable (m : concurrent_map K V) (new_node : Nat) : Prop :=
  valid_addr new_node ∧ new_node ∉ (all_nodes m.buckets_).map Node.addr

instance (m : concurrent_map K V) (new_node : Nat) : Decidable (allocatable m new_node) := by
  unfold allocatable; infer_instance

/-- The states reached from a newly constructed map by `insert`, `erase` and `clear` calls
executed one at a time, the allocator keeping its contract. -/
inductive Reachable [DecidableEq K] (hasher_ : K → Nat) : concurrent_map K V → Prop where
  | new : Reachable hasher_ new
  | insert (m : concurrent_map K V) (new_node : Nat) (key : K) (value : V) :
      Reachable hasher_ m → allocatable m new_node →
      Reachable hasher_ (insert hasher_ new_node key value m).2
  | erase (m : concurrent_map K V) (key : K) :
      Reachable hasher_ m → Reachable hasher_ (erase hasher_ key m).2
  | clear (m : concurrent_map K V) : Reachable hasher_ m → Reachable hasher_ (clear m)

/-- Well-formed map state. -/
structure WF [DecidableEq K] (hasher_ : K → Nat) (m : concurrent_map K V) : Prop where
  length : m.buckets_.length = NUM_SHARDS
  count : ∀ bucket ∈ m.buckets_, bucket.size = bucket.head.length
  keys : ∀ bucket ∈ m.buckets_, (bucket.head.map (fun n => n.data.1)).Nodup
  placed : ∀ i, ∀ n ∈ (m.bucket_at i).head, bucket_idx hasher_ n.data.1 = i
  total : m.size_ = (all_nodes m.buckets_).length
  addrs : ((all_nodes m.buckets_).map Node.addr).Nodup
  valid : ∀ n ∈ all_nodes m.buckets_, valid_addr n.addr

/-- A sequence of `insert` calls executed one at a time: each entry gives the address the
allocator returns, the key and the value.  The result lists the returned `bool`s in call
order and gives the map afterwards. -/
def insert_all [DecidableEq K] (hasher_ : K → Nat) :
    List (Nat × K × V) → concurrent_map K V → List Bool × concurrent_map K V
  | [], m => ([], m)
  | (new_node, key, value) :: entries, m =>
    let r := insert hasher_ new_node key value m
    let rs := insert_all hasher_ entries r.2
    (r.1 :: rs.1, rs.2)

/-- The entries of the test `ConcurrentMapTest.ConcurrentOperations`: the keys `0 .. 3999`
(thread `i` inserts the keys `i * 1000 + j`), each with value `2 * key`; the node for `key`
is taken to be allocated at address `key + 1`. -/
def test_entries : List (Nat × Nat × Nat) :=
  (List.range 4000).map (fun key => (key + 1, key, 2 * key))

/-- A step of a call on the map, for calls that overlap in time.  `insert` and `erase` hold
the exclusive lock of the bucket of their key from their first access to the map until they
return, so each call is one step.  `clear` is a loop whose body holds the lock of one
bucket, followed by `size_.store(0)` after the loop: one step per pass of the loop and one
step for the store. -/
inductive Step (K V : Type) where
  | insert (new_node : Nat) (key : K) (value : V) : Step K V
  | erase (key : K) : Step K V
  | clear_bucket (bucket_index : Nat) : Step K V
  | clear_store : Step K V
deriving DecidableEq, Repr

/-- One pass of the loop of `clear`, for the bucket at `bucket_index`: the chain is freed,
`head` is set to null and the bucket counter to 0. -/
def clear_bucket (bucket_index : Nat) (m : concurrent_map K V) : concurrent_map K V :=
  { buckets_ := m.buckets_.set bucket_index { head := [], size := 0 }, size_ := m.size_ }

/-- The statement of `clear` after its loop: `size_.store(0)`. -/
def clear_store (m : concurrent_map K V) : concurrent_map K V :=
  { buckets_ := m.buckets_, size_ := 0 }

/-- The bucket whose exclusive lock is held while the step runs; `none` when no lock is
held. -/
def Step.lock (hasher_ : K → Nat) : Step K V → Option Nat
  | .insert _ key _ => some (bucket_idx hasher_ key)
  | .erase key => some (bucket_idx hasher_ key)
  | .clear_bucket bucket_index => some bucket_index
  | .clear_store => none

/-- The effect of a step. -/
def step [DecidableEq K] (hasher_ : K → Nat) : Step K V → concurrent_map K V →
    concurrent_map K V
  | .insert new_node key value, m => (insert hasher_ new_node key value m).2
  | .erase key, m => (erase hasher_ key m).2
  | .clear_bucket bucket_index, m => clear_bucket bucket_index m
  | .clear_store, m => clear_store m

/-- The effect of a sequence of steps. -/
def steps [DecidableEq K] (hasher_ : K → Nat) (schedule : List (Step K V))
    (m : concurrent_map K V) : concurrent_map K V :=
  schedule.foldl (fun m1 s => step hasher_ s m1) m

/-- The steps of one call of `clear` on a map with `n` buckets. -/
def clear_steps (n : Nat) : List (Step K V) :=
  (List.range n).map Step.clear_bucket ++ [Step.clear_store]

/-- An interleaving of `clear()` with `insert(1, 10)` on a new map (hash: identity, node
allocated at address 100): the insert runs between the last pass of the loop of `clear` and
its `size_.store(0)`. -/
def clear_race : List (Step Nat Nat) :=
  (List.range NUM_SHARDS).map Step.clear_bucket ++ [Step.insert 100 1 10, Step.clear_store]

/-- A call on the map.  `insert new_node key value` is `insert(key, value)` during which
`allocate(1)`, if it is called, returns `new_node`. -/
inductive Call (K V : Type) where
  | insert (new_node : Nat) (key : K) (value : V) : Call K V
  | find (key : K) : Call K V
  | erase (key : K) : Call K V
  | size : Call K V
  | empty : Call K V
  | clear : Call K V
deriving DecidableEq, Repr

/-- What a call returns: the `bool` of `insert`, `erase` and `empty`, the `std::optional` of
`find`, the `size_type` of `size`, nothing for `clear`. -/
inductive Ret (V : Type) where
  | bool (b : Bool) : Ret V
  | optional (v : Option V) : Ret V
  | count (n : Nat) : Ret V
  | void : Ret V
deriving DecidableEq, Repr

/-- Execute a call: what it returns and the map afterwards. -/
def call [DecidableEq K] (hasher_ : K → Nat) : Call K V → concurrent_map K V →
    Ret V × concurrent_map K V
  | .insert new_node key value, m =>
    ((Ret.bool (insert hasher_ new_node key value m).1), (insert hasher_ new_node key value m).2)
  | .find key, m => (.optional (find hasher_ key m), m)
  | .erase key, m => (.bool (erase hasher_ key m).1, (erase hasher_ key m).2)
  | .size, m => (.count m.size, m)
  | .empty, m => (.bool m.empty, m)
  | .clear, m => (.void, clear m)

/-- Execute calls one at a time: what they return, in call order, and the map afterwards. -/
def run [DecidableEq K] (hasher_ : K → Nat) :
    List (Call K V) → concurrent_map K V → List (Ret V) × concurrent_map K V
  | [], m => ([], m)
  | c :: calls, m =>
    ((call hasher_ c m).1 :: (run hasher_ calls (call hasher_ c m).2).1,
      (run hasher_ calls (call hasher_ c m).2).2)

/-- The allocator's contract along an execution: each `insert` that allocates a node (the key
is not in its bucket's chain) is given a valid address at which no node of the map is
allocated. -/
def alloc_ok [DecidableEq K] (hasher_ : K → Nat) :
    List (Call K V) → concurrent_map K V → Bool
  | [], _ => true
  | .insert new_node key value :: calls, m =>
    (chain_contains key (m.bucket_at (bucket_idx hasher_ key)).head ||
      decide (allocatable m new_node)) &&
    alloc_ok hasher_ calls (insert hasher_ new_node key value m).2
  | c :: calls, m => alloc_ok hasher_ calls (call hasher_ c m).2

/-- Lookup in an association list keyed by equality: the value of the entry with the key. -/
def assoc_lookup [DecidableEq K] (key : K) : List (K × V) → Option V
  | [] => none
  | entry :: rest => if entry.1 = key then some entry.2 else assoc_lookup key rest

/-- An association list without the entry of the key. -/
def assoc_remove [DecidableEq K] (key : K) : List (K × V) → List (K × V)
  | [] => []
  | entry :: rest => if entry.1 = key then rest else entry :: assoc_remove key rest

/-- Insert-if-absent on an association list: `false` and no change when the key has an
entry, else `true` and the new entry is added. -/
def assoc_insert [DecidableEq K] (key : K) (value : V) (a : List (K × V)) :
    Bool × List (K × V) :=
  match assoc_lookup key a with
  | some _ => (false, a)
  | none => (true, (key, value) :: a)

/-- Delete on an association list: `true` and the entry of the key is removed when there is
one, else `false` and no change. -/
def assoc_delete [DecidableEq K] (key : K) (a : List (K × V)) : Bool × List (K × V) :=
  match assoc_lookup key a with
  | some _ => (true, assoc_remove key a)
  | none => (false, a)

/-- Count of an association list: the number of its entries. -/
def assoc_count (a : List (K × V)) : Nat := a.length

/-- A call executed on the single association map of the claim ("a single association map
keyed by equality: insert-if-absent, lookup, delete, count"): no hash function, no buckets, no
addresses, no machine arithmetic. -/
def assoc_call [DecidableEq K] : Call K V → List (K × V) → Ret V × List (K × V)
  | .insert _ key value, a => (.bool (assoc_insert key value a).1, (assoc_insert key value a).2)
  | .find key, a => (.optional (assoc_lookup key a), a)
  | .erase key, a => (.bool (assoc_delete key a).1, (assoc_delete key a).2)
  | .size, a => (.count (assoc_count a), a)
  | .empty, a => (.bool (assoc_count a == 0), a)
  | .clear, _ => (.void, [])

/-- Calls executed one at a time on the single association map, starting from `a`: what they
return, in call order. -/
def assoc_run [DecidableEq K] : List (Call K V) → List (K × V) → List (Ret V)
  | [], _ => []
  | c :: calls, a => (assoc_call c a).1 :: assoc_run calls (assoc_call c a).2

/-- The map `m` (with hash function `hasher_`) holds the association list `a`. -/
structure Refines [DecidableEq K] (hasher_ : K → Nat) (m : concurrent_map K V)
    (a : List (K × V)) : Prop where
  wf : WF hasher_ m
  lookup : ∀ key, find hasher_ key m = assoc_lookup key a
  nodup : (a.map Prod.fst).Nodup
  count : m.size_ = a.length

/-- Calls that exercise every operation, with keys 1 and 33 (which share bucket 1 under the
identity hash) and 2. -/
def sample_calls : List (Call Nat Nat) :=
  [.empty, .insert 101 1 10, .insert 102 33 20, .insert 103 1 30, .insert 103 2 40,
   .find 1, .find 33, .find 5, .size, .erase 1, .erase 1, .find 33, .insert 101 1 50, .size,
   .empty, .clear, .find 2, .size, .empty]

end concurrent_map

end hcstl

/-! ## concurrent_vector -/

namespace hcstl

/-- `concurrent_vector::Segment`: `data` is the array of `SEGMENT_SIZE` slots and `size` the
counter of filled slots.  `addr` is the address at which the segment is allocated; the
`std::unique_ptr` that owns it is the only pointer to it. -/
structure concurrent_vector.Segment (T : Type) where
  addr : Nat
  data : List T
  size : Nat
deriving DecidableEq, Repr

/-- `concurrent_vector`: the table of segment pointers (`none` is a null `unique_ptr`) and the
size counter.  The mutex is not a field: `push_back_locked` records its acquisitions. -/
structure concurrent_vector (T : Type) where
  segments_ : List (Option (concurrent_vector.Segment T))
  size_ : Nat
deriving DecidableEq, Repr

namespace concurrent_vector

variable {T : Type}

/-- `SEGMENT_SIZE`. -/
def SEGMENT_SIZE : Nat := 1024

/-- A lower bound for `sizeof(Segment)`: `SEGMENT_SIZE` elements of at least one byte each and
the 8-byte counter. -/
def SEGMENT_BYTES : Nat := SEGMENT_SIZE + 8

/-- The segment made by `std::make_unique<Segment>()` at address `addr`: value-initialized
slots and counter 0. -/
def Segment.init [Inhabited T] (addr : Nat) : Segment T :=
  { addr := addr, data := List.replicate SEGMENT_SIZE default, size := 0 }

/-- The default constructor: empty segment table, `size_{0}`. -/
def new : concurrent_vector T := { segments_ := [], size_ := 0 }

/-- `std::vector::resize(n)` on the segment table: new entries are null pointers. -/
def resize (segments : List (Option (Segment T))) (n : Nat) : List (Option (Segment T)) :=
  (segments ++ List.replicate (n - segments.length) none).take n

/-- `ensure_segment(segment_index)`; `new_segment` is the address at which `make_unique`
allocates when a segment is made. -/
def ensure_segment [Inhabited T] (new_segment : Nat) (segment_index : Nat)
    (v : concurrent_vector T) : concurrent_vector T :=
  let segments1 :=
    if segment_index ≥ v.segments_.length then resize v.segments_ (segment_index + 1)
    else v.segments_
  let segments2 :=
    match segments1[segment_index]? with
    | some none => segments1.set segment_index (some (Segment.init new_segment))
    | _ => segments1
  { segments_ := segments2, size_ := v.size_ }

/-- `push_back(value)`; `new_segment` is the address at which `make_unique` allocates when a
segment is made.  The result is `none` when the call dereferences a null segment pointer or
indexes the table or the slot array out of range (undefined behaviour). -/
def push_back [Inhabited T] (new_segment : Nat) (value : T) (v : concurrent_vector T) :
    Option (concurrent_vector T) :=
  let current_size := v.size_
  let segment_index := current_size / SEGMENT_SIZE
  let offset := current_size % SEGMENT_SIZE
  let v1 := ensure_segment new_segment segment_index v
  match v1.segments_[segment_index]? with
  | some (some segment) =>
    if offset < segment.data.length then
      some
        { segments_ := v1.segments_.set segment_index
            (some { addr := segment.addr, data := segment.data.set offset value,
                    size := fetch_add_one segment.size }),
          size_ := fetch_add_one v1.size_ }
    else none
  | _ => none

/-- `size()`. -/
def size (v : concurrent_vector T) : Nat := v.size_

/-- `empty()`. -/
def empty (v : concurrent_vector T) : Bool := v.size == 0

/-- Result of `at(index)`. -/
inductive Access (T : Type) where
  /-- the call returned (a reference to) this element -/
  | value (x : T) : Access T
  /-- the call threw `std::out_of_range` -/
  | out_of_range : Access T
  /-- the call dereferenced a null segment pointer or indexed out of range -/
  | fault : Access T
deriving DecidableEq, Repr

/-- `at(index)`. -/
def at_ (index : Nat) (v : concurrent_vector T) : Access T :=
  if index ≥ v.size then .out_of_range
  else
    let segment_index := index / SEGMENT_SIZE
    let offset := index % SEGMENT_SIZE
    match v.segments_[segment_index]? with
    | some (some segment) =>
      match segment.data[offset]? with
      | some x => .value x
      | none => .fault
    | _ => .fault

/-- The addresses of the allocated segments, in table order. -/
def segment_addrs : List (Option (Segment T)) → List Nat
  | [] => []
  | none :: rest => segment_addrs rest
  | some segment :: rest => segment.addr :: segment_addrs rest

/-- Two segments allocated at `a` and `b` do not overlap. -/
def apart (a b : Nat) : Prop := a + SEGMENT_BYTES ≤ b ∨ b + SEGMENT_BYTES ≤ a

instance (a b : Nat) : Decidable (apart a b) := by
  unfold apart; infer_instance

/-- The allocator's contract for the address returned to `make_unique<Segment>()`: the storage
is not at null, lies inside the address space, and overlaps no allocated segment. -/
def allocatable (v : concurrent_vector T) (new_segment : Nat) : Prop :=
  new_segment ≠ nullptr ∧ new_segment + SEGMENT_BYTES ≤ SIZE_MOD ∧
    ∀ a ∈ segment_addrs v.segments_, apart new_segment a

instance (v : concurrent_vector T) (new_segment : Nat) :
    Decidable (allocatable v new_segment) := by
  unfold allocatable; infer_instance

/-- Whether `push_back` on `v` makes a segment: the target entry of the table is missing or
null. -/
def needs_segment (v : concurrent_vector T) : Bool :=
  match v.segments_[v.size_ / SEGMENT_SIZE]? with
  | some (some _) => false
  | _ => true

/-- A sequence of `push_back` calls executed one at a time: each entry gives the address for
`make_unique` and the value.  `none` when one of the calls is undefined. -/
def push_back_all [Inhabited T] :
    List (Nat × T) → concurrent_vector T → Option (concurrent_vector T)
  | [], v => some v
  | (new_segment, value) :: calls, v =>
    match push_back new_segment value v with
    | some v1 => push_back_all calls v1
    | none => none

/-- The allocator's contract along a sequence of `push_back` calls: whenever a call makes a
segment, the address it gets is allocatable at that moment. -/
def alloc_ok [Inhabited T] : List (Nat × T) → concurrent_vector T → Bool
  | [], _ => true
  | (new_segment, value) :: calls, v =>
    (!needs_segment v || decide (allocatable v new_segment)) &&
      match push_back new_segment value v with
      | some v1 => alloc_ok calls v1
      | none => true

/-- The states reached from a new vector by `push_back` calls executed one at a time, the
allocator keeping its contract. -/
inductive Reachable [Inhabited T] : concurrent_vector T → Prop where
  | new : Reachable new
  | push_back (v v1 : concurrent_vector T) (new_segment : Nat) (value : T) :
      Reachable v → (needs_segment v = true → allocatable v new_segment) →
      push_back new_segment value v = some v1 → Reachable v1

/-- The sum of the fill counters of the allocated segments. -/
def fill_sum : List (Option (Segment T)) → Nat
  | [] => 0
  | none :: rest => fill_sum rest
  | some segment :: rest => segment.size + fill_sum rest

/-- Calls that append `xs` to a vector holding `start` values, in which the segment for the
values number `1024 * j, 1024 * j + 1, ...` is allocated at address `16 + 2000 * j`. -/
def spaced_calls (start : Nat) : List T → List (Nat × T)
  | [] => []
  | x :: xs => (16 + 2000 * (start / SEGMENT_SIZE), x) :: spaced_calls (start + 1) xs

/-- Invariant of the vector for the appended values `vs` and a segment table of `c` entries:
the counter is the number of values; every table entry is an allocated segment of
`SEGMENT_SIZE` slots; slot `o` of segment `j` holds value number `j * SEGMENT_SIZE + o`
(the default value when there is no such value yet) and the fill counter of segment `j` is
the number of values that fall into it; the segments do not overlap and lie inside the
address space; the counter is the sum of the fill counters. -/
structure Inv [Inhabited T] (v : concurrent_vector T) (vs : List T) (c : Nat) : Prop where
  size : v.size_ = vs.length
  table : v.segments_.length = c
  segment : ∀ j < c, ∃ seg, v.segments_[j]? = some (some seg) ∧
    seg.data.length = SEGMENT_SIZE ∧
    seg.size = min SEGMENT_SIZE (vs.length - j * SEGMENT_SIZE) ∧
    ∀ o < SEGMENT_SIZE, seg.data[o]? = some (vs.getD (j * SEGMENT_SIZE + o) default)
  apart : (segment_addrs v.segments_).Pairwise apart
  inside : ∀ a ∈ segment_addrs v.segments_, a ≠ nullptr ∧ a + SEGMENT_BYTES ≤ SIZE_MOD
  fill : v.size_ = fill_sum v.segments_

/-- Well-formed vector state for the appended values `vs`: the invariant with a table of
`ceil(vs.length / SEGMENT_SIZE)` entries. -/
def WF [Inhabited T] (v : concurrent_vector T) (vs : List T) : Prop :=
  Inv v vs ((vs.length + (SEGMENT_SIZE - 1)) / SEGMENT_SIZE)

/-- An acquisition of the vector's `mutex_`. -/
inductive LockEvent where
  /-- `std::unique_lock lock(mutex_)`: the exclusive lock -/
  | unique_lock : LockEvent
  /-- `std::shared_lock lock(mutex_)`: the shared lock -/
  | shared_lock : LockEvent
deriving DecidableEq, Repr

/-- `ensure_segment(segment_index)` together with the acquisitions of `mutex_` it performs.
Its first statement is `std::unique_lock lock(mutex_)`, ahead of both tests of the table; the
statements under the lock are those of `ensure_segment`. -/
def ensure_segment_locked [Inhabited T] (new_segment : Nat) (segment_index : Nat)
    (v : concurrent_vector T) : List LockEvent × concurrent_vector T :=
  ([LockEvent.unique_lock], ensure_segment new_segment segment_index v)

/-- `push_back(value)` together with the acquisitions of `mutex_` it performs: those of its
call of `ensure_segment`; its other statements take no lock. -/
def push_back_locked [Inhabited T] (new_segment : Nat) (value : T) (v : concurrent_vector T) :
    List LockEvent × Option (concurrent_vector T) :=
  let current_size := v.size_
  let segment_index := current_size / SEGMENT_SIZE
  let offset := current_size % SEGMENT_SIZE
  let r := ensure_segment_locked new_segment segment_index v
  let v1 := r.2
  match v1.segments_[segment_index]? with
  | some (some segment) =>
    if offset < segment.data.length then
      (r.1, some
        { segments_ := v1.segments_.set segment_index
            (some { addr := segment.addr, data := segment.data.set offset value,
                    size := fetch_add_one segment.size }),
          size_ := fetch_add_one v1.size_ })
    else (r.1, none)
  | _ => (r.1, none)

/-- The vector after `push_back(7)` on a new vector, the segment being allocated at address
16. -/
def one_element : concurrent_vector Nat :=
  { segments_ := [some { addr := 16, data := 7 :: List.replicate 1023 0, size := 1 }],
    size_ := 1 }

/-- Position of a thread inside a call of `push_back(value)`: the statements of the call it
has executed, with the locals it still uses. -/
inductive PC (T : Type) where
  /-- between calls -/
  | idle : PC T
  /-- after `current_size = size_.load()` -/
  | loaded (value : T) (current_size : Nat) : PC T
  /-- after `ensure_segment(segment_index)` -/
  | ensured (value : T) (current_size : Nat) : PC T
  /-- after `segments_[segment_index]->data[offset] = value` -/
  | written (current_size : Nat) : PC T
  /-- after `segments_[segment_index]->size.fetch_add(1)` -/
  | counted : PC T
deriving DecidableEq, Repr

/-- A thread that calls `push_back` once for each value of `todo`, in order; `todo` holds the
values of the calls not yet begun. -/
structure Thread (T : Type) where
  todo : List T
  pc : PC T
deriving DecidableEq, Repr

/-- The next statement of a thread, run atomically on the shared vector.  A call of
`push_back` is five steps: load `size_`, `ensure_segment`, write the slot, increment the
segment counter, increment `size_`.  `new_segment` is the address at which `make_unique`
allocates if the step makes a segment.  The result is `none` when the statement dereferences
a null segment pointer or indexes the table or the slot array out of range.  A thread with no
call left stays as it is.  The write of the slot and the increment of the segment counter
read `segments_` without holding `mutex_`; here each is one step on the current table, and
`sys_step_checked` adds, as a fault, the data race of these reads with a `segments_.resize`
of another thread. -/
def thread_step [Inhabited T] (new_segment : Nat) (t : Thread T) (v : concurrent_vector T) :
    Option (Thread T × concurrent_vector T) :=
  match t.pc with
  | .idle =>
    match t.todo with
    | [] => some (t, v)
    | value :: rest => some ({ todo := rest, pc := .loaded value v.size_ }, v)
  | .loaded value current_size =>
    some ({ todo := t.todo, pc := .ensured value current_size },
      ensure_segment new_segment (current_size / SEGMENT_SIZE) v)
  | .ensured value current_size =>
    match v.segments_[current_size / SEGMENT_SIZE]? with
    | some (some segment) =>
      if current_size % SEGMENT_SIZE < segment.data.length then
        some ({ todo := t.todo, pc := .written current_size },
          { segments_ := v.segments_.set (current_size / SEGMENT_SIZE)
              (some { addr := segment.addr,
                      data := segment.data.set (current_size % SEGMENT_SIZE) value,
                      size := segment.size }),
            size_ := v.size_ })
      else none
    | _ => none
  | .written current_size =>
    match v.segments_[current_size / SEGMENT_SIZE]? with
    | some (some segment) =>
      some ({ todo := t.todo, pc := .counted },
        { segments_ := v.segments_.set (current_size / SEGMENT_SIZE)
            (some { addr := segment.addr, data := segment.data,
                    size := fetch_add_one segment.size }),
          size_ := v.size_ })
    | _ => none
  | .counted =>
    some ({ todo := t.todo, pc := .idle },
      { segments_ := v.segments_, size_ := fetch_add_one v.size_ })

/-- A vector shared by threads. -/
structure System (T : Type) where
  v : concurrent_vector T
  threads : List (Thread T)
deriving DecidableEq, Repr

/-- Thread `i` is to call `push_back` for each value of the `i`-th list, on a new vector. -/
def System.start (values : List (List T)) : System T :=
  { v := new, threads := values.map (fun l => { todo := l, pc := .idle }) }

/-- One step of the system: the thread with index `e.1` runs its next statement, the
allocator returning `e.2` if asked.  An index that names no thread leaves the system as it
is. -/
def sys_step [Inhabited T] (e : Nat × Nat) (s : System T) : Option (System T) :=
  match s.threads[e.1]? with
  | none => some s
  | some t =>
    match thread_step e.2 t s.v with
    | none => none
    | some (t1, v1) => some { v := v1, threads := s.threads.set e.1 t1 }

/-- The system after the steps of a schedule, an interleaving of the threads' statements. -/
def run_schedule [Inhabited T] : List (Nat × Nat) → System T → Option (System T)
  | [], s => some s
  | e :: rest, s =>
    match sys_step e s with
    | none => none
    | some s1 => run_schedule rest s1

/-- The calls of a thread that have not yet incremented `size_`. -/
def Thread.pending (t : Thread T) : Nat :=
  t.todo.length + (match t.pc with | .idle => 0 | _ => 1)

/-- The calls of the threads that have not yet incremented `size_`. -/
def pending_sum : List (Thread T) → Nat
  | [] => 0
  | t :: rest => t.pending + pending_sum rest

/-- The steps a thread has still to take. -/
def Thread.remaining_steps (t : Thread T) : Nat :=
  5 * t.todo.length +
    (match t.pc with
     | .idle => 0 | .loaded _ _ => 4 | .ensured _ _ => 3 | .written _ => 2 | .counted => 1)

/-- The steps thread `i` has still to take (0 if there is no such thread). -/
def System.remaining (s : System T) (i : Nat) : Nat :=
  match s.threads[i]? with
  | none => 0
  | some t => t.remaining_steps

/-- Every thread has returned from its last call. -/
def System.finished (s : System T) : Prop := ∀ t ∈ s.threads, t.todo = [] ∧ t.pc = .idle

/-- The number of steps of thread `i` in a schedule. -/
def steps_of (i : Nat) (schedule : List (Nat × Nat)) : Nat :=
  (schedule.filter (fun e => e.1 == i)).length

/-- The segment a thread is about to access without a test, if any. -/
def Thread.target (t : Thread T) : Option Nat :=
  match t.pc with
  | .ensured _ current_size => some (current_size / SEGMENT_SIZE)
  | .written current_size => some (current_size / SEGMENT_SIZE)
  | _ => none

/-- The table has an allocated segment at index `j`. -/
def present (v : concurrent_vector T) (j : Nat) : Prop :=
  ∃ seg, v.segments_[j]? = some (some seg)

/-- Every allocated segment has its `SEGMENT_SIZE` slots. -/
def Sized (v : concurrent_vector T) : Prop :=
  ∀ (j : Nat) (seg : Segment T), v.segments_[j]? = some (some seg) →
    seg.data.length = SEGMENT_SIZE

/-- Invariant of the shared vector under any schedule: segments keep their slots, the segment
a thread is about to access is allocated, and `size_` counts, modulo 2^64, the calls that have
incremented it. -/
structure SysInv (s : System T) (total : Nat) : Prop where
  sized : Sized s.v
  targets : ∀ t ∈ s.threads, ∀ j, t.target = some j → present s.v j
  range : s.v.size_ < SIZE_MOD
  count : (s.v.size_ + pending_sum s.threads) % SIZE_MOD = total % SIZE_MOD

/-- The values of the test `ConcurrentPushBack`: thread `i` appends `i * 1000 + j` for `j`
below 1000. -/
def test_values : List (List Nat) :=
  (List.range 4).map (fun i => (List.range 1000).map (fun j => i * 1000 + j))

/-- The five steps of one call `push_back(value)` by a thread that no other thread
interrupts. -/
def solo_call [Inhabited T] (new_segment : Nat) (t : Thread T) (v : concurrent_vector T) :
    Option (Thread T × concurrent_vector T) :=
  (thread_step new_segment t v).bind fun r1 =>
  (thread_step new_segment r1.1 r1.2).bind fun r2 =>
  (thread_step new_segment r2.1 r2.2).bind fun r3 =>
  (thread_step new_segment r3.1 r3.2).bind fun r4 =>
  thread_step new_segment r4.1 r4.2

/-- An interleaving of `push_back(1)` and `push_back(2)` by two threads on a new vector: both
threads load `size_` before either goes on. -/
def overwrite_race : List (Nat × Nat) :=
  [(0, 16), (1, 16), (0, 16), (0, 16), (0, 16), (0, 16), (1, 2064), (1, 2064), (1, 2064),
   (1, 2064)]

/-- The steps of thread `i` when it makes the calls `calls` (address for `make_unique` and
value of each call) without being interrupted: five steps per call. -/
def solo_steps (i : Nat) : List (Nat × T) → List (Nat × Nat)
  | [] => []
  | c :: calls => List.replicate 5 (i, c.1) ++ solo_steps i calls

/-- Threads of the stale-snapshot scenario: thread 0 calls `push_back(7)` once, thread 1
calls `push_back` for the 1024 values `0 .. 1023`. -/
def stale_start : System Nat := System.start [[7], List.range 1024]

/-- An interleaving of the stale-snapshot scenario that runs every call to its return:
thread 0 loads `size_` (0) and is held up; thread 1 makes its 1024 calls, which fill segment
0; thread 0 then takes the four remaining steps of its call. -/
def stale_schedule : List (Nat × Nat) :=
  ((0, 16) :: solo_steps 1 (spaced_calls 0 (List.range 1024))) ++ List.replicate 4 (0, 4000)

/-- Whether the thread is between its call of `ensure_segment` and the end of the two
accesses `segments_[segment_index]` of `push_back` (the write of the slot and the increment of
the segment counter): these accesses read the table without holding `mutex_`. -/
def Thread.reads_table (t : Thread T) : Bool :=
  match t.pc with
  | .ensured _ _ => true
  | .written _ => true
  | _ => false

/-- Whether a thread other than thread `i` is about to read the table without the lock. -/
def others_read_table : Nat → List (Thread T) → Bool
  | _, [] => false
  | 0, _ :: rest => rest.any Thread.reads_table
  | i + 1, t :: rest => t.reads_table || others_read_table i rest

/-- Whether the next step of thread `i` calls `segments_.resize`: the step is the
`ensure_segment` of a call whose segment index is not below the length of the table. -/
def resizes (i : Nat) (s : System T) : Bool :=
  match s.threads[i]? with
  | some t =>
    match t.pc with
    | .loaded _ current_size => decide (current_size / SEGMENT_SIZE ≥ s.v.segments_.length)
    | _ => false
  | none => false

/-- Whether the next step of thread `i` is a data race on `segments_`: it calls
`segments_.resize` (under `mutex_`) while another thread is about to execute
`segments_[segment_index]` (without `mutex_`).  Nothing orders the two accesses to the
`std::vector`, one of which modifies it: the behaviour is undefined (the resize can
reallocate the table the other thread reads). -/
def races (i : Nat) (s : System T) : Bool :=
  resizes i s && others_read_table i s.threads

/-- One step of the system, with the data race on `segments_` as a fault: `none` when the
step is such a race or faults otherwise. -/
def sys_step_checked [Inhabited T] (e : Nat × Nat) (s : System T) : Option (System T) :=
  if races e.1 s then none else sys_step e s

/-- The system after the steps of a schedule; `none` when a step is a data race on
`segments_` or faults otherwise. -/
def run_schedule_checked [Inhabited T] : List (Nat × Nat) → System T → Option (System T)
  | [], s => some s
  | e :: rest, s =>
    match sys_step_checked e s with
    | none => none
    | some s1 => run_schedule_checked rest s1

/-- The values thread `i` of the test `ConcurrentPushBack` appends: `i * 1000 + j` for `j`
below 1000. -/
def test_thread (i : Nat) : List Nat := (List.range 1000).map (fun j => i * 1000 + j)

/-- Calls that append the values `xs`, each with `p` as the address for `make_unique` (which
a call that finds its segment allocated does not use). -/
def calls_at (p : Nat) (xs : List T) : List (Nat × T) := xs.map (fun x => (p, x))

/-- Steps of the four threads of the test `ConcurrentPushBack` up to a data race.  Thread 0
loads `size_` (0) and executes `ensure_segment(0)`, which makes the table and segment 0 (at
address 16), and is held up before `segments_[0]->data[0] = value`; thread 1 makes its 1000
calls; thread 2 makes 24 calls, which fill segment 0, and loads `size_` (1024) for its next
call. -/
def resize_steps : List (Nat × Nat) :=
  [(0, 16), (0, 16)] ++ solo_steps 1 (calls_at 16 (test_thread 1)) ++
    solo_steps 2 (calls_at 16 ((test_thread 2).take 24)) ++ [(2, 2016)]

end concurrent_vector

end hcstl

/-! ## Proofs: concurrent_queue -/

namespace hcstl

theorem length_lt_SIZE_MOD (l : List Nat) (hn : l.Nodup) (hv : ∀ a ∈ l, valid_addr a) :
    l.length < SIZE_MOD := by
  have hsub : l.toFinset ⊆ Finset.Ico 1 SIZE_MOD := by
    intro a ha
    have h := hv a (List.mem_toFinset.mp ha)
    simp only [Finset.mem_Ico]
    exact ⟨Nat.pos_of_ne_zero h.1, h.2⟩
  have hcard := Finset.card_le_card hsub
  rw [List.toFinset_card_of_nodup hn, Nat.card_Ico] at hcard
  have : 0 < SIZE_MOD := by unfold SIZE_MOD; positivity
  omega

theorem fetch_add_one_eq (s : Nat) (h : s + 1 < SIZE_MOD) : fetch_add_one s = s + 1 := by
  unfold fetch_add_one; exact Nat.mod_eq_of_lt h

theorem fetch_sub_one_succ (s : Nat) (h : s + 1 < SIZE_MOD) : fetch_sub_one (s + 1) = s := by
  unfold fetch_sub_one
  have : s + 1 + SIZE_MOD - 1 = s + SIZE_MOD := by omega
  rw [this, Nat.add_mod_right]
  exact Nat.mod_eq_of_lt (by omega)

namespace concurrent_queue

variable {T : Type}

theorem store_same (mem : Nat → Option (Node T)) (a : Nat) (n : Node T) :
    store mem a n a = some n := by
  simp [store]

theorem store_other (mem : Nat → Option (Node T)) (a b : Nat) (n : Node T) (h : b ≠ a) :
    store mem a n b = mem b := by
  simp [store, h]

theorem free_other (mem : Nat → Option (Node T)) (a b : Nat) (h : b ≠ a) :
    free mem a b = mem b := by
  simp [free, h]

theorem deref_valid (mem : Nat → Option (Node T)) (p : Nat) (h : valid_addr p) :
    deref mem p = mem p := by
  have := h.1
  simp [deref, this]

/-- A chain depends only on the memory at its own nodes. -/
theorem Chain.congr {mem mem1 : Nat → Option (Node T)} :
    ∀ (bs : List Nat) (a : Nat), Chain mem a bs → (∀ c ∈ a :: bs, mem1 c = mem c) →
      Chain mem1 a bs
  | [], a, h, heq => by
    obtain ⟨n, hn, hnext⟩ := h
    exact ⟨n, by rw [heq a (by simp), hn], hnext⟩
  | b :: bs, a, h, heq => by
    obtain ⟨n, hn, hnext, hrest⟩ := h
    refine ⟨n, by rw [heq a (by simp), hn], hnext, ?_⟩
    exact Chain.congr bs b hrest (fun c hc => heq c (List.mem_cons_of_mem _ hc))

/-- The last node of a chain is allocated and its `next` is null. -/
theorem Chain.last {mem : Nat → Option (Node T)} :
    ∀ (bs : List Nat) (a : Nat), Chain mem a bs →
      ∃ n, mem (chain_last a bs) = some n ∧ n.next = nullptr
  | [], _, h => h
  | b :: bs, _, h => by
    obtain ⟨_, _, _, hrest⟩ := h
    exact Chain.last bs b hrest

theorem chain_last_mem : ∀ (bs : List Nat) (a : Nat), chain_last a bs ∈ a :: bs
  | [], a => by simp [chain_last]
  | b :: bs, a => List.mem_cons_of_mem _ (chain_last_mem bs b)

theorem chain_last_concat : ∀ (bs : List Nat) (a p : Nat), chain_last a (bs ++ [p]) = p
  | [], _, _ => rfl
  | b :: bs, _, p => chain_last_concat bs b p

/-- Linking a new node after the last node of a chain. -/
theorem Chain.snoc {mem : Nat → Option (Node T)} (p : Nat) (v : T) :
    ∀ (bs : List Nat) (a : Nat) (tn : Node T), Chain mem a bs → (a :: bs).Nodup →
      p ∉ a :: bs → mem (chain_last a bs) = some tn →
      Chain (store (store mem p ⟨nullptr, v⟩) (chain_last a bs) { tn with next := p }) a
        (bs ++ [p])
  | [], a, tn, _, _, hp, _ => by
    have hpa : p ≠ a := by simpa using hp
    refine ⟨{ tn with next := p }, by simp [store, chain_last], rfl, ?_⟩
    exact ⟨⟨nullptr, v⟩, by simp [store, hpa, chain_last], rfl⟩
  | b :: bs, a, tn, h, hnd, hp, ht => by
    obtain ⟨n, hn, hnext, hrest⟩ := h
    have hnd1 : (b :: bs).Nodup := (List.nodup_cons.mp hnd).2
    have ha : a ∉ b :: bs := (List.nodup_cons.mp hnd).1
    have hp1 : p ∉ b :: bs := fun hc => hp (List.mem_cons_of_mem _ hc)
    have hpa : a ≠ p := fun hc => hp (by simp [hc])
    have hal : a ≠ chain_last b bs := fun hc => ha (hc ▸ chain_last_mem bs b)
    have ih := Chain.snoc p v bs b tn hrest hnd1 hp1 ht
    refine ⟨n, ?_, hnext, ih⟩
    show store (store mem p ⟨nullptr, v⟩) (chain_last b bs) { tn with next := p } a = some n
    rw [store_other _ _ _ _ hal, store_other _ _ _ _ hpa, hn]

/-- Every node of a chain is allocated. -/
theorem Chain.live {mem : Nat → Option (Node T)} :
    ∀ (bs : List Nat) (a : Nat), Chain mem a bs → ∀ c ∈ a :: bs, mem c ≠ none
  | [], a, h, c, hc => by
    obtain ⟨n, hn, _⟩ := h
    have : c = a := by simpa using hc
    simp [this, hn]
  | b :: bs, a, h, c, hc => by
    obtain ⟨n, hn, _, hrest⟩ := h
    rcases List.mem_cons.mp hc with hca | hc1
    · simp [hca, hn]
    · exact Chain.live bs b hrest c hc1

theorem WF.length_eq {q : concurrent_queue T} {bs : List Nat} {xs : List T} (h : WF q bs xs) :
    bs.length = xs.length := by
  have := congrArg List.length h.payload
  simpa using this

theorem WF.size_bound {q : concurrent_queue T} {bs : List Nat} {xs : List T} (h : WF q bs xs) :
    xs.length + 1 < SIZE_MOD := by
  have := length_lt_SIZE_MOD _ h.nodup h.valid
  rw [List.length_cons, h.length_eq] at this
  exact this

/-- The newly constructed queue is well formed and holds no value. -/
theorem new_wf [Inhabited T] (dummy : Nat) (hd : valid_addr dummy) :
    WF (new dummy : concurrent_queue T) [] [] where
  chain := ⟨⟨nullptr, default⟩, by simp [new, store], rfl⟩
  nodup := by simp
  valid := by intro a ha; simp [new] at ha; exact ha ▸ hd
  tail := rfl
  payload := rfl
  size := rfl

/-- In a well-formed state `push` returns after one pass through its loop, with the new node
linked at the end of the chain. -/
theorem push_wf (fuel p : Nat) (v : T) (q : concurrent_queue T) (bs : List Nat) (xs : List T)
    (hwf : WF q bs xs) (hp : valid_addr p) (hfree : q.mem p = none) :
    ∃ q1, push (fuel + 1) p v q = .ok q1 ∧ WF q1 (bs ++ [p]) (xs ++ [v]) ∧
      q1.head_ = q.head_ ∧ q1.size_ = q.size_ + 1 := by
  have hpn : p ∉ q.head_ :: bs := fun hc => Chain.live bs _ hwf.chain p hc hfree
  have htv : valid_addr q.tail_ := by
    rw [hwf.tail]; exact hwf.valid _ (chain_last_mem bs q.head_)
  have htp : q.tail_ ≠ p := by
    intro hc; apply hpn; rw [← hc, hwf.tail]; exact chain_last_mem bs q.head_
  obtain ⟨tn, htn, htnext⟩ := Chain.last bs q.head_ hwf.chain
  rw [← hwf.tail] at htn
  have hnd1 : (q.head_ :: (bs ++ [p])).Nodup := by
    have := hwf.nodup
    rw [← List.cons_append]
    refine List.Nodup.append this (by simp) ?_
    intro a ha hap
    have : a = p := by simpa using hap
    exact hpn (this ▸ ha)
  have hv1 : ∀ a ∈ q.head_ :: (bs ++ [p]), valid_addr a := by
    intro a ha
    rw [← List.cons_append, List.mem_append] at ha
    rcases ha with ha | ha
    · exact hwf.valid a ha
    · have : a = p := by simpa using ha
      exact this ▸ hp
  have hlen := length_lt_SIZE_MOD _ hnd1 hv1
  have hsz : fetch_add_one q.size_ = q.size_ + 1 := by
    apply fetch_add_one_eq
    rw [hwf.size, ← hwf.length_eq]
    simp at hlen
    omega
  refine ⟨{ mem := store (store q.mem p ⟨nullptr, v⟩) q.tail_ { tn with next := p },
            head_ := q.head_, tail_ := p, size_ := fetch_add_one q.size_ }, ?_, ?_, rfl, hsz⟩
  · simp [push, push_loop, push_iter, deref_valid _ _ htv, store_other _ _ _ _ htp, htn, htnext]
  · constructor
    · have := Chain.snoc p v bs q.head_ tn hwf.chain hwf.nodup hpn (hwf.tail ▸ htn)
      rw [← hwf.tail] at this
      exact this
    · exact hnd1
    · exact hv1
    · exact (chain_last_concat bs q.head_ p).symm
    · show (bs ++ [p]).map (fun b =>
          (store (store q.mem p ⟨nullptr, v⟩) q.tail_ { tn with next := p } b).map Node.data)
          = (xs ++ [v]).map some
      rw [List.map_append, List.map_append, ← hwf.payload]
      congr 1
      · apply List.map_congr_left
        intro b hb
        have hbp : b ≠ p := fun hc => hpn (hc ▸ List.mem_cons_of_mem _ hb)
        by_cases hbt : b = q.tail_
        · subst hbt; simp [store, htn]
        · rw [store_other _ _ _ _ hbt, store_other _ _ _ _ hbp]
      · simp [store, htp.symm]
    · show fetch_add_one q.size_ = (xs ++ [v]).length
      rw [hsz, hwf.size]; simp

/-- In a well-formed state that holds no value `try_pop` returns `false` after one pass and
changes neither the queue nor the output variable. -/
theorem try_pop_wf_nil (fuel : Nat) (value : T) (q : concurrent_queue T) (hwf : WF q [] []) :
    try_pop (fuel + 1) value q = .ok ((false, value), q) := by
  obtain ⟨hn, hhn, hnext⟩ := hwf.chain
  have hhv : valid_addr q.head_ := hwf.valid _ (by simp)
  have ht : q.tail_ = q.head_ := hwf.tail
  simp [try_pop, try_pop_iter, deref_valid _ _ hhv, hhn, hnext, ht]

/-- In a well-formed state that holds a value `try_pop` returns `true` after one pass, delivers
the payload of the successor of `head_`, and makes that successor the new sentinel. -/
theorem try_pop_wf_cons (fuel : Nat) (value x : T) (q : concurrent_queue T) (b : Nat)
    (bs : List Nat) (xs : List T) (hwf : WF q (b :: bs) (x :: xs)) :
    ∃ q1, try_pop (fuel + 1) value q = .ok ((true, x), q1) ∧ WF q1 bs xs ∧
      q1.size_ + 1 = q.size_ := by
  obtain ⟨hn, hhn, hnext, hrest⟩ := hwf.chain
  have hhv : valid_addr q.head_ := hwf.valid _ (by simp)
  have hbv : valid_addr b := hwf.valid _ (by simp)
  have hhb : q.head_ ∉ b :: bs := (List.nodup_cons.mp hwf.nodup).1
  have ht : q.head_ ≠ q.tail_ := by
    intro hc; apply hhb; rw [hc, hwf.tail]; exact chain_last_mem bs b
  have hpay := hwf.payload
  simp only [List.map_cons, List.cons.injEq] at hpay
  obtain ⟨nn, hnn, hdata⟩ : ∃ nn, q.mem b = some nn ∧ nn.data = x := by
    cases hb : q.mem b with
    | none => simp [hb] at hpay
    | some nn => exact ⟨nn, rfl, by simpa [hb] using hpay.1⟩
  have hbound := hwf.size_bound
  have hsz : fetch_sub_one q.size_ = xs.length := by
    rw [hwf.size]
    exact fetch_sub_one_succ _ (by simp at hbound; omega)
  refine ⟨{ mem := free q.mem q.head_, head_ := b, tail_ := q.tail_,
            size_ := fetch_sub_one q.size_ }, ?_, ?_, ?_⟩
  · simp [try_pop, try_pop_iter, deref_valid _ _ hhv, deref_valid _ _ hbv, hhn, hnext, ht, hnn,
      hdata]
  · constructor
    · exact Chain.congr bs b hrest (fun c hc => free_other _ _ _ (fun h => hhb (h ▸ hc)))
    · exact (List.nodup_cons.mp hwf.nodup).2
    · exact fun a ha => hwf.valid a (List.mem_cons_of_mem _ ha)
    · exact hwf.tail
    · show bs.map (fun c => (free q.mem q.head_ c).map Node.data) = xs.map some
      rw [← hpay.2]
      apply List.map_congr_left
      intro c hc
      have hne : c ≠ q.head_ := fun h => hhb (h ▸ List.mem_cons_of_mem _ hc)
      rw [free_other _ _ _ hne]
    · exact hsz
  · show fetch_sub_one q.size_ + 1 = q.size_
    rw [hsz, hwf.size]; simp

theorem popped_cons_true (x : T) (rs : List (Bool × T)) :
    popped ((true, x) :: rs) = x :: popped rs := by
  simp [popped]

theorem popped_cons_false (x : T) (rs : List (Bool × T)) :
    popped ((false, x) :: rs) = popped rs := by
  simp [popped]

/-- Calls executed one at a time from a well-formed state all return, keep the state well
formed, and the values delivered so far followed by the values still queued are the values
queued at the start followed by the values pushed. -/
theorem run_wf (fuel : Nat) :
    ∀ (calls : List (Call T)) (q : concurrent_queue T) (bs : List Nat) (xs : List T),
      WF q bs xs → alloc_ok (fuel + 1) calls q = true →
      ∃ res q1 bs1 xs1, run (fuel + 1) calls q = .ok (res, q1) ∧ WF q1 bs1 xs1 ∧
        popped res ++ xs1 = xs ++ pushed calls
  | [], q, bs, xs, hwf, _ => ⟨[], q, bs, xs, rfl, hwf, by simp [popped, pushed]⟩
  | .push p v :: calls, q, bs, xs, hwf, hok => by
    simp only [alloc_ok, Bool.and_eq_true, decide_eq_true_eq, Option.isNone_iff_eq_none] at hok
    obtain ⟨⟨hp, hfree⟩, hrest⟩ := hok
    obtain ⟨q1, hpush, hwf1, _, _⟩ := push_wf fuel p v q bs xs hwf hp hfree
    rw [hpush] at hrest
    obtain ⟨res, q2, bs2, xs2, hrun, hwf2, hval⟩ := run_wf fuel calls q1 _ _ hwf1 hrest
    refine ⟨res, q2, bs2, xs2, ?_, hwf2, ?_⟩
    · simp [run, hpush, hrun]
    · simp [pushed, hval]
  | .try_pop value :: calls, q, bs, xs, hwf, hok => by
    cases bs with
    | nil =>
      have hxs : xs = [] := List.length_eq_zero.mp hwf.length_eq.symm
      subst hxs
      have hpop := try_pop_wf_nil fuel value q hwf
      simp only [alloc_ok, hpop] at hok
      obtain ⟨res, q2, bs2, xs2, hrun, hwf2, hval⟩ := run_wf fuel calls q _ _ hwf hok
      refine ⟨(false, value) :: res, q2, bs2, xs2, ?_, hwf2, ?_⟩
      · simp [run, hpop, hrun]
      · rw [popped_cons_false, hval]; simp [pushed]
    | cons b bs =>
      cases xs with
      | nil => exact absurd hwf.length_eq (by simp)
      | cons x xs =>
        obtain ⟨q1, hpop, hwf1, _⟩ := try_pop_wf_cons fuel value x q b bs xs hwf
        simp only [alloc_ok, hpop] at hok
        obtain ⟨res, q2, bs2, xs2, hrun, hwf2, hval⟩ := run_wf fuel calls q1 _ _ hwf1 hok
        refine ⟨(true, x) :: res, q2, bs2, xs2, ?_, hwf2, ?_⟩
        · simp [run, hpop, hrun]
        · rw [popped_cons_true]; simp [pushed, hval]

/-- Every reachable state is well formed. -/
theorem Reachable.wf [Inhabited T] {q : concurrent_queue T} (h : Reachable q) :
    ∃ bs xs, WF q bs xs := by
  induction h with
  | new dummy hd => exact ⟨[], [], new_wf dummy hd⟩
  | push q q1 fuel p v _ hp hfree hpush ih =>
    obtain ⟨bs, xs, hwf⟩ := ih
    cases fuel with
    | zero => simp [concurrent_queue.push, push_loop] at hpush
    | succ fuel =>
      obtain ⟨q2, hpush2, hwf2, _⟩ := push_wf fuel p v q bs xs hwf hp hfree
      rw [hpush] at hpush2
      cases hpush2
      exact ⟨_, _, hwf2⟩
  | try_pop q q1 fuel value r _ hpop ih =>
    obtain ⟨bs, xs, hwf⟩ := ih
    cases fuel with
    | zero => simp [concurrent_queue.try_pop] at hpop
    | succ fuel =>
      cases bs with
      | nil =>
        have hxs : xs = [] := List.length_eq_zero.mp hwf.length_eq.symm
        subst hxs
        rw [try_pop_wf_nil fuel value q hwf] at hpop
        cases hpop
        exact ⟨_, _, hwf⟩
      | cons b bs =>
        cases xs with
        | nil => exact absurd hwf.length_eq (by simp)
        | cons x xs =>
          obtain ⟨q2, hpop2, hwf2, _⟩ := try_pop_wf_cons fuel value x q b bs xs hwf
          rw [hpop] at hpop2
          cases hpop2
          exact ⟨_, _, hwf2⟩

theorem run_append (fuel : Nat) :
    ∀ (c1 c2 : List (Call T)) (q q1 q2 : concurrent_queue T) (r1 r2 : List (Bool × T)),
      run fuel c1 q = .ok (r1, q1) → run fuel c2 q1 = .ok (r2, q2) →
      run fuel (c1 ++ c2) q = .ok (r1 ++ r2, q2)
  | [], c2, q, q1, q2, r1, r2, h1, h2 => by
    simp only [run, Outcome.ok.injEq, Prod.mk.injEq] at h1
    obtain ⟨hr, hq⟩ := h1
    subst hr; subst hq
    simpa using h2
  | .push p v :: c1, c2, q, q1, q2, r1, r2, h1, h2 => by
    simp only [run, List.cons_append] at h1 ⊢
    cases hp : push fuel p v q with
    | ok qa =>
      rw [hp] at h1
      simpa using run_append fuel c1 c2 qa q1 q2 r1 r2 h1 h2
    | fault => simp [hp] at h1
    | timeout => simp [hp] at h1
  | .try_pop value :: c1, c2, q, q1, q2, r1, r2, h1, h2 => by
    simp only [run, List.cons_append] at h1 ⊢
    cases hp : try_pop fuel value q with
    | ok a =>
      obtain ⟨r, qa⟩ := a
      rw [hp] at h1
      simp only at h1 ⊢
      cases hr : run fuel c1 qa with
      | ok b =>
        obtain ⟨rs, qb⟩ := b
        rw [hr] at h1
        simp only [Outcome.ok.injEq, Prod.mk.injEq] at h1
        obtain ⟨hr1, hq1⟩ := h1
        subst hr1; subst hq1
        have h3 := run_append fuel c1 c2 qa qb q2 rs r2 hr h2
        simp only [List.append_eq, h3]
        simp
      | fault => simp [hr] at h1
      | timeout => simp [hr] at h1
    | fault => simp [hp] at h1
    | timeout => simp [hp] at h1

/-- Pushing the values of `nodes` one after the other appends them to the queued values. -/
theorem run_pushes (fuel : Nat) :
    ∀ (nodes : List (Nat × T)) (q : concurrent_queue T) (bs : List Nat) (xs : List T),
      WF q bs xs →
      alloc_ok (fuel + 1) (nodes.map (fun n => Call.push n.1 n.2)) q = true →
      ∃ q1 bs1, run (fuel + 1) (nodes.map (fun n => Call.push n.1 n.2)) q = .ok ([], q1) ∧
        WF q1 bs1 (xs ++ nodes.map Prod.snd)
  | [], q, bs, xs, hwf, _ => ⟨q, bs, by simp [run], by simpa using hwf⟩
  | n :: nodes, q, bs, xs, hwf, hok => by
    simp only [List.map_cons, alloc_ok, Bool.and_eq_true, decide_eq_true_eq,
      Option.isNone_iff_eq_none] at hok
    obtain ⟨⟨hp, hfree⟩, hrest⟩ := hok
    obtain ⟨q1, hpush, hwf1, _, _⟩ := push_wf fuel n.1 n.2 q bs xs hwf hp hfree
    rw [hpush] at hrest
    obtain ⟨q2, bs2, hrun, hwf2⟩ := run_pushes fuel nodes q1 _ _ hwf1 hrest
    refine ⟨q2, bs2, ?_, ?_⟩
    · simp [run, hpush, hrun]
    · simpa using hwf2

/-- Draining: `try_pop` calls deliver the queued values in order and then return `false`,
leaving the output variable as it was. -/
theorem run_drain (fuel : Nat) :
    ∀ (ws : List T) (q : concurrent_queue T) (bs : List Nat) (xs : List T), WF q bs xs →
      ∃ q1 bs1, run (fuel + 1) (ws.map Call.try_pop) q =
          .ok ((xs.take ws.length).map (fun x => (true, x)) ++
               (ws.drop xs.length).map (fun w => (false, w)), q1) ∧
        WF q1 bs1 (xs.drop ws.length)
  | [], q, bs, xs, hwf => ⟨q, bs, by simp [run], by simpa using hwf⟩
  | w :: ws, q, bs, xs, hwf => by
    cases bs with
    | nil =>
      have hxs : xs = [] := List.length_eq_zero.mp hwf.length_eq.symm
      subst hxs
      have hpop := try_pop_wf_nil fuel w q hwf
      obtain ⟨q2, bs2, hrun, hwf2⟩ := run_drain fuel ws q _ _ hwf
      refine ⟨q2, bs2, ?_, by simpa using hwf2⟩
      simp only [List.map_cons, run, hpop, hrun]
      simp
    | cons b bs =>
      cases xs with
      | nil => exact absurd hwf.length_eq (by simp)
      | cons x xs =>
        obtain ⟨q1, hpop, hwf1, _⟩ := try_pop_wf_cons fuel w x q b bs xs hwf
        obtain ⟨q2, bs2, hrun, hwf2⟩ := run_drain fuel ws q1 _ _ hwf1
        refine ⟨q2, bs2, ?_, by simpa using hwf2⟩
        simp only [List.map_cons, run, hpop, hrun]
        simp

/-- C1 (queue FIFO order).  For every finite sequence of `push` and `try_pop` calls executed
one at a time on a newly constructed queue (the allocator keeping its contract), every call
returns, and the `k`-th successful `try_pop` delivers the `k`-th pushed value; in particular
only pushed values are delivered, never the payload of the sentinel. -/
theorem queue_fifo_order [Inhabited T] (fuel dummy : Nat) (calls : List (Call T))
    (hd : valid_addr dummy) (halloc : alloc_ok (fuel + 1) calls (new dummy) = true) :
    ∃ res q, run (fuel + 1) calls (new dummy) = .ok (res, q) ∧
      ∀ (k : Nat) (x : T), (popped res)[k]? = some x → (pushed calls)[k]? = some x := by
  obtain ⟨res, q, bs, xs, hrun, _, hval⟩ :=
    run_wf fuel calls (new dummy) [] [] (new_wf dummy hd) halloc
  refine ⟨res, q, hrun, ?_⟩
  intro k x hk
  have hlt : k < (popped res).length := by
    by_contra hge
    rw [List.getElem?_eq_none (by omega)] at hk
    cases hk
  rw [List.nil_append] at hval
  rw [← hval, List.getElem?_append_left hlt]
  exact hk

/-- Witness for C1: two pushes, a pop, a push that reuses the address of the freed sentinel,
and three more pops. -/
theorem queue_fifo_order_witness :
    valid_addr 1 ∧
    alloc_ok 1 [Call.push 2 10, .push 3 20, .try_pop 0, .push 1 30, .try_pop 0, .try_pop 0,
      .try_pop 7] (new 1 : concurrent_queue Nat) = true ∧
    ∃ res q, run 1 [Call.push 2 10, .push 3 20, .try_pop 0, .push 1 30, .try_pop 0, .try_pop 0,
        .try_pop 7] (new 1 : concurrent_queue Nat) = .ok (res, q) ∧
      ∀ (k : Nat) (x : Nat), (popped res)[k]? = some x →
        (pushed [Call.push 2 10, .push 3 20, .try_pop 0, .push 1 30, .try_pop 0, .try_pop 0,
          .try_pop 7])[k]? = some x :=
  ⟨by decide, by decide, queue_fifo_order 0 1 _ (by decide) (by decide)⟩

/-- C2 (queue push-then-drain conservation).  For every list `nodes` of `N` values (each with
the address the allocator returns for its node), after pushing them all onto a new queue,
`try_pop` calls return `true` exactly `N` times, delivering the pushed values, and every later
call returns `false`; the multiset of delivered values is the multiset of pushed values, and
`size()` is 0 afterwards. -/
theorem queue_push_then_drain [Inhabited T] (fuel dummy : Nat) (nodes : List (Nat × T))
    (ws : List T) (hd : valid_addr dummy)
    (halloc : alloc_ok (fuel + 1) (nodes.map (fun n => Call.push n.1 n.2)) (new dummy) = true)
    (hws : nodes.length < ws.length) :
    ∃ res q, run (fuel + 1) (nodes.map (fun n => Call.push n.1 n.2) ++ ws.map Call.try_pop)
        (new dummy) = .ok (res, q) ∧
      res.map Prod.fst = List.replicate nodes.length true ++
        List.replicate (ws.length - nodes.length) false ∧
      (popped res : Multiset T) = (nodes.map Prod.snd : Multiset T) ∧
      q.size = 0 ∧ q.empty = true := by
  obtain ⟨q1, bs1, hrun1, hwf1⟩ := run_pushes fuel nodes (new dummy) [] [] (new_wf dummy hd) halloc
  obtain ⟨q2, bs2, hrun2, hwf2⟩ := run_drain fuel ws q1 bs1 _ hwf1
  have hrun := run_append (fuel + 1) _ _ _ _ _ _ _ hrun1 hrun2
  have hlen : (nodes.map Prod.snd).length ≤ ws.length := by simp; omega
  have hsz : q2.size_ = 0 := by
    rw [hwf2.size]; simp; omega
  refine ⟨_, q2, hrun, ?_, ?_, hsz, ?_⟩
  · simp only [List.nil_append, List.take_of_length_le hlen, List.map_append, List.map_map]
    congr 1
    · rw [List.eq_replicate_iff]; simp
    · rw [List.eq_replicate_iff]; simp
  · congr 1
    simp only [List.nil_append, List.take_of_length_le hlen, popped]
    simp only [List.filter_append, List.map_append, List.filter_map, Function.comp_def]
    have h1 : ∀ l : List T, (l.filter (fun _ => true)) = l := fun l => by simp
    have h2 : ∀ l : List T, (l.filter (fun _ => false)) = [] := fun l => by simp
    simp [h1, h2]
  · simp [empty, size, hsz]

/-- Witness for C2: three values pushed, five `try_pop` calls. -/
theorem queue_push_then_drain_witness :
    valid_addr 1 ∧
    alloc_ok 1 ([(2, 10), (3, 20), (4, 10)].map (fun n => Call.push n.1 n.2))
      (new 1 : concurrent_queue Nat) = true ∧
    [(2, 10), (3, 20), (4, 10)].length < [0, 0, 0, 0, 0].length ∧
    ∃ res q, run 1 ([(2, 10), (3, 20), (4, 10)].map (fun n => Call.push n.1 n.2) ++
          [0, 0, 0, 0, 0].map Call.try_pop) (new 1 : concurrent_queue Nat) = .ok (res, q) ∧
      res.map Prod.fst = List.replicate [(2, 10), (3, 20), (4, 10)].length true ++
        List.replicate ([0, 0, 0, 0, 0].length - [(2, 10), (3, 20), (4, 10)].length) false ∧
      (popped res : Multiset Nat) = ([(2, 10), (3, 20), (4, 10)].map Prod.snd : Multiset Nat) ∧
      q.size = 0 ∧ q.empty = true :=
  ⟨by decide, by decide, by decide,
    queue_push_then_drain 0 1 [(2, 10), (3, 20), (4, 10)] [0, 0, 0, 0, 0] (by decide) (by decide)
      (by decide)⟩

/-- C4 (queue size tracking).  A new queue has `size()` 0 and is empty.  After any calls
executed one at a time, `size()` is the number of values pushed minus the number delivered,
and `empty()` holds exactly when that number is 0.  From such a state `push` returns with
`size()` one larger, a successful `try_pop` with `size()` one smaller, and a failed `try_pop`
with `size()` unchanged. -/
theorem queue_size_tracking [Inhabited T] (fuel dummy : Nat) (calls : List (Call T))
    (hd : valid_addr dummy) (halloc : alloc_ok (fuel + 1) calls (new dummy) = true) :
    (new dummy : concurrent_queue T).size = 0 ∧ (new dummy : concurrent_queue T).empty = true ∧
    ∃ res q, run (fuel + 1) calls (new dummy) = .ok (res, q) ∧
      (popped res).length ≤ (pushed calls).length ∧
      q.size = (pushed calls).length - (popped res).length ∧
      (q.empty = true ↔ (pushed calls).length - (popped res).length = 0) ∧
      (∀ p v, valid_addr p → q.mem p = none →
        ∃ q1, push (fuel + 1) p v q = .ok q1 ∧ q1.size = q.size + 1) ∧
      (∀ value, ∃ r q1, try_pop (fuel + 1) value q = .ok (r, q1) ∧
        (r.1 = true → q1.size + 1 = q.size) ∧ (r.1 = false → q1.size = q.size)) := by
  refine ⟨rfl, rfl, ?_⟩
  obtain ⟨res, q, bs, xs, hrun, hwf, hval⟩ :=
    run_wf fuel calls (new dummy) [] [] (new_wf dummy hd) halloc
  have hlen := congrArg List.length hval
  simp only [List.length_append, List.nil_append] at hlen
  have hsz : q.size = (pushed calls).length - (popped res).length := by
    show q.size_ = _
    rw [hwf.size]; omega
  refine ⟨res, q, hrun, by omega, hsz, ?_, ?_, ?_⟩
  · simp [empty, hsz]
  · intro p v hp hfree
    obtain ⟨q1, hpush, _, _, hs⟩ := push_wf fuel p v q bs xs hwf hp hfree
    exact ⟨q1, hpush, hs⟩
  · intro value
    cases bs with
    | nil =>
      have hxs : xs = [] := List.length_eq_zero.mp hwf.length_eq.symm
      subst hxs
      exact ⟨(false, value), q, try_pop_wf_nil fuel value q hwf, by simp, fun _ => rfl⟩
    | cons b bs =>
      cases xs with
      | nil => exact absurd hwf.length_eq (by simp)
      | cons x xs =>
        obtain ⟨q1, hpop, _, hs⟩ := try_pop_wf_cons fuel value x q b bs xs hwf
        exact ⟨(true, x), q1, hpop, fun _ => hs, by simp⟩

/-- Witness for C4, on the scenario of the test `ConcurrentQueueTest.BasicOperations`:
`push(1)` gives size 1 and a non-empty queue, `try_pop` then delivers 1 and the queue is
empty again. -/
theorem queue_size_tracking_witness :
    (valid_addr 1 ∧
     alloc_ok 1 [Call.push 2 1, .try_pop 0] (new 1 : concurrent_queue Nat) = true) ∧
    ((run 1 [Call.push 2 1] (new 1 : concurrent_queue Nat)).result?.map
        (fun r => (r.2.size, r.2.empty)) = some (1, false) ∧
     (run 1 [Call.push 2 1, .try_pop 0] (new 1 : concurrent_queue Nat)).result?.map
        (fun r => (r.1, r.2.size, r.2.empty)) = some ([(true, 1)], 0, true)) ∧
    ((new 1 : concurrent_queue Nat).size = 0 ∧ (new 1 : concurrent_queue Nat).empty = true ∧
     ∃ res q, run 1 [Call.push 2 1, .try_pop 0] (new 1 : concurrent_queue Nat) = .ok (res, q) ∧
      (popped res).length ≤ (pushed [Call.push 2 1, .try_pop 0]).length ∧
      q.size = (pushed [Call.push 2 1, .try_pop 0]).length - (popped res).length ∧
      (q.empty = true ↔ (pushed [Call.push 2 1, .try_pop 0]).length - (popped res).length = 0) ∧
      (∀ p v, valid_addr p → q.mem p = none →
        ∃ q1, push 1 p v q = .ok q1 ∧ q1.size = q.size + 1) ∧
      (∀ value, ∃ r q1, try_pop 1 value q = .ok (r, q1) ∧
        (r.1 = true → q1.size + 1 = q.size) ∧ (r.1 = false → q1.size = q.size))) :=
  ⟨⟨by decide, by decide⟩, ⟨by decide, by decide⟩,
    queue_size_tracking 0 1 [Call.push 2 1, .try_pop 0] (by decide) (by decide)⟩

/-- C28 (queue chain invariant).  In every state reached by `push` and `try_pop` calls executed
one at a time on a new queue: `head_` and `tail_` are not null; following `next` from `head_`
visits the pairwise distinct nodes `bs` and ends at `tail_`, whose `next` is null; the node at
`head_` is not one of the nodes `bs` that hold the queued values; and the payloads of `bs`, in
chain order, are exactly the values pushed and not yet delivered, oldest first, so that the
successor of `head_` (if any) holds the oldest of them. -/
theorem queue_chain_invariant [Inhabited T] (fuel dummy : Nat) (calls : List (Call T))
    (hd : valid_addr dummy) (halloc : alloc_ok (fuel + 1) calls (new dummy) = true) :
    ∃ res q bs, run (fuel + 1) calls (new dummy) = .ok (res, q) ∧
      q.head_ ≠ nullptr ∧ q.tail_ ≠ nullptr ∧
      Chain q.mem q.head_ bs ∧ (q.head_ :: bs).Nodup ∧ q.head_ ∉ bs ∧
      q.tail_ = chain_last q.head_ bs ∧
      (∃ n, deref q.mem q.tail_ = some n ∧ n.next = nullptr) ∧
      bs.map (fun b => (q.mem b).map Node.data) =
        ((pushed calls).drop (popped res).length).map some ∧
      (∀ b, bs.head? = some b →
        (q.mem b).map Node.data = ((pushed calls).drop (popped res).length).head?) := by
  obtain ⟨res, q, bs, xs, hrun, hwf, hval⟩ :=
    run_wf fuel calls (new dummy) [] [] (new_wf dummy hd) halloc
  rw [List.nil_append] at hval
  have hxs : (pushed calls).drop (popped res).length = xs := by
    rw [← hval, List.drop_left]
  have htv : valid_addr q.tail_ := by
    rw [hwf.tail]; exact hwf.valid _ (chain_last_mem bs q.head_)
  obtain ⟨tn, htn, htnext⟩ := Chain.last bs q.head_ hwf.chain
  refine ⟨res, q, bs, hrun, (hwf.valid _ (by simp)).1, htv.1, hwf.chain, hwf.nodup,
    (List.nodup_cons.mp hwf.nodup).1, hwf.tail, ⟨tn, ?_, htnext⟩, ?_, ?_⟩
  · rw [deref_valid _ _ htv, hwf.tail]; exact htn
  · rw [hxs]; exact hwf.payload
  · intro b hb
    rw [hxs]
    have hp := hwf.payload
    cases bs with
    | nil => cases hb
    | cons b1 bs1 =>
      cases xs with
      | nil => simp at hp
      | cons x xs1 =>
        simp only [List.head?_cons, Option.some.injEq] at hb
        subst hb
        simp only [List.map_cons, List.cons.injEq] at hp
        simpa using hp.1

/-- Witness for C28: two pushes, a pop, a push at the address of the freed sentinel. -/
theorem queue_chain_invariant_witness :
    valid_addr 1 ∧
    alloc_ok 1 [Call.push 2 10, .push 3 20, .try_pop 0, .push 1 30]
      (new 1 : concurrent_queue Nat) = true ∧
    ∃ res q bs, run 1 [Call.push 2 10, .push 3 20, .try_pop 0, .push 1 30]
        (new 1 : concurrent_queue Nat) = .ok (res, q) ∧
      q.head_ ≠ nullptr ∧ q.tail_ ≠ nullptr ∧
      Chain q.mem q.head_ bs ∧ (q.head_ :: bs).Nodup ∧ q.head_ ∉ bs ∧
      q.tail_ = chain_last q.head_ bs ∧
      (∃ n, deref q.mem q.tail_ = some n ∧ n.next = nullptr) ∧
      bs.map (fun b => (q.mem b).map Node.data) =
        ((pushed [Call.push 2 10, .push 3 20, .try_pop 0, .push 1 30]).drop
          (popped res).length).map some ∧
      (∀ b, bs.head? = some b →
        (q.mem b).map Node.data =
          ((pushed [Call.push 2 10, .push 3 20, .try_pop 0, .push 1 30]).drop
            (popped res).length).head?) :=
  ⟨by decide, by decide, queue_chain_invariant 0 1 _ (by decide) (by decide)⟩

/-- The node at position `i` of a chain is allocated and its `next` is the node at position
`i + 1`, or null at the end of the chain. -/
theorem Chain.next_at {mem : Nat → Option (Node T)} :
    ∀ (bs : List Nat) (a i t : Nat), Chain mem a bs → (a :: bs)[i]? = some t →
      ∃ n, mem t = some n ∧ n.next = ((a :: bs)[i + 1]?).getD nullptr
  | [], a, 0, t, h, ht => by
    obtain ⟨n, hn, hnext⟩ := h
    simp only [List.getElem?_cons_zero, Option.some.injEq] at ht
    subst ht
    exact ⟨n, hn, by simpa using hnext⟩
  | [], a, i + 1, t, _, ht => by simp at ht
  | b :: bs, a, 0, t, h, ht => by
    obtain ⟨n, hn, hnext, _⟩ := h
    simp only [List.getElem?_cons_zero, Option.some.injEq] at ht
    subst ht
    exact ⟨n, hn, by simpa using hnext⟩
  | b :: bs, a, i + 1, t, h, ht => by
    obtain ⟨_, _, _, hrest⟩ := h
    simp only [List.getElem?_cons_succ] at ht
    obtain ⟨n, hn, hnext⟩ := Chain.next_at bs b i t hrest ht
    exact ⟨n, hn, by simpa using hnext⟩

theorem chain_last_getElem : ∀ (bs : List Nat) (a : Nat),
    (a :: bs)[bs.length]? = some (chain_last a bs)
  | [], _ => rfl
  | b :: bs, _ => by
    simpa using chain_last_getElem bs b

theorem WFL.tail_mem {q : concurrent_queue T} {bs : List Nat} {xs : List T} {d : Nat}
    (h : WFL q bs xs d) : q.tail_ ∈ q.head_ :: bs :=
  List.getElem?_mem h.tail

/-- A well-formed state is a state whose tail lags by 0. -/
theorem WF.toWFL {q : concurrent_queue T} {bs : List Nat} {xs : List T} (h : WF q bs xs) :
    WFL q bs xs 0 where
  chain := h.chain
  nodup := h.nodup
  valid := h.valid
  lag := Nat.zero_le _
  tail := by rw [Nat.sub_zero, chain_last_getElem, h.tail]
  payload := h.payload

/-- A helping pass of `push`: when `tail_` lags, the pass moves `tail_` to the next node of
the chain and goes round again; nothing else changes. -/
theorem push_iter_help (p : Nat) (q : concurrent_queue T) (bs : List Nat) (xs : List T)
    (d : Nat) (hwf : WFL q bs xs (d + 1)) :
    ∃ t1, (q.head_ :: bs)[bs.length - d]? = some t1 ∧
      push_iter p q = .retry { q with tail_ := t1 } ∧
      WFL ({ q with tail_ := t1 } : concurrent_queue T) bs xs d := by
  have hlag := hwf.lag
  have hidx : bs.length - (d + 1) + 1 = bs.length - d := by omega
  have hlt : bs.length - d < (q.head_ :: bs).length := by simp; omega
  obtain ⟨t1, ht1⟩ : ∃ t1, (q.head_ :: bs)[bs.length - d]? = some t1 :=
    ⟨_, List.getElem?_eq_getElem hlt⟩
  obtain ⟨n, hn, hnext⟩ := Chain.next_at bs q.head_ _ q.tail_ hwf.chain hwf.tail
  rw [hidx, ht1] at hnext
  simp only [Option.getD_some] at hnext
  have htv : valid_addr q.tail_ := hwf.valid _ hwf.tail_mem
  have ht1v : valid_addr t1 := hwf.valid _ (List.getElem?_mem ht1)
  have hne : ¬ t1 = nullptr := ht1v.1
  refine ⟨t1, ht1, ?_, ?_⟩
  · simp only [push_iter, deref_valid _ _ htv, hn, if_true, hnext, hne, if_false]
  · exact { chain := hwf.chain, nodup := hwf.nodup, valid := hwf.valid, lag := by omega,
            tail := ht1, payload := hwf.payload }

/-- The linking pass of `push`: when `tail_` is the last node, the pass links the new node
after it, moves `tail_` to the new node, adds one to the counter and returns. -/
theorem push_iter_link (p : Nat) (x : T) (q : concurrent_queue T) (bs : List Nat)
    (xs : List T) (hwf : WFL q bs xs 0) (hp : valid_addr p) (hfree : q.mem p = none) :
    ∃ tn, q.mem q.tail_ = some tn ∧
      push_iter p ({ q with mem := store q.mem p ⟨nullptr, x⟩ } : concurrent_queue T) =
        .ret () { mem := store (store q.mem p ⟨nullptr, x⟩) q.tail_ { tn with next := p },
                  head_ := q.head_, tail_ := p, size_ := fetch_add_one q.size_ } ∧
      WFL ({ mem := store (store q.mem p ⟨nullptr, x⟩) q.tail_ { tn with next := p },
             head_ := q.head_, tail_ := p, size_ := fetch_add_one q.size_ } :
            concurrent_queue T) (bs ++ [p]) (xs ++ [x]) 0 := by
  have htail : q.tail_ = chain_last q.head_ bs := by
    have h1 := hwf.tail
    rw [Nat.sub_zero, chain_last_getElem] at h1
    exact (Option.some.inj h1).symm
  have hpn : p ∉ q.head_ :: bs := fun hc => Chain.live bs _ hwf.chain p hc hfree
  have htv : valid_addr q.tail_ := hwf.valid _ hwf.tail_mem
  have htp : q.tail_ ≠ p := fun hc => hpn (hc ▸ hwf.tail_mem)
  obtain ⟨tn, htn, htnext⟩ := Chain.last bs q.head_ hwf.chain
  rw [← htail] at htn
  refine ⟨tn, htn, ?_, ?_⟩
  · simp [push_iter, deref_valid _ _ htv, store_other _ _ _ _ htp, htn, htnext]
  · constructor
    · have := Chain.snoc p x bs q.head_ tn hwf.chain hwf.nodup hpn (htail ▸ htn)
      rw [← htail] at this
      exact this
    · have := hwf.nodup
      rw [← List.cons_append]
      refine List.Nodup.append this (by simp) ?_
      intro a ha hap
      have : a = p := by simpa using hap
      exact hpn (this ▸ ha)
    · intro a ha
      rw [← List.cons_append, List.mem_append] at ha
      rcases ha with ha | ha
      · exact hwf.valid a ha
      · have : a = p := by simpa using ha
        exact this ▸ hp
    · exact Nat.zero_le _
    · show (q.head_ :: (bs ++ [p]))[(bs ++ [p]).length - 0]? = some p
      rw [Nat.sub_zero, chain_last_getElem, chain_last_concat]
    · show (bs ++ [p]).map (fun b =>
          (store (store q.mem p ⟨nullptr, x⟩) q.tail_ { tn with next := p } b).map Node.data)
          = (xs ++ [x]).map some
      rw [List.map_append, List.map_append, ← hwf.payload]
      congr 1
      · apply List.map_congr_left
        intro b hb
        have hbp : b ≠ p := fun hc => hpn (hc ▸ List.mem_cons_of_mem _ hb)
        by_cases hbt : b = q.tail_
        · subst hbt; simp [store, htn]
        · rw [store_other _ _ _ _ hbt, store_other _ _ _ _ hbp]
      · simp [store, htp.symm]

/-- Storing a node at an address outside the chain keeps a lagging state well formed. -/
theorem WFL.store_fresh {q : concurrent_queue T} {bs : List Nat} {xs : List T} {d : Nat}
    (hwf : WFL q bs xs d) (p : Nat) (n : Node T) (hfree : q.mem p = none) :
    WFL ({ q with mem := store q.mem p n } : concurrent_queue T) bs xs d := by
  have hpn : p ∉ q.head_ :: bs := fun hc => Chain.live bs _ hwf.chain p hc hfree
  refine { chain := ?_, nodup := hwf.nodup, valid := hwf.valid, lag := hwf.lag,
           tail := hwf.tail, payload := ?_ }
  · exact Chain.congr bs q.head_ hwf.chain
      (fun c hc => store_other _ _ _ _ (fun h => hpn (h ▸ hc)))
  · rw [← hwf.payload]
    apply List.map_congr_left
    intro b hb
    have hbp : b ≠ p := fun hc => hpn (hc ▸ List.mem_cons_of_mem _ hb)
    show (store q.mem p n b).map Node.data = _
    rw [store_other _ _ _ _ hbp]

theorem lagging_example_wfl : WFL lagging_example [2] [10] 1 where
  chain := ⟨⟨2, 0⟩, by decide, rfl, ⟨nullptr, 10⟩, by decide, rfl⟩
  nodup := by decide
  valid := by decide
  lag := by decide
  tail := by decide
  payload := by decide

/-- `k` helping passes of `push`: a lag of `d + k` becomes a lag of `d`, `tail_` having moved
`k` nodes along the chain, and the loop goes on from there. -/
theorem push_loop_help (p : Nat) (bs : List Nat) (xs : List T) :
    ∀ (k d : Nat) (q : concurrent_queue T), WFL q bs xs (d + k) →
      ∃ t, (q.head_ :: bs)[bs.length - d]? = some t ∧
        WFL ({ q with tail_ := t } : concurrent_queue T) bs xs d ∧
        ∀ fuel, push_loop p (k + fuel) q = push_loop p fuel { q with tail_ := t }
  | 0, d, q, hwf => ⟨q.tail_, hwf.tail, hwf, fun fuel => by rw [Nat.zero_add]⟩
  | k + 1, d, q, hwf => by
    obtain ⟨t1, _, hiter, hwf1⟩ := push_iter_help p q bs xs (d + k) hwf
    obtain ⟨t, ht, hwf2, hloop⟩ := push_loop_help p bs xs k d _ hwf1
    refine ⟨t, ht, hwf2, ?_⟩
    intro fuel
    have e : k + 1 + fuel = (k + fuel) + 1 := by omega
    rw [e]
    simp only [push_loop, hiter]
    exact hloop fuel

/-- C29 (queue push helps a lagging tail and terminates).  From a well-formed state in which
`tail_` lies `d` nodes before the last node of the chain, `push(x)` (with every
compare-exchange whose expected value matches succeeding) returns after exactly `d + 1`
passes through its loop: with a budget of `d` passes or fewer it has not returned, with
`d + 1` or more it has.  After `k <= d` passes `tail_` has moved `k` nodes along the chain
and nothing else has changed.  On return the new node is linked after the last node and
`tail_` points at it; `head_`, the nodes of the chain and their payloads are as before. -/
theorem queue_push_helps_lagging_tail (q : concurrent_queue T) (bs : List Nat) (xs : List T)
    (d p : Nat) (x : T) (hwf : WFL q bs xs d) (hp : valid_addr p) (hfree : q.mem p = none) :
    ∃ q1, (∀ fuel, d + 1 ≤ fuel → push fuel p x q = .ok q1) ∧
      (∀ fuel, fuel ≤ d → push fuel p x q = .timeout) ∧
      (∀ k, k ≤ d → ∃ t, (q.head_ :: bs)[bs.length - d + k]? = some t ∧
        ∀ fuel, push (k + fuel) p x q =
          push_loop p fuel { mem := store q.mem p ⟨nullptr, x⟩, head_ := q.head_, tail_ := t,
                             size_ := q.size_ }) ∧
      WFL q1 (bs ++ [p]) (xs ++ [x]) 0 ∧ q1.tail_ = p ∧ q1.head_ = q.head_ ∧
      (∃ tn, q.mem (chain_last q.head_ bs) = some tn ∧
        q1.mem = store (store q.mem p ⟨nullptr, x⟩) (chain_last q.head_ bs)
          { tn with next := p }) ∧
      (∀ b ∈ q.head_ :: bs, (q1.mem b).map Node.data = (q.mem b).map Node.data) := by
  have hwf0 := hwf.store_fresh p ⟨nullptr, x⟩ hfree
  have hd0 : WFL ({ q with mem := store q.mem p ⟨nullptr, x⟩ } : concurrent_queue T) bs xs
      (0 + d) := by rw [Nat.zero_add]; exact hwf0
  obtain ⟨t, ht, hwft, hloop⟩ := push_loop_help p bs xs d 0 _ hd0
  have htl : t = chain_last q.head_ bs := by
    have h1 : (q.head_ :: bs)[bs.length - 0]? = some t := ht
    rw [Nat.sub_zero, chain_last_getElem] at h1
    exact (Option.some.inj h1).symm
  have hwfq : WFL ({ q with tail_ := t } : concurrent_queue T) bs xs 0 :=
    { chain := hwf.chain, nodup := hwf.nodup, valid := hwf.valid, lag := Nat.zero_le _,
      tail := ht, payload := hwf.payload }
  obtain ⟨tn, htn, hlink, hwf1⟩ := push_iter_link p x _ bs xs hwfq hp hfree
  have hpn : p ∉ q.head_ :: bs := fun hc => Chain.live bs _ hwf.chain p hc hfree
  refine ⟨_, ?_, ?_, ?_, hwf1, rfl, rfl, ⟨tn, htl ▸ htn, by rw [htl]⟩, ?_⟩
  · intro fuel hfuel
    obtain ⟨e, rfl⟩ : ∃ e, fuel = d + (e + 1) := ⟨fuel - d - 1, by omega⟩
    show push_loop p (d + (e + 1)) _ = _
    rw [hloop (e + 1)]
    simp only [push_loop]
    rw [hlink]
  · intro fuel hfuel
    obtain ⟨e, rfl⟩ : ∃ e, d = e + fuel := ⟨d - fuel, by omega⟩
    obtain ⟨_, _, _, hl⟩ := push_loop_help p bs xs fuel e _ hwf0
    show push_loop p fuel _ = _
    have := hl 0
    rw [Nat.add_zero] at this
    rw [this]
    rfl
  · intro k hk
    obtain ⟨e, rfl⟩ : ∃ e, d = e + k := ⟨d - k, by omega⟩
    obtain ⟨t1, ht1, _, hl⟩ := push_loop_help p bs xs k e _ hwf0
    have hidx : bs.length - (e + k) + k = bs.length - e := by
      have := hwf.lag
      omega
    exact ⟨t1, by rw [hidx]; exact ht1, fun fuel => hl fuel⟩
  · intro b hb
    have hbp : b ≠ p := fun hc => hpn (hc ▸ hb)
    show (store (store q.mem p ⟨nullptr, x⟩) t { tn with next := p } b).map Node.data = _
    by_cases hbt : b = t
    · subst hbt
      have : q.mem b = some tn := htn
      simp [store, this]
    · rw [store_other _ _ _ _ hbt, store_other _ _ _ _ hbp]

/-- Witness for C29: `lagging_example` (lag 1) and a push of 20 with a node at address 3: it
returns after exactly two passes. -/
theorem queue_push_helps_lagging_tail_witness :
    WFL lagging_example [2] [10] 1 ∧ valid_addr 3 ∧ lagging_example.mem 3 = none ∧
    (push 1 3 20 lagging_example).result?.map (fun q1 => (q1.head_, q1.tail_)) = none ∧
    (push 2 3 20 lagging_example).result?.map (fun q1 => (q1.head_, q1.tail_)) =
      some (1, 3) ∧
    (push 2 3 20 lagging_example).result?.map (fun q1 => [q1.mem 1, q1.mem 2, q1.mem 3]) =
      some [some ⟨2, 0⟩, some ⟨3, 10⟩, some ⟨nullptr, 20⟩] ∧
    ∃ q1, (∀ fuel, 1 + 1 ≤ fuel → push fuel 3 20 lagging_example = .ok q1) ∧
      (∀ fuel, fuel ≤ 1 → push fuel 3 20 lagging_example = .timeout) ∧
      WFL q1 ([2] ++ [3]) ([10] ++ [20]) 0 ∧ q1.tail_ = 3 := by
  obtain ⟨q1, h1, h2, _, h4, h5, _⟩ :=
    queue_push_helps_lagging_tail lagging_example [2] [10] 1 3 20 lagging_example_wfl
      (by decide) (by decide)
  exact ⟨lagging_example_wfl, by decide, by decide, by decide, by decide, by decide, q1, h1, h2,
    h4, h5⟩

theorem nodup_getElem?_head (a : Nat) (bs : List Nat) (i : Nat) (hnd : (a :: bs).Nodup)
    (h : (a :: bs)[i]? = some a) : i = 0 := by
  cases i with
  | zero => rfl
  | succ i =>
    simp only [List.getElem?_cons_succ] at h
    exact absurd (List.getElem?_mem h) (List.nodup_cons.mp hnd).1

/-- The helping pass of `try_pop`: when `head_` equals `tail_` and has a successor, the pass
moves `tail_` to that successor and goes round again; nothing else changes. -/
theorem try_pop_iter_help (value : T) (q : concurrent_queue T) (b : Nat) (bs : List Nat)
    (xs : List T) (d : Nat) (hwf : WFL q (b :: bs) xs d) (hht : q.head_ = q.tail_) :
    try_pop_iter value q = .retry (value, { q with tail_ := b }) ∧
    WFL ({ q with tail_ := b } : concurrent_queue T) (b :: bs) xs bs.length := by
  obtain ⟨hn, hhn, hnext, _⟩ := hwf.chain
  have hhv : valid_addr q.head_ := hwf.valid _ (by simp)
  have hbv : valid_addr b := hwf.valid _ (by simp)
  have hne : ¬ b = nullptr := hbv.1
  have htl : q.tail_ = q.head_ := hht.symm
  refine ⟨?_, ?_⟩
  · simp only [try_pop_iter, deref_valid _ _ hhv, hhn, if_true, htl, hnext, hne, if_false]
  · exact { chain := hwf.chain, nodup := hwf.nodup, valid := hwf.valid, lag := by simp,
            tail := by simp, payload := hwf.payload }

/-- The removing pass of `try_pop`: when `head_` differs from `tail_`, the pass delivers the
payload of the successor of `head_`, makes the successor the new sentinel, frees the old one
and returns `true`; `tail_` keeps its place in the chain. -/
theorem try_pop_iter_remove (value x : T) (q : concurrent_queue T) (b : Nat) (bs : List Nat)
    (xs : List T) (d : Nat) (hwf : WFL q (b :: bs) (x :: xs) d) (hht : q.head_ ≠ q.tail_) :
    try_pop_iter value q =
      .ret (true, x) (x, { mem := free q.mem q.head_, head_ := b, tail_ := q.tail_,
                           size_ := fetch_sub_one q.size_ }) ∧
    WFL ({ mem := free q.mem q.head_, head_ := b, tail_ := q.tail_,
           size_ := fetch_sub_one q.size_ } : concurrent_queue T) bs xs d := by
  obtain ⟨hn, hhn, hnext, hrest⟩ := hwf.chain
  have hhv : valid_addr q.head_ := hwf.valid _ (by simp)
  have hbv : valid_addr b := hwf.valid _ (by simp)
  have hhb : q.head_ ∉ b :: bs := (List.nodup_cons.mp hwf.nodup).1
  have hpay := hwf.payload
  simp only [List.map_cons, List.cons.injEq] at hpay
  obtain ⟨nn, hnn, hdata⟩ : ∃ nn, q.mem b = some nn ∧ nn.data = x := by
    cases hb : q.mem b with
    | none => simp [hb] at hpay
    | some nn => exact ⟨nn, rfl, by simpa [hb] using hpay.1⟩
  have hd : d < (b :: bs).length := by
    by_contra hge
    have hlag := hwf.lag
    have h0 : (b :: bs).length - d = 0 := by omega
    have ht := hwf.tail
    rw [h0] at ht
    simp only [List.getElem?_cons_zero, Option.some.injEq] at ht
    exact hht ht
  have hidx : (b :: bs).length - d = (bs.length - d) + 1 := by
    simp only [List.length_cons] at hd ⊢
    omega
  refine ⟨?_, ?_⟩
  · simp only [try_pop_iter, deref_valid _ _ hhv, deref_valid _ _ hbv, hhn, if_true, hht,
      if_false, hnext, hnn, hdata]
  · constructor
    · exact Chain.congr bs b hrest (fun c hc => free_other _ _ _ (fun h => hhb (h ▸ hc)))
    · exact (List.nodup_cons.mp hwf.nodup).2
    · exact fun a ha => hwf.valid a (List.mem_cons_of_mem _ ha)
    · simp only [List.length_cons] at hd
      show d ≤ bs.length
      omega
    · have ht := hwf.tail
      rw [hidx, List.getElem?_cons_succ] at ht
      exact ht
    · show bs.map (fun c => (free q.mem q.head_ c).map Node.data) = xs.map some
      rw [← hpay.2]
      apply List.map_congr_left
      intro c hc
      have hne : c ≠ q.head_ := fun h => hhb (h ▸ List.mem_cons_of_mem _ hc)
      rw [free_other _ _ _ hne]

/-- `try_pop` on a well-formed state, lagging tail or not: it returns within two passes and
leaves a well-formed state, in which `tail_` is a node of the chain that starts at `head_`. -/
theorem try_pop_wfl (value : T) (q : concurrent_queue T) (bs : List Nat) (xs : List T)
    (d : Nat) (hwf : WFL q bs xs d) :
    ∃ r q1 bs1 xs1 d1, (∀ fuel, 2 ≤ fuel → try_pop fuel value q = .ok (r, q1)) ∧
      WFL q1 bs1 xs1 d1 := by
  have hlen : bs.length = xs.length := by
    have := congrArg List.length hwf.payload
    simpa using this
  cases bs with
  | nil =>
    have hxs : xs = [] := List.length_eq_zero.mp hlen.symm
    subst hxs
    obtain ⟨hn, hhn, hnext⟩ := hwf.chain
    have hhv : valid_addr q.head_ := hwf.valid _ (by simp)
    have ht : q.tail_ = q.head_ := by
      have := hwf.tail
      simpa using this.symm
    refine ⟨(false, value), q, [], [], d, ?_, hwf⟩
    intro fuel hfuel
    obtain ⟨e, rfl⟩ : ∃ e, fuel = e + 1 := ⟨fuel - 1, by omega⟩
    simp only [try_pop, try_pop_iter, deref_valid _ _ hhv, hhn, if_true, ht, hnext]
  | cons b bs =>
    cases xs with
    | nil => simp at hlen
    | cons x xs =>
      by_cases hht : q.head_ = q.tail_
      · obtain ⟨h1, hwf1⟩ := try_pop_iter_help value q b bs (x :: xs) d hwf hht
        have hne : ({ q with tail_ := b } : concurrent_queue T).head_ ≠
            ({ q with tail_ := b } : concurrent_queue T).tail_ := by
          show q.head_ ≠ b
          intro hc
          exact (List.nodup_cons.mp hwf.nodup).1 (hc ▸ List.mem_cons_self _ _)
        obtain ⟨h2, hwf2⟩ := try_pop_iter_remove value x _ b bs xs bs.length hwf1 hne
        refine ⟨(true, x), _, bs, xs, bs.length, ?_, hwf2⟩
        intro fuel hfuel
        obtain ⟨e, rfl⟩ : ∃ e, fuel = e + 1 + 1 := ⟨fuel - 2, by omega⟩
        simp only [try_pop, h1, h2]
      · obtain ⟨h2, hwf2⟩ := try_pop_iter_remove value x q b bs xs d hwf hht
        refine ⟨(true, x), _, bs, xs, d, ?_, hwf2⟩
        intro fuel hfuel
        obtain ⟨e, rfl⟩ : ∃ e, fuel = e + 1 := ⟨fuel - 1, by omega⟩
        simp only [try_pop, h2]

/-- C30 (queue try_pop with a lagging tail).  From a well-formed state with `head_ == tail_`
whose `head_` has a successor `b`, `try_pop` (with every compare-exchange whose expected value
matches succeeding) first moves `tail_` to `b` and goes round again, and on the second pass
returns `true` with the payload of `b`; one pass is not enough.  And from every well-formed
state, lagging tail or not, `try_pop` returns leaving a well-formed state, in which `tail_` is
a node of the chain that starts at `head_`: `head_` is never moved past `tail_`. -/
theorem queue_try_pop_lagging_tail (value x : T) (q : concurrent_queue T) (b : Nat)
    (bs : List Nat) (xs : List T) (d : Nat) (hwf : WFL q (b :: bs) (x :: xs) d)
    (hht : q.head_ = q.tail_) :
    ((deref q.mem q.head_).map Node.next = some b ∧
     (deref q.mem b).map Node.data = some x ∧
     try_pop_iter value q = .retry (value, { q with tail_ := b }) ∧
     try_pop 1 value q = .timeout ∧
     ∃ q1, (∀ fuel, 2 ≤ fuel → try_pop fuel value q = .ok ((true, x), q1)) ∧
       q1.head_ = b ∧ q1.tail_ = b ∧ WFL q1 bs xs bs.length) ∧
    (∀ (value2 : T) (q2 : concurrent_queue T) (bs2 : List Nat) (xs2 : List T) (d2 : Nat),
      WFL q2 bs2 xs2 d2 →
      ∃ r q3 bs3 xs3 d3, (∀ fuel, 2 ≤ fuel → try_pop fuel value2 q2 = .ok (r, q3)) ∧
        WFL q3 bs3 xs3 d3 ∧ q3.tail_ ∈ q3.head_ :: bs3) := by
  refine ⟨?_, ?_⟩
  · obtain ⟨hn, hhn, hnext, _⟩ := hwf.chain
    have hhv : valid_addr q.head_ := hwf.valid _ (by simp)
    have hbv : valid_addr b := hwf.valid _ (by simp)
    have hpay := hwf.payload
    simp only [List.map_cons, List.cons.injEq] at hpay
    obtain ⟨h1, hwf1⟩ := try_pop_iter_help value q b bs (x :: xs) d hwf hht
    have hne : ({ q with tail_ := b } : concurrent_queue T).head_ ≠
        ({ q with tail_ := b } : concurrent_queue T).tail_ := by
      show q.head_ ≠ b
      intro hc
      exact (List.nodup_cons.mp hwf.nodup).1 (hc ▸ List.mem_cons_self _ _)
    obtain ⟨h2, hwf2⟩ := try_pop_iter_remove value x _ b bs xs bs.length hwf1 hne
    refine ⟨?_, ?_, h1, ?_, _, ?_, rfl, rfl, hwf2⟩
    · rw [deref_valid _ _ hhv, hhn]; simp [hnext]
    · rw [deref_valid _ _ hbv]; exact hpay.1
    · simp only [try_pop, h1]
    · intro fuel hfuel
      obtain ⟨e, rfl⟩ : ∃ e, fuel = e + 1 + 1 := ⟨fuel - 2, by omega⟩
      simp only [try_pop, h1, h2]
  · intro value2 q2 bs2 xs2 d2 hwf2
    obtain ⟨r, q3, bs3, xs3, d3, h1, h2⟩ := try_pop_wfl value2 q2 bs2 xs2 d2 hwf2
    exact ⟨r, q3, bs3, xs3, d3, h1, h2, h2.tail_mem⟩

/-- Witness for C30: `try_pop` on `lagging_example`, where `head_ == tail_` and the sentinel
has the successor at address 2 with payload 10. -/
theorem queue_try_pop_lagging_tail_witness :
    WFL lagging_example [2] [10] 1 ∧ lagging_example.head_ = lagging_example.tail_ ∧
    (try_pop 2 0 lagging_example).result?.map (fun r => (r.1, r.2.head_, r.2.tail_)) =
      some ((true, 10), 2, 2) ∧
    ∃ q1, (∀ fuel, 2 ≤ fuel → try_pop fuel 0 lagging_example = .ok ((true, 10), q1)) ∧
      q1.head_ = 2 ∧ q1.tail_ = 2 ∧ WFL q1 [] [] 0 := by
  obtain ⟨⟨_, _, _, _, q1, h1, h2, h3, h4⟩, _⟩ :=
    queue_try_pop_lagging_tail 0 10 lagging_example 2 [] [] 1 lagging_example_wfl rfl
  exact ⟨lagging_example_wfl, rfl, by decide, q1, h1, h2, h3, h4⟩

theorem solo_add (m : Nat) :
    ∀ (n : Nat) (t t1 : Thread T) (q q1 : concurrent_queue T), solo n t q = .ok (t1, q1) →
      solo (n + m) t q = solo m t1 q1
  | 0, t, t1, q, q1, h => by
    simp only [solo, StepResult.ok.injEq, Prod.mk.injEq] at h
    obtain ⟨rfl, rfl⟩ := h
    rw [Nat.zero_add]
  | n + 1, t, t1, q, q1, h => by
    rw [Nat.add_right_comm]
    simp only [solo] at h ⊢
    cases hstep : thread_step t q with
    | ok r =>
      rw [hstep] at h
      simp only at h ⊢
      exact solo_add m n _ _ _ _ h
    | fault => rw [hstep] at h; cases h
    | no_alloc => rw [hstep] at h; cases h

/-- One pass through the loop body of `push`, as steps of a thread that is not interrupted:
the steps fault when `push_iter` faults, arrive at the top of the loop in the state of
`push_iter` when it goes round again, and return in its state when it returns. -/
theorem solo_push_iter (p : Nat) (todo : List (Call T)) (rs : List (Bool × T))
    (q : concurrent_queue T) :
    match push_iter p q with
    | .fault => solo 2 { todo := todo, pc := .push_load_tail p, results := rs } q = .fault
    | .retry q1 => solo 4 { todo := todo, pc := .push_load_tail p, results := rs } q =
        .ok ({ todo := todo, pc := .push_load_tail p, results := rs }, q1)
    | .ret _ q1 => solo 6 { todo := todo, pc := .push_load_tail p, results := rs } q =
        .ok ({ todo := todo, pc := .idle, results := rs }, q1) := by
  unfold push_iter
  simp only []
  cases hd : deref q.mem q.tail_ with
  | none => simp only [solo, thread_step, hd]
  | some tail_node =>
    simp only [if_true]
    by_cases hn : tail_node.next = nullptr
    · simp only [hn, if_true, solo, thread_step, hd]
    · simp only [hn, if_false, solo, thread_step, hd, if_true]

/-- One pass through the loop body of `try_pop`, as steps of a thread that is not
interrupted. -/
theorem solo_try_pop_iter (value : T) (todo : List (Call T)) (rs : List (Bool × T))
    (q : concurrent_queue T) :
    match try_pop_iter value q with
    | .fault => ∃ n, solo n { todo := todo, pc := .pop_load_head value, results := rs } q =
        .fault
    | .retry (value1, q1) =>
        solo 5 { todo := todo, pc := .pop_load_head value, results := rs } q =
          .ok ({ todo := todo, pc := .pop_load_head value1, results := rs }, q1)
    | .ret r (_, q1) =>
        ∃ n, solo n { todo := todo, pc := .pop_load_head value, results := rs } q =
          .ok ({ todo := todo, pc := .idle, results := rs ++ [r] }, q1) := by
  unfold try_pop_iter
  simp only []
  cases hd : deref q.mem q.head_ with
  | none => exact ⟨3, by simp only [solo, thread_step, hd]⟩
  | some head_node =>
    simp only [if_true]
    by_cases ht : q.head_ = q.tail_
    · by_cases hn : head_node.next = nullptr
      · simp only [ht, hn, if_true]
        exact ⟨4, by simp only [solo, thread_step, ← ht, hd, hn, if_true]⟩
      · simp only [ht, hn, if_true, if_false]
        simp only [solo, thread_step, ← ht, hd, hn, if_true, if_false]
    · simp only [ht, if_false]
      cases hd2 : deref q.mem head_node.next with
      | none =>
        exact ⟨5, by simp only [solo, thread_step, hd, ht, hd2, if_true, if_false]⟩
      | some next_node =>
        exact ⟨8, by simp only [solo, thread_step, hd, ht, hd2, if_true, if_false]⟩

/-- The loop of `push`, as steps of a thread that is not interrupted: they end as the loop
does. -/
theorem solo_push_loop (p : Nat) (todo : List (Call T)) (rs : List (Bool × T)) :
    ∀ (fuel : Nat) (q : concurrent_queue T),
      match push_loop p fuel q with
      | .ok q1 => ∃ n, solo n { todo := todo, pc := .push_load_tail p, results := rs } q =
          .ok ({ todo := todo, pc := .idle, results := rs }, q1)
      | .fault => ∃ n, solo n { todo := todo, pc := .push_load_tail p, results := rs } q =
          .fault
      | .timeout => True
  | 0, q => by simp only [push_loop]
  | fuel + 1, q => by
    have h1 := solo_push_iter p todo rs q
    simp only [push_loop]
    cases hi : push_iter p q with
    | fault =>
      rw [hi] at h1
      exact ⟨2, h1⟩
    | ret r q1 =>
      rw [hi] at h1
      exact ⟨6, h1⟩
    | retry q1 =>
      rw [hi] at h1
      simp only at h1 ⊢
      have h2 := solo_push_loop p todo rs fuel q1
      cases hl : push_loop p fuel q1 with
      | ok q2 =>
        rw [hl] at h2
        obtain ⟨n, hn⟩ := h2
        exact ⟨4 + n, by rw [solo_add n 4 _ _ _ _ h1]; exact hn⟩
      | fault =>
        rw [hl] at h2
        obtain ⟨n, hn⟩ := h2
        exact ⟨4 + n, by rw [solo_add n 4 _ _ _ _ h1]; exact hn⟩
      | timeout => trivial

/-- A call `push(value)` that returns in the embedding of calls executed one at a time is a
run of the steps of a thread that is not interrupted, with the same final state. -/
theorem solo_push (fuel p : Nat) (x : T) (todo : List (Call T)) (rs : List (Bool × T))
    (q q1 : concurrent_queue T) (hp : valid_addr p) (hfree : q.mem p = none)
    (h : push fuel p x q = .ok q1) :
    ∃ n, solo n { todo := .push p x :: todo, pc := .idle, results := rs } q =
      .ok ({ todo := todo, pc := .idle, results := rs }, q1) := by
  have h1 := solo_push_loop p todo rs fuel { q with mem := store q.mem p ⟨nullptr, x⟩ }
  unfold push at h
  rw [h] at h1
  obtain ⟨n, hn⟩ := h1
  refine ⟨2 + n, ?_⟩
  have h2 : solo 2 { todo := .push p x :: todo, pc := .idle, results := rs } q =
      .ok ({ todo := todo, pc := .push_load_tail p, results := rs },
        { q with mem := store q.mem p ⟨nullptr, x⟩ }) := by
    simp only [solo, thread_step, hp, hfree, Option.isNone_none, and_self, if_true]
  rw [solo_add n 2 _ _ _ _ h2]
  exact hn

/-- The loop of `try_pop`, as steps of a thread that is not interrupted: they end as the loop
does. -/
theorem solo_try_pop_loop (todo : List (Call T)) (rs : List (Bool × T)) :
    ∀ (fuel : Nat) (value : T) (q : concurrent_queue T),
      match try_pop fuel value q with
      | .ok (r, q1) =>
          ∃ n, solo n { todo := todo, pc := .pop_load_head value, results := rs } q =
            .ok ({ todo := todo, pc := .idle, results := rs ++ [r] }, q1)
      | .fault => ∃ n, solo n { todo := todo, pc := .pop_load_head value, results := rs } q =
          .fault
      | .timeout => True
  | 0, value, q => by simp only [try_pop]
  | fuel + 1, value, q => by
    have h1 := solo_try_pop_iter value todo rs q
    simp only [try_pop]
    cases hi : try_pop_iter value q with
    | fault =>
      rw [hi] at h1
      exact h1
    | ret r s =>
      rw [hi] at h1
      exact h1
    | retry s =>
      obtain ⟨value1, q1⟩ := s
      rw [hi] at h1
      simp only at h1 ⊢
      have h2 := solo_try_pop_loop todo rs fuel value1 q1
      cases hl : try_pop fuel value1 q1 with
      | ok r2 =>
        rw [hl] at h2
        obtain ⟨n, hn⟩ := h2
        exact ⟨5 + n, by rw [solo_add n 5 _ _ _ _ h1]; exact hn⟩
      | fault =>
        rw [hl] at h2
        obtain ⟨n, hn⟩ := h2
        exact ⟨5 + n, by rw [solo_add n 5 _ _ _ _ h1]; exact hn⟩
      | timeout => trivial

/-- A call `try_pop(value)` that returns in the embedding of calls executed one at a time is
a run of the steps of a thread that is not interrupted, with the same result and final
state. -/
theorem solo_try_pop (fuel : Nat) (value : T) (todo : List (Call T)) (rs : List (Bool × T))
    (q q1 : concurrent_queue T) (r : Bool × T) (h : try_pop fuel value q = .ok (r, q1)) :
    ∃ n, solo n { todo := .try_pop value :: todo, pc := .idle, results := rs } q =
      .ok ({ todo := todo, pc := .idle, results := rs ++ [r] }, q1) := by
  have h1 := solo_try_pop_loop todo rs fuel value q
  rw [h] at h1
  obtain ⟨n, hn⟩ := h1
  refine ⟨1 + n, ?_⟩
  have h2 : solo 1 { todo := .try_pop value :: todo, pc := .idle, results := rs } q =
      .ok ({ todo := todo, pc := .pop_load_head value, results := rs }, q) := rfl
  rw [solo_add n 1 _ _ _ _ h2]
  exact hn

theorem set_of_getElem? {α : Type} (a : α) :
    ∀ (l : List α) (i : Nat), l[i]? = some a → l.set i a = l
  | [], _, h => by simp at h
  | b :: l, 0, h => by
    simp only [List.getElem?_cons_zero, Option.some.injEq] at h
    rw [h, List.set_cons_zero]
  | b :: l, i + 1, h => by
    simp only [List.getElem?_cons_succ] at h
    rw [List.set_cons_succ, set_of_getElem? a l i h]

/-- Steps of one thread in a row, in a system, are the steps of that thread alone. -/
theorem run_schedule_solo (i : Nat) :
    ∀ (n : Nat) (s : System T) (t : Thread T), s.threads[i]? = some t →
      run_schedule (List.replicate n i) s =
        match solo n t s.q with
        | .ok (t1, q1) => .ok { q := q1, threads := s.threads.set i t1 }
        | .fault => .fault
        | .no_alloc => .no_alloc
  | 0, s, t, h => by
    simp only [List.replicate, run_schedule, solo, set_of_getElem? t s.threads i h]
  | n + 1, s, t, h => by
    have hlt : i < s.threads.length := by
      by_contra hc
      rw [List.getElem?_eq_none (by omega)] at h
      cases h
    simp only [List.replicate, run_schedule, sys_step, h, solo]
    cases hstep : thread_step t s.q with
    | fault => rfl
    | no_alloc => rfl
    | ok r =>
      obtain ⟨t1, q1⟩ := r
      simp only []
      rw [run_schedule_solo i n { q := q1, threads := s.threads.set i t1 } t1
        (List.getElem?_set_self hlt)]
      simp only [List.set_set]

set_option maxRecDepth 100000 in
/-- C26 fails at `uaf_schedule`.  After the producer's two calls and five steps of consumer 1
(21 steps), consumer 1 has passed the test `head == head_.load()` and is about to execute
`value = next->data` with `next` = 2, the node at 2 being allocated.  Consumer 2 then makes two
whole calls, the second of which deallocates the node at 2: at the end of `uaf_schedule`
consumer 1 is still about to read `next->data`, and no node is allocated at 2.  The next step
of consumer 1 dereferences the deallocated node. -/
theorem queue_use_after_free :
    view_of [1, 2, 3] (run_schedule (uaf_schedule.take 21) uaf_start) =
      some ((1, 3, 2), [some ⟨2, 0⟩, some ⟨3, 10⟩, some ⟨nullptr, 20⟩],
        [{ todo := [], pc := .idle, results := [] },
         { todo := [], pc := .pop_read 0 1 2, results := [] },
         { todo := [.try_pop 0, .try_pop 0], pc := .idle, results := [] }]) ∧
    view_of [1, 2, 3] (run_schedule uaf_schedule uaf_start) =
      some ((3, 3, 0), [none, none, some ⟨nullptr, 20⟩],
        [{ todo := [], pc := .idle, results := [] },
         { todo := [], pc := .pop_read 0 1 2, results := [] },
         { todo := [], pc := .idle, results := [(true, 10), (true, 20)] }]) ∧
    (run_schedule (uaf_schedule ++ [1]) uaf_start).faulted = true := by
  refine ⟨by decide, by decide, by decide⟩

set_option maxRecDepth 100000 in
/-- C25 fails at `aba_schedule`.  After 31 steps consumer 1 has read the value 10 from the
node after the sentinel at address 1 and is about to execute its compare-exchange on `head_`,
expecting 1, and consumer 2 has returned 10 and deallocated the node at 1.  The producer's
third node is allocated at address 1; after two more calls of consumer 2 it is the sentinel:
`head_` is 1 again.  The compare-exchange of consumer 1 then succeeds.  When every call has
returned, three values have been pushed and four delivered, 10 twice; `head_` is 2, where no
node is allocated; no node is allocated at all; and `size()` is 2^64 - 1. -/
theorem queue_reuse_duplicates :
    view_of [1, 2, 3] (run_schedule (aba_schedule.take 31) aba_start) =
      some ((2, 3, 1), [none, some ⟨3, 10⟩, some ⟨nullptr, 20⟩],
        [{ todo := [.push 1 30], pc := .idle, results := [] },
         { todo := [], pc := .pop_cas 10 1 2, results := [] },
         { todo := [.try_pop 0, .try_pop 0], pc := .idle, results := [(true, 10)] }]) ∧
    view_of [1, 2, 3] (run_schedule (aba_schedule.take 57) aba_start) =
      some ((1, 1, 0), [some ⟨nullptr, 30⟩, none, none],
        [{ todo := [], pc := .idle, results := [] },
         { todo := [], pc := .pop_cas 10 1 2, results := [] },
         { todo := [], pc := .idle, results := [(true, 10), (true, 20), (true, 30)] }]) ∧
    view_of [1, 2, 3] (run_schedule aba_schedule aba_start) =
      some ((2, 1, SIZE_MOD - 1), [none, none, none],
        [{ todo := [], pc := .idle, results := [] },
         { todo := [], pc := .idle, results := [(true, 10)] },
         { todo := [], pc := .idle, results := [(true, 10), (true, 20), (true, 30)] }]) ∧
    ((view_of [1, 2, 3] (run_schedule aba_schedule aba_start)).map
      (fun w => w.2.2.map Thread.popped)) = some [[], [10], [10, 20, 30]] := by
  refine ⟨by decide, by decide, by decide, by decide⟩

/-- C31 (queue operations finish in one attempt when uncontended).  In every state reached by
`push` and `try_pop` calls executed one at a time on a new queue, `tail_` points at an
allocated node whose `next` is null.  Hence, every compare-exchange whose expected value
matches succeeding, the first pass through the loop of `push` executes `return` (a pass that
takes the helping branch goes round again instead), so `push` returns with a budget of one
pass, and does not with none; the same holds for `try_pop`, whose helping branch is never
entered because `head_ == tail_` implies that `head_->next` is null. -/
theorem queue_uncontended_one_attempt [Inhabited T] (q : concurrent_queue T)
    (hq : Reachable q) :
    (∃ n, deref q.mem q.tail_ = some n ∧ n.next = nullptr) ∧
    (∀ p x, valid_addr p → q.mem p = none →
      ∃ q1, push_iter p { q with mem := store q.mem p ⟨nullptr, x⟩ } = .ret () q1 ∧
        push 0 p x q = .timeout ∧ ∀ fuel, push (fuel + 1) p x q = .ok q1) ∧
    (∀ value : T, ∃ r v1 q1, try_pop_iter value q = .ret r (v1, q1) ∧
      try_pop 0 value q = .timeout ∧ ∀ fuel, try_pop (fuel + 1) value q = .ok (r, q1)) ∧
    (∀ hn, deref q.mem q.head_ = some hn → q.head_ = q.tail_ → hn.next = nullptr) := by
  obtain ⟨bs, xs, hwf⟩ := hq.wf
  have htv : valid_addr q.tail_ := by
    rw [hwf.tail]; exact hwf.valid _ (chain_last_mem bs q.head_)
  obtain ⟨tn, htn, htnext⟩ := Chain.last bs q.head_ hwf.chain
  have htail : deref q.mem q.tail_ = some tn := by
    rw [deref_valid _ _ htv, hwf.tail]; exact htn
  refine ⟨⟨tn, htail, htnext⟩, ?_, ?_, ?_⟩
  · intro p x hp hfree
    obtain ⟨q1, hpush, _⟩ := push_wf 0 p x q bs xs hwf hp hfree
    have hiter : push_iter p { q with mem := store q.mem p ⟨nullptr, x⟩ } = .ret () q1 := by
      unfold push at hpush
      simp only [push_loop] at hpush
      cases hi : push_iter p { q with mem := store q.mem p ⟨nullptr, x⟩ } with
      | fault => rw [hi] at hpush; cases hpush
      | retry q2 => rw [hi] at hpush; cases hpush
      | ret r q2 =>
        rw [hi] at hpush
        simp only [Outcome.ok.injEq] at hpush
        rw [hpush]
    refine ⟨q1, hiter, rfl, ?_⟩
    intro fuel
    unfold push
    simp only [push_loop, hiter]
  · intro value
    have hone : ∃ r q1, try_pop 1 value q = .ok (r, q1) := by
      cases bs with
      | nil =>
        cases xs with
        | nil => exact ⟨_, _, try_pop_wf_nil 0 value q hwf⟩
        | cons x xs1 => have := hwf.payload; simp at this
      | cons b bs1 =>
        cases xs with
        | nil => have := hwf.payload; simp at this
        | cons x xs1 =>
          obtain ⟨q1, h1, _⟩ := try_pop_wf_cons 0 value x q b bs1 xs1 hwf
          exact ⟨_, _, h1⟩
    obtain ⟨r, q1, h1⟩ := hone
    simp only [try_pop] at h1
    cases hi : try_pop_iter value q with
    | fault => rw [hi] at h1; cases h1
    | retry s => rw [hi] at h1; cases h1
    | ret r2 s =>
      obtain ⟨v1, q2⟩ := s
      rw [hi] at h1
      simp only [Outcome.ok.injEq, Prod.mk.injEq] at h1
      obtain ⟨rfl, rfl⟩ := h1
      refine ⟨r2, v1, q2, rfl, rfl, ?_⟩
      intro fuel
      simp only [try_pop, hi]
  · intro hn hhn hht
    rw [hht, htail] at hhn
    cases hhn
    exact htnext

/-- Witness for C31: the queue after `push(10)`, `push(20)` and a `try_pop`. -/
theorem queue_uncontended_one_attempt_witness :
    ∃ q : concurrent_queue Nat, Reachable q ∧
      (∃ n, deref q.mem q.tail_ = some n ∧ n.next = nullptr) ∧
      (∀ value : Nat, ∃ r v1 q1, try_pop_iter value q = .ret r (v1, q1) ∧
        try_pop 0 value q = .timeout ∧ ∀ fuel, try_pop (fuel + 1) value q = .ok (r, q1)) := by
  obtain ⟨q1, h1, hw1, _⟩ := push_wf 0 2 10 (new 1 : concurrent_queue Nat) [] []
    (new_wf 1 (by decide)) (by decide) (by decide)
  have hr1 : Reachable q1 :=
    Reachable.push _ q1 1 2 10 (Reachable.new 1 (by decide)) (by decide) (by decide) h1
  exact ⟨q1, hr1, (queue_uncontended_one_attempt q1 hr1).1,
    (queue_uncontended_one_attempt q1 hr1).2.2.1⟩

set_option maxRecDepth 100000 in
/-- C37 fails at `wrap_schedule`.  After 6 steps the producer has linked its node (the
sentinel at 1 points at 2) and `size_` is still 0.  After 19 steps the consumer has unlinked
and deallocated the old sentinel and is about to execute `size_.fetch_sub(1)`, `size_` being
0.  After 20 steps the consumer has returned `true` with the value 10: the one value pushed
has been popped, `size()` is 2^64 - 1 and `empty()` is `false`.  The producer's
`size_.fetch_add(1)` then brings the counter to 0. -/
theorem queue_counter_wraps :
    view_of [1, 2] (run_schedule (wrap_schedule.take 6) wrap_start) =
      some ((1, 1, 0), [some ⟨2, 0⟩, some ⟨nullptr, 10⟩],
        [{ todo := [], pc := .push_swing 2 1, results := [] },
         { todo := [.try_pop 0], pc := .idle, results := [] }]) ∧
    view_of [1, 2] (run_schedule (wrap_schedule.take 19) wrap_start) =
      some ((2, 2, 0), [none, some ⟨nullptr, 10⟩],
        [{ todo := [], pc := .push_swing 2 1, results := [] },
         { todo := [], pc := .pop_count 10, results := [] }]) ∧
    view_of [1, 2] (run_schedule (wrap_schedule.take 20) wrap_start) =
      some ((2, 2, SIZE_MOD - 1), [none, some ⟨nullptr, 10⟩],
        [{ todo := [], pc := .push_swing 2 1, results := [] },
         { todo := [], pc := .idle, results := [(true, 10)] }]) ∧
    (queue_of (run_schedule (wrap_schedule.take 20) wrap_start)).map size =
      some (SIZE_MOD - 1) ∧
    (queue_of (run_schedule (wrap_schedule.take 20) wrap_start)).map empty = some false ∧
    view_of [1, 2] (run_schedule wrap_schedule wrap_start) =
      some ((2, 2, 0), [none, some ⟨nullptr, 10⟩],
        [{ todo := [], pc := .idle, results := [] },
         { todo := [], pc := .idle, results := [(true, 10)] }]) := by
  refine ⟨by decide, by decide, by decide, by decide, by decide, by decide⟩

set_option maxRecDepth 100000 in
/-- Counterexample for C3, with calls that overlap.  In `stolen_schedule` consumer 1 calls
`try_pop` with its output variable holding 0; after 14 steps it has executed
`value = next->data` (the variable holds 10) and is about to execute its compare-exchange on
`head_`; consumer 2 takes the element; the compare-exchange of consumer 1 fails, its next
pass finds no successor of `head_`, and the call returns `false` with the output variable
holding 10.  No step faults.  In `helped_schedule` consumer 1 moves `tail_` from 1 to 2
(after 12 steps) and then returns `false`: a call that returns `false` has changed the
queue. -/
theorem queue_try_pop_false_overwrites_output :
    view_of [1, 2] (run_schedule (stolen_schedule.take 14) stolen_start) =
      some ((1, 2, 1), [some ⟨2, 0⟩, some ⟨nullptr, 10⟩],
        [{ todo := [], pc := .idle, results := [] },
         { todo := [], pc := .pop_cas 10 1 2, results := [] },
         { todo := [.try_pop 0], pc := .idle, results := [] }]) ∧
    view_of [1, 2] (run_schedule stolen_schedule stolen_start) =
      some ((2, 2, 0), [none, some ⟨nullptr, 10⟩],
        [{ todo := [], pc := .idle, results := [] },
         { todo := [], pc := .idle, results := [(false, 10)] },
         { todo := [], pc := .idle, results := [(true, 10)] }]) ∧
    view_of [1, 2] (run_schedule (helped_schedule.take 6) stolen_start) =
      some ((1, 1, 0), [some ⟨2, 0⟩, some ⟨nullptr, 10⟩],
        [{ todo := [], pc := .push_swing 2 1, results := [] },
         { todo := [.try_pop 0], pc := .idle, results := [] },
         { todo := [.try_pop 0], pc := .idle, results := [] }]) ∧
    view_of [1, 2] (run_schedule (helped_schedule.take 12) stolen_start) =
      some ((1, 2, 0), [some ⟨2, 0⟩, some ⟨nullptr, 10⟩],
        [{ todo := [], pc := .push_swing 2 1, results := [] },
         { todo := [], pc := .pop_load_head 0, results := [] },
         { todo := [.try_pop 0], pc := .idle, results := [] }]) ∧
    view_of [1, 2] (run_schedule helped_schedule stolen_start) =
      some ((2, 2, 0), [none, some ⟨nullptr, 10⟩],
        [{ todo := [], pc := .idle, results := [] },
         { todo := [], pc := .idle, results := [(false, 0)] },
         { todo := [], pc := .idle, results := [(true, 10)] }]) := by
  refine ⟨by decide, by decide, by decide, by decide, by decide⟩

/-- C3, as amended (an empty queue is a normal result of a `try_pop` that no other call
overlaps).  In every state reached by calls executed one at a time, `try_pop` returns without
a fault, both as a call of the embedding of calls executed one at a time and as the steps of
a thread that no step of another thread interrupts; it returns `false` exactly when `head_`
has no successor, and then the queue state and the caller's output variable are unchanged;
otherwise it returns `true` and the output variable holds the payload of the successor of
`head_`. -/
theorem queue_try_pop_empty_is_normal [Inhabited T] (fuel : Nat) (value : T)
    (q : concurrent_queue T) (hq : Reachable q) :
    ∃ b v1 q1, try_pop (fuel + 1) value q = .ok ((b, v1), q1) ∧
      (b = false ↔ (deref q.mem q.head_).map Node.next = some nullptr) ∧
      (b = false → q1 = q ∧ v1 = value) ∧
      (b = true → ∃ hn n, deref q.mem q.head_ = some hn ∧ deref q.mem hn.next = some n ∧
        v1 = n.data) ∧
      (∀ (todo : List (Call T)) (rs : List (Bool × T)),
        ∃ n, solo n { todo := .try_pop value :: todo, pc := .idle, results := rs } q =
          .ok ({ todo := todo, pc := .idle, results := rs ++ [(b, v1)] }, q1)) := by
  obtain ⟨bs, xs, hwf⟩ := hq.wf
  have hhv : valid_addr q.head_ := hwf.valid _ (by simp)
  cases bs with
  | nil =>
    have hxs : xs = [] := List.length_eq_zero.mp hwf.length_eq.symm
    subst hxs
    obtain ⟨hn, hhn, hnext⟩ := hwf.chain
    refine ⟨false, value, q, try_pop_wf_nil fuel value q hwf, ?_, ?_, ?_, ?_⟩
    · simp [deref_valid _ _ hhv, hhn, hnext]
    · intro _; exact ⟨rfl, rfl⟩
    · intro h; cases h
    · intro todo rs
      exact solo_try_pop (fuel + 1) value todo rs q q _ (try_pop_wf_nil fuel value q hwf)
  | cons b bs =>
    cases xs with
    | nil => exact absurd hwf.length_eq (by simp)
    | cons x xs =>
      obtain ⟨q1, hpop, _, _⟩ := try_pop_wf_cons fuel value x q b bs xs hwf
      obtain ⟨hn, hhn, hnext, _⟩ := hwf.chain
      have hbv : valid_addr b := hwf.valid _ (by simp)
      have hpay := hwf.payload
      simp only [List.map_cons, List.cons.injEq] at hpay
      refine ⟨true, x, q1, hpop, ?_, ?_, ?_, ?_⟩
      · simp [deref_valid _ _ hhv, hhn, hnext]
        exact hbv.1
      · intro h; cases h
      · intro _
        cases hb : q.mem b with
        | none => simp [hb] at hpay
        | some nn =>
          refine ⟨hn, nn, deref_valid _ _ hhv ▸ hhn, ?_, ?_⟩
          · rw [hnext, deref_valid _ _ hbv, hb]
          · simpa [hb] using hpay.1.symm
      · intro todo rs
        exact solo_try_pop (fuel + 1) value todo rs q q1 _ hpop

/-- Witness for C3: the newly constructed queue. -/
theorem queue_try_pop_empty_is_normal_witness :
    Reachable (new 1 : concurrent_queue Nat) ∧
    ∃ b v1 q1, try_pop 1 7 (new 1 : concurrent_queue Nat) = .ok ((b, v1), q1) ∧
      (b = false ↔ (deref (new 1 : concurrent_queue Nat).mem (new 1 : concurrent_queue Nat).head_).map
        Node.next = some nullptr) ∧
      (b = false → q1 = new 1 ∧ v1 = 7) ∧
      (b = true → ∃ hn n, deref (new 1 : concurrent_queue Nat).mem
          (new 1 : concurrent_queue Nat).head_ = some hn ∧
        deref (new 1 : concurrent_queue Nat).mem hn.next = some n ∧ v1 = n.data) ∧
      (∀ (todo : List (Call Nat)) (rs : List (Bool × Nat)),
        ∃ n, solo n { todo := .try_pop 7 :: todo, pc := .idle, results := rs } (new 1) =
          .ok ({ todo := todo, pc := .idle, results := rs ++ [(b, v1)] }, q1)) :=
  ⟨Reachable.new 1 (by decide),
    queue_try_pop_empty_is_normal 0 7 (new 1) (Reachable.new 1 (by decide))⟩

end concurrent_queue

end hcstl

/-! ## Proofs: concurrent_map -/

namespace hcstl

namespace concurrent_map

variable {K V : Type}

theorem getD_set (l : List (Bucket K V)) (i j : Nat) (b d : Bucket K V) (hi : i < l.length) :
    (l.set i b).getD j d = if j = i then b else l.getD j d := by
  rw [List.getD_eq_getElem?_getD, List.getD_eq_getElem?_getD, List.getElem?_set]
  by_cases h : i = j
  · subst h; simp [hi]
  · have h2 : ¬ j = i := fun h3 => h h3.symm
    simp [h, h2]

theorem getD_mem (l : List (Bucket K V)) (i : Nat) (d : Bucket K V) (hi : i < l.length) :
    l.getD i d ∈ l := by
  rw [List.getD_eq_getElem?_getD, List.getElem?_eq_getElem hi]
  exact List.getElem_mem hi

/-- Replacing one bucket changes the nodes of the table only by the nodes of that bucket. -/
theorem all_nodes_set :
    ∀ (l : List (Bucket K V)) (i : Nat) (b : Bucket K V), i < l.length →
      ∃ rest, (all_nodes l).Perm ((l.getD i Bucket.init).head ++ rest) ∧
        (all_nodes (l.set i b)).Perm (b.head ++ rest)
  | [], _, _, h => by simp at h
  | a :: l, 0, b, _ => ⟨all_nodes l, List.Perm.refl _, List.Perm.refl _⟩
  | a :: l, i + 1, b, h => by
    obtain ⟨rest, h1, h2⟩ := all_nodes_set l i b (by simpa using h)
    refine ⟨a.head ++ rest, ?_, ?_⟩
    · show (a.head ++ all_nodes l).Perm ((l.getD i Bucket.init).head ++ (a.head ++ rest))
      refine (List.Perm.append_left a.head h1).trans ?_
      rw [← List.append_assoc, ← List.append_assoc]
      exact List.Perm.append_right rest List.perm_append_comm
    · show (a.head ++ all_nodes (l.set i b)).Perm (b.head ++ (a.head ++ rest))
      refine (List.Perm.append_left a.head h2).trans ?_
      rw [← List.append_assoc, ← List.append_assoc]
      exact List.Perm.append_right rest List.perm_append_comm

theorem all_nodes_replicate_init (n : Nat) :
    all_nodes (List.replicate n ({ head := [], size := 0 } : Bucket K V)) = [] := by
  induction n with
  | zero => rfl
  | succ n ih => simp [List.replicate_succ, all_nodes, ih]

theorem all_nodes_map_init (l : List (Bucket K V)) :
    all_nodes (l.map (fun _ => ({ head := [], size := 0 } : Bucket K V))) = [] := by
  induction l with
  | nil => rfl
  | cons b l ih =>
    show [] ++ all_nodes (l.map (fun _ => ({ head := [], size := 0 } : Bucket K V))) = []
    rw [ih]; rfl

theorem bucket_at_new (i : Nat) : (new : concurrent_map K V).bucket_at i = Bucket.init := by
  unfold bucket_at new
  rw [List.getD_eq_getElem?_getD, List.getElem?_replicate]
  split <;> rfl

theorem bucket_at_clear (m : concurrent_map K V) (i : Nat) :
    (clear m).bucket_at i = Bucket.init := by
  unfold bucket_at clear
  rw [List.getD_eq_getElem?_getD, List.getElem?_map]
  cases m.buckets_[i]? <;> rfl

/-- The nodes of one bucket are among the nodes of the table. -/
theorem bucket_length_le (l : List (Bucket K V)) (i : Nat) (hi : i < l.length) :
    (l.getD i Bucket.init).head.length ≤ (all_nodes l).length := by
  obtain ⟨rest, h1, _⟩ := all_nodes_set l i Bucket.init hi
  rw [h1.length_eq, List.length_append]
  omega

theorem sum_sizes_eq (l : List (Bucket K V)) (h : ∀ b ∈ l, b.size = b.head.length) :
    (l.map Bucket.size).sum = (all_nodes l).length := by
  induction l with
  | nil => rfl
  | cons b l ih =>
    have h1 := h b (by simp)
    have h2 := ih (fun b1 hb1 => h b1 (List.mem_cons_of_mem _ hb1))
    simp [all_nodes, h1, h2]

theorem mem_all_nodes (n : Node K V) :
    ∀ l : List (Bucket K V), n ∈ all_nodes l ↔ ∃ i, i < l.length ∧ n ∈ (l.getD i Bucket.init).head
  | [] => by simp [all_nodes]
  | b :: l => by
    simp only [all_nodes, List.mem_append, mem_all_nodes n l]
    constructor
    · rintro (h | ⟨i, hi, h⟩)
      · exact ⟨0, by simp, h⟩
      · exact ⟨i + 1, by simpa using hi, h⟩
    · rintro ⟨i, hi, h⟩
      cases i with
      | zero => exact Or.inl h
      | succ i => exact Or.inr ⟨i, by simpa using hi, h⟩

/-- Chains whose keys are distinct and that lie in the bucket given by `f` hold distinct
keys altogether. -/
theorem keys_nodup_of_placed (f : K → Nat) :
    ∀ (l : List (Bucket K V)) (off : Nat),
      (∀ i, ∀ n ∈ (l.getD i Bucket.init).head, f n.data.1 = off + i) →
      (∀ b ∈ l, (b.head.map (fun n => n.data.1)).Nodup) →
      ((all_nodes l).map (fun n => n.data.1)).Nodup
  | [], _, _, _ => by simp [all_nodes]
  | b :: l, off, hp, hk => by
    have ih := keys_nodup_of_placed f l (off + 1)
      (fun i n hn => by rw [hp (i + 1) n hn]; omega)
      (fun b1 hb1 => hk b1 (List.mem_cons_of_mem _ hb1))
    simp only [all_nodes, List.map_append]
    refine List.Nodup.append (hk b (by simp)) ih ?_
    intro k hk1 hk2
    obtain ⟨n1, hn1, hkey1⟩ := List.mem_map.mp hk1
    obtain ⟨n2, hn2, hkey2⟩ := List.mem_map.mp hk2
    obtain ⟨i, _, hi2⟩ := (mem_all_nodes n2 l).mp hn2
    have e1 := hp 0 n1 hn1
    have e2 := hp (i + 1) n2 hi2
    rw [hkey1] at e1
    rw [hkey2] at e2
    omega

theorem getD_set_other (l : List (Bucket K V)) (i j : Nat) (b d : Bucket K V) (h : j ≠ i) :
    (l.set i b).getD j d = l.getD j d := by
  rw [List.getD_eq_getElem?_getD, List.getD_eq_getElem?_getD,
    List.getElem?_set_ne (fun h1 => h h1.symm)]

theorem clear_eq_new (m : concurrent_map K V) (h : m.buckets_.length = NUM_SHARDS) :
    clear m = new := by
  have hb : ∀ l : List (Bucket K V),
      l.map (fun _ => ({ head := [], size := 0 } : Bucket K V)) =
        List.replicate l.length Bucket.init := by
    intro l
    induction l with
    | nil => rfl
    | cons b l ih =>
      rw [List.map_cons, ih, List.length_cons, List.replicate_succ]
      rfl
  unfold clear new
  rw [hb, h]

theorem foldl_clear_bucket (c : Bucket K V) :
    ∀ (k : Nat) (l : List (Bucket K V)), k ≤ l.length →
      (List.range k).foldl (fun acc i => acc.set i c) l = List.replicate k c ++ l.drop k
  | 0, l, _ => by simp
  | k + 1, l, hk => by
    rw [List.range_succ, List.foldl_append, foldl_clear_bucket c k l (by omega)]
    simp only [List.foldl_cons, List.foldl_nil]
    rw [List.set_append_right _ _ (by simp)]
    simp only [List.length_replicate, Nat.sub_self]
    have hlt : k < l.length := by omega
    rw [List.drop_eq_getElem_cons hlt]
    simp only [List.set_cons_zero]
    rw [List.replicate_succ', List.append_assoc]
    rfl

theorem foldl_clear_bucket_map (m : concurrent_map K V) :
    ∀ k : Nat, (List.range k).foldl (fun m1 i => clear_bucket i m1) m =
      { buckets_ := (List.range k).foldl (fun acc i => acc.set i { head := [], size := 0 })
          m.buckets_,
        size_ := m.size_ }
  | 0 => rfl
  | k + 1 => by
    rw [List.range_succ, List.foldl_append, List.foldl_append, foldl_clear_bucket_map m k]
    rfl

theorem set_getD_self (l : List (Bucket K V)) (i : Nat) (d : Bucket K V) (hi : i < l.length) :
    l.set i (l.getD i d) = l := by
  apply List.ext_getElem?
  intro j
  by_cases hj : i = j
  · subst hj
    rw [List.getElem?_set_self hi, List.getD_eq_getElem?_getD, List.getElem?_eq_getElem hi]
    rfl
  · rw [List.getElem?_set_ne hj]

variable [DecidableEq K]

theorem chain_contains_iff_mem (key : K) :
    ∀ chain : List (Node K V),
      chain_contains key chain = true ↔ key ∈ chain.map (fun n => n.data.1)
  | [] => by simp [chain_contains]
  | n :: rest => by
    by_cases h : n.data.1 = key
    · simp [chain_contains, h]
    · have ih := chain_contains_iff_mem key rest
      simp only [chain_contains, h, if_false, List.map_cons, List.mem_cons]
      rw [ih]
      constructor
      · exact Or.inr
      · rintro (h1 | h1)
        · exact absurd h1.symm h
        · exact h1

theorem chain_find_eq_none_iff (key : K) :
    ∀ chain : List (Node K V),
      chain_find key chain = none ↔ key ∉ chain.map (fun n => n.data.1)
  | [] => by simp [chain_find]
  | n :: rest => by
    by_cases h : n.data.1 = key
    · simp [chain_find, h]
    · have ih := chain_find_eq_none_iff key rest
      simp only [chain_find, h, if_false, List.map_cons, List.mem_cons, not_or]
      rw [ih]
      constructor
      · exact fun h1 => ⟨fun h2 => h h2.symm, h1⟩
      · exact fun h1 => h1.2

theorem chain_contains_eq_false_iff (key : K) (chain : List (Node K V)) :
    chain_contains key chain = false ↔ chain_find key chain = none := by
  rw [chain_find_eq_none_iff, ← chain_contains_iff_mem]
  simp

/-- What the loop of `erase` does when it fails. -/
theorem chain_erase_eq_none_iff (key : K) :
    ∀ chain : List (Node K V), chain_erase key chain = none ↔ chain_find key chain = none
  | [] => by simp [chain_erase, chain_find]
  | n :: rest => by
    by_cases h : n.data.1 = key
    · simp [chain_erase, chain_find, h]
    · have ih := chain_erase_eq_none_iff key rest
      simp [chain_erase, chain_find, h, ih]

/-- What the loop of `erase` does when it succeeds: the first node with the key is unlinked. -/
theorem chain_erase_eq_some (key : K) :
    ∀ (chain chain1 : List (Node K V)), chain_erase key chain = some chain1 →
      ∃ pre n post, chain = pre ++ n :: post ∧ chain1 = pre ++ post ∧ n.data.1 = key ∧
        key ∉ pre.map (fun n => n.data.1)
  | [], _, h => by simp [chain_erase] at h
  | n :: rest, chain1, h => by
    by_cases hk : n.data.1 = key
    · simp only [chain_erase, hk, if_true, Option.some.injEq] at h
      exact ⟨[], n, rest, rfl, by simp [h], hk, by simp⟩
    · simp only [chain_erase, hk, if_false, Option.map_eq_some'] at h
      obtain ⟨rest1, hr, hc⟩ := h
      obtain ⟨pre, n1, post, h1, h2, h3, h4⟩ := chain_erase_eq_some key rest rest1 hr
      refine ⟨n :: pre, n1, post, by simp [h1], by simp [← hc, h2], h3, ?_⟩
      simp only [List.map_cons, List.mem_cons, not_or]
      exact ⟨fun h5 => hk h5.symm, h4⟩

theorem chain_find_append_of_not_mem (key : K) :
    ∀ (pre post : List (Node K V)), key ∉ pre.map (fun n => n.data.1) →
      chain_find key (pre ++ post) = chain_find key post
  | [], _, _ => rfl
  | n :: pre, post, h => by
    simp only [List.map_cons, List.mem_cons, not_or] at h
    have hk : ¬ n.data.1 = key := fun h5 => h.1 h5.symm
    simp only [List.cons_append, chain_find, hk, if_false]
    exact chain_find_append_of_not_mem key pre post h.2

/-- The newly constructed map is well formed. -/
theorem map_new_wf (hasher_ : K → Nat) : WF hasher_ (new : concurrent_map K V) where
  length := by simp [new]
  count := by
    intro b hb
    rw [List.eq_of_mem_replicate hb]; rfl
  keys := by
    intro b hb
    rw [List.eq_of_mem_replicate hb]; simp [Bucket.init]
  placed := by
    intro i n hn
    rw [bucket_at_new] at hn
    simp [Bucket.init] at hn
  total := by simp [new, Bucket.init, all_nodes_replicate_init]
  addrs := by simp [new, Bucket.init, all_nodes_replicate_init]
  valid := by
    intro n hn
    simp [new, Bucket.init, all_nodes_replicate_init] at hn

/-- The map after `clear()` is well formed. -/
theorem map_clear_wf (hasher_ : K → Nat) (m : concurrent_map K V) (h : WF hasher_ m) :
    WF hasher_ (clear m) where
  length := by simp [clear, h.length]
  count := by
    intro b hb
    simp only [clear, List.mem_map] at hb
    obtain ⟨_, _, rfl⟩ := hb
    rfl
  keys := by
    intro b hb
    simp only [clear, List.mem_map] at hb
    obtain ⟨_, _, rfl⟩ := hb
    simp
  placed := by
    intro i n hn
    rw [bucket_at_clear] at hn
    simp [Bucket.init] at hn
  total := by rw [clear, all_nodes_map_init]; rfl
  addrs := by rw [clear, all_nodes_map_init]; simp
  valid := by
    intro n hn
    rw [clear, all_nodes_map_init] at hn
    simp at hn

theorem WF.idx_lt {hasher_ : K → Nat} {m : concurrent_map K V} (h : WF hasher_ m) (key : K) :
    bucket_idx hasher_ key < m.buckets_.length := by
  rw [h.length]
  exact Nat.mod_lt _ (by decide)

theorem WF.nodes_bound {hasher_ : K → Nat} {m : concurrent_map K V} (h : WF hasher_ m) :
    (all_nodes m.buckets_).length < SIZE_MOD := by
  have := length_lt_SIZE_MOD _ h.addrs (by
    intro a ha
    obtain ⟨n, hn, rfl⟩ := List.mem_map.mp ha
    exact h.valid n hn)
  simpa using this

theorem insert_of_contains (hasher_ : K → Nat) (p : Nat) (key : K) (value : V)
    (m : concurrent_map K V)
    (hc : chain_contains key (m.bucket_at (bucket_idx hasher_ key)).head = true) :
    insert hasher_ p key value m = (false, m) := by
  simp [insert, hc]

theorem insert_of_not_contains (hasher_ : K → Nat) (p : Nat) (key : K) (value : V)
    (m : concurrent_map K V)
    (hc : chain_contains key (m.bucket_at (bucket_idx hasher_ key)).head = false) :
    insert hasher_ p key value m =
      (true,
        { buckets_ := m.buckets_.set (bucket_idx hasher_ key)
            { head := { addr := p, data := (key, value) } ::
                (m.bucket_at (bucket_idx hasher_ key)).head,
              size := fetch_add_one (m.bucket_at (bucket_idx hasher_ key)).size },
          size_ := fetch_add_one m.size_ }) := by
  simp [insert, hc]

/-- A successful `insert` from a well-formed state: neither counter wraps, the nodes of the
map are the old ones and the new one, and the state stays well formed. -/
theorem insert_fresh_wf (hasher_ : K → Nat) (p : Nat) (key : K) (value : V)
    (m : concurrent_map K V) (h : WF hasher_ m) (ha : allocatable m p)
    (hc : chain_contains key (m.bucket_at (bucket_idx hasher_ key)).head = false) :
    fetch_add_one (m.bucket_at (bucket_idx hasher_ key)).size =
      (m.bucket_at (bucket_idx hasher_ key)).head.length + 1 ∧
    fetch_add_one m.size_ = m.size_ + 1 ∧
    (all_nodes (insert hasher_ p key value m).2.buckets_).Perm
      ({ addr := p, data := (key, value) } :: all_nodes m.buckets_) ∧
    WF hasher_ (insert hasher_ p key value m).2 := by
  have hidx := h.idx_lt key
  have hb_mem : m.bucket_at (bucket_idx hasher_ key) ∈ m.buckets_ := getD_mem _ _ _ hidx
  obtain ⟨rest, hp1, hp2⟩ := all_nodes_set m.buckets_ (bucket_idx hasher_ key)
    { head := { addr := p, data := (key, value) } :: (m.bucket_at (bucket_idx hasher_ key)).head,
      size := fetch_add_one (m.bucket_at (bucket_idx hasher_ key)).size } hidx
  rw [insert_of_not_contains hasher_ p key value m hc]
  simp only
  generalize hb : m.bucket_at (bucket_idx hasher_ key) = b at *
  have hb1 : m.buckets_.getD (bucket_idx hasher_ key) Bucket.init = b := hb
  rw [hb1] at hp1
  have hperm : (all_nodes (m.buckets_.set (bucket_idx hasher_ key)
      { head := { addr := p, data := (key, value) } :: b.head,
        size := fetch_add_one b.size })).Perm
      ({ addr := p, data := (key, value) } :: all_nodes m.buckets_) :=
    hp2.trans (List.Perm.cons _ hp1.symm)
  have haddrs : ((all_nodes (m.buckets_.set (bucket_idx hasher_ key)
      { head := { addr := p, data := (key, value) } :: b.head,
        size := fetch_add_one b.size })).map Node.addr).Nodup := by
    rw [(hperm.map Node.addr).nodup_iff]
    exact List.nodup_cons.mpr ⟨ha.2, h.addrs⟩
  have hvalid : ∀ n ∈ all_nodes (m.buckets_.set (bucket_idx hasher_ key)
      { head := { addr := p, data := (key, value) } :: b.head,
        size := fetch_add_one b.size }), valid_addr n.addr := by
    intro n hn
    rcases List.mem_cons.mp (hperm.mem_iff.mp hn) with hn1 | hn1
    · rw [hn1]; exact ha.1
    · exact h.valid n hn1
  have hbound := length_lt_SIZE_MOD _ haddrs (by
    intro a ha1
    obtain ⟨n, hn, rfl⟩ := List.mem_map.mp ha1
    exact hvalid n hn)
  rw [List.length_map, hperm.length_eq, List.length_cons] at hbound
  have hble : b.head.length ≤ (all_nodes m.buckets_).length := by
    rw [hp1.length_eq, List.length_append]; omega
  have hsz_b : fetch_add_one b.size = b.head.length + 1 := by
    rw [h.count b hb_mem]
    exact fetch_add_one_eq _ (by omega)
  have hsz : fetch_add_one m.size_ = m.size_ + 1 := by
    apply fetch_add_one_eq
    rw [h.total]; exact hbound
  refine ⟨hsz_b, hsz, hperm, ?_⟩
  constructor
  · simp [h.length]
  · intro b1 hb1m
    rcases List.mem_or_eq_of_mem_set hb1m with h1 | h1
    · exact h.count b1 h1
    · rw [h1]; simpa using hsz_b
  · intro b1 hb1m
    rcases List.mem_or_eq_of_mem_set hb1m with h1 | h1
    · exact h.keys b1 h1
    · rw [h1]
      simp only [List.map_cons]
      refine List.nodup_cons.mpr ⟨?_, h.keys b hb_mem⟩
      rw [← chain_contains_iff_mem]
      simp [hc]
  · intro i n hn
    simp only [bucket_at] at hn
    rw [getD_set _ _ _ _ _ hidx] at hn
    by_cases hi : i = bucket_idx hasher_ key
    · rw [if_pos hi] at hn
      rcases List.mem_cons.mp hn with hn1 | hn1
      · rw [hn1, hi]
      · rw [hi]; exact h.placed _ n (hb ▸ hn1)
    · rw [if_neg hi] at hn
      exact h.placed i n hn
  · show fetch_add_one m.size_ = _
    rw [hsz, hperm.length_eq, h.total]; rfl
  · exact haddrs
  · exact hvalid

theorem erase_of_none (hasher_ : K → Nat) (key : K) (m : concurrent_map K V)
    (hc : chain_erase key (m.bucket_at (bucket_idx hasher_ key)).head = none) :
    erase hasher_ key m = (false, m) := by
  simp [erase, hc]

theorem erase_of_some (hasher_ : K → Nat) (key : K) (m : concurrent_map K V)
    (chain : List (Node K V))
    (hc : chain_erase key (m.bucket_at (bucket_idx hasher_ key)).head = some chain) :
    erase hasher_ key m =
      (true,
        { buckets_ := m.buckets_.set (bucket_idx hasher_ key)
            { head := chain, size := fetch_sub_one (m.bucket_at (bucket_idx hasher_ key)).size },
          size_ := fetch_sub_one m.size_ }) := by
  simp [erase, hc]

/-- A successful `erase` from a well-formed state: neither counter wraps, the nodes of the map
are the old ones without the unlinked one, and the state stays well formed. -/
theorem erase_found_wf (hasher_ : K → Nat) (key : K) (m : concurrent_map K V)
    (h : WF hasher_ m) (pre post : List (Node K V)) (n : Node K V)
    (hhead : (m.bucket_at (bucket_idx hasher_ key)).head = pre ++ n :: post)
    (hc : chain_erase key (m.bucket_at (bucket_idx hasher_ key)).head = some (pre ++ post)) :
    fetch_sub_one (m.bucket_at (bucket_idx hasher_ key)).size + 1 =
      (m.bucket_at (bucket_idx hasher_ key)).size ∧
    fetch_sub_one m.size_ + 1 = m.size_ ∧
    (all_nodes m.buckets_).Perm (n :: all_nodes (erase hasher_ key m).2.buckets_) ∧
    WF hasher_ (erase hasher_ key m).2 := by
  have hidx := h.idx_lt key
  have hb_mem : m.bucket_at (bucket_idx hasher_ key) ∈ m.buckets_ := getD_mem _ _ _ hidx
  obtain ⟨rest, hp1, hp2⟩ := all_nodes_set m.buckets_ (bucket_idx hasher_ key)
    { head := pre ++ post, size := fetch_sub_one (m.bucket_at (bucket_idx hasher_ key)).size } hidx
  rw [erase_of_some hasher_ key m _ hc]
  simp only
  generalize hb : m.bucket_at (bucket_idx hasher_ key) = b at *
  have hb1 : m.buckets_.getD (bucket_idx hasher_ key) Bucket.init = b := hb
  rw [hb1, hhead] at hp1
  have hperm : (all_nodes m.buckets_).Perm (n :: all_nodes (m.buckets_.set
      (bucket_idx hasher_ key) { head := pre ++ post, size := fetch_sub_one b.size })) := by
    refine hp1.trans ?_
    have h1 : (pre ++ n :: post ++ rest).Perm (n :: (pre ++ post ++ rest)) := by
      rw [List.append_assoc, List.cons_append, List.append_assoc]
      exact List.perm_middle
    exact h1.trans (List.Perm.cons _ hp2.symm)
  have hbound := h.nodes_bound
  have hlen := hperm.length_eq
  rw [List.length_cons] at hlen
  have hble : b.head.length ≤ (all_nodes m.buckets_).length := by
    rw [hp1.length_eq, hhead]
    simp only [List.length_append, List.length_cons]; omega
  have hblen : b.head.length = (pre ++ post).length + 1 := by
    rw [hhead]; simp; omega
  have hsz_b : fetch_sub_one b.size = (pre ++ post).length := by
    rw [h.count b hb_mem, hblen]
    exact fetch_sub_one_succ _ (by omega)
  have hsz : fetch_sub_one m.size_ =
      (all_nodes (m.buckets_.set (bucket_idx hasher_ key)
        { head := pre ++ post, size := fetch_sub_one b.size })).length := by
    rw [h.total, hlen]
    exact fetch_sub_one_succ _ (by omega)
  have haddrs := (hperm.map Node.addr).nodup_iff.mp h.addrs
  refine ⟨?_, ?_, hperm, ?_⟩
  · rw [hsz_b, h.count b hb_mem, hblen]
  · rw [hsz, h.total, hlen]
  constructor
  · simp [h.length]
  · intro b1 hb1m
    rcases List.mem_or_eq_of_mem_set hb1m with h1 | h1
    · exact h.count b1 h1
    · rw [h1]; exact hsz_b
  · intro b1 hb1m
    rcases List.mem_or_eq_of_mem_set hb1m with h1 | h1
    · exact h.keys b1 h1
    · rw [h1]
      have hk := h.keys b hb_mem
      rw [hhead] at hk
      refine List.Nodup.sublist ?_ hk
      apply List.Sublist.map
      exact List.Sublist.append (List.Sublist.refl pre) (List.sublist_cons_self n post)
  · intro i n1 hn
    simp only [bucket_at] at hn
    rw [getD_set _ _ _ _ _ hidx] at hn
    by_cases hi : i = bucket_idx hasher_ key
    · rw [if_pos hi] at hn
      rw [hi]
      apply h.placed _ n1
      rw [hb, hhead]
      rcases List.mem_append.mp hn with h1 | h1
      · exact List.mem_append_left _ h1
      · exact List.mem_append_right _ (List.mem_cons_of_mem _ h1)
    · rw [if_neg hi] at hn
      exact h.placed i n1 hn
  · exact hsz
  · exact (List.nodup_cons.mp haddrs).2
  · intro n1 hn1
    exact h.valid n1 (hperm.mem_iff.mpr (List.mem_cons_of_mem _ hn1))

/-- Every reachable map state is well formed. -/
theorem map_reachable_wf (hasher_ : K → Nat) (m : concurrent_map K V)
    (h : Reachable hasher_ m) : WF hasher_ m := by
  induction h with
  | new => exact map_new_wf hasher_
  | insert m p key value _ ha ih =>
    cases hc : chain_contains key (m.bucket_at (bucket_idx hasher_ key)).head with
    | true => rw [insert_of_contains hasher_ p key value m hc]; exact ih
    | false => exact (insert_fresh_wf hasher_ p key value m ih ha hc).2.2.2
  | erase m key _ ih =>
    cases hc : chain_erase key (m.bucket_at (bucket_idx hasher_ key)).head with
    | none => rw [erase_of_none hasher_ key m hc]; exact ih
    | some chain =>
      obtain ⟨pre, n, post, h1, h2, _, _⟩ := chain_erase_eq_some key _ _ hc
      exact (erase_found_wf hasher_ key m ih pre post n h1 (h2 ▸ hc)).2.2.2
  | clear m _ ih => exact map_clear_wf hasher_ m ih

theorem find_insert_bucket (hasher_ : K → Nat) (key : K) (m : concurrent_map K V)
    (b : Bucket K V) (size1 : Nat) (hidx : bucket_idx hasher_ key < m.buckets_.length) :
    find hasher_ key
      { buckets_ := m.buckets_.set (bucket_idx hasher_ key) b, size_ := size1 } =
      chain_find key b.head := by
  simp only [find, bucket_at]
  rw [getD_set _ _ _ _ _ hidx, if_pos rfl]

/-- C5 (map insert-if-absent result).  In every map state (reachable or not), for every key
and value, `insert(key, value)` returns `true` exactly when `find(key)` is absent immediately
before the call. -/
theorem map_insert_result (hasher_ : K → Nat) (m : concurrent_map K V) (new_node : Nat)
    (key : K) (value : V) :
    (insert hasher_ new_node key value m).1 = true ↔ find hasher_ key m = none := by
  cases hc : chain_contains key (m.bucket_at (bucket_idx hasher_ key)).head with
  | true =>
    rw [insert_of_contains hasher_ new_node key value m hc]
    have : ¬ find hasher_ key m = none := by
      intro hf
      have := (chain_contains_eq_false_iff key _).mpr hf
      rw [hc] at this
      cases this
    simp [this]
  | false =>
    rw [insert_of_not_contains hasher_ new_node key value m hc]
    have : find hasher_ key m = none := (chain_contains_eq_false_iff key _).mp hc
    simp [this]

/-- C6 (map insert then find).  In every reachable map state in which `key` is absent, after
`insert(key, value)` the call `find(key)` returns `value`. -/
theorem map_insert_then_find (hasher_ : K → Nat) (m : concurrent_map K V)
    (hm : Reachable hasher_ m) (new_node : Nat) (key : K) (value : V)
    (habs : find hasher_ key m = none) :
    find hasher_ key (insert hasher_ new_node key value m).2 = some value := by
  have hwf := map_reachable_wf hasher_ m hm
  have hc := (chain_contains_eq_false_iff key _).mpr habs
  rw [insert_of_not_contains hasher_ new_node key value m hc]
  simp only
  rw [find_insert_bucket hasher_ key m _ _ (hwf.idx_lt key)]
  simp [chain_find]

/-- Witness for C6, on the scenario of the test `ConcurrentMapTest.BasicOperations`:
`insert(1, "one")` on a new map, then `find(1)` yields `"one"`. -/
theorem map_insert_then_find_witness :
    Reachable (fun k : Nat => k) (new : concurrent_map Nat String) ∧
    find (fun k : Nat => k) 1 (new : concurrent_map Nat String) = none ∧
    find (fun k : Nat => k) 1 (insert (fun k : Nat => k) 100 1 "one" new).2 = some "one" :=
  ⟨Reachable.new, by decide,
    map_insert_then_find (fun k : Nat => k) new Reachable.new 100 1 "one" (by decide)⟩

/-- C7 (map duplicate insert is a no-op).  If `key` is present with value `v`, then
`insert(key, v2)` returns `false` and leaves the whole map state unchanged (bucket chains,
bucket counts, global count); `find(key)` still returns `v` and `size()` is the same. -/
theorem map_duplicate_insert_noop (hasher_ : K → Nat) (m : concurrent_map K V)
    (new_node : Nat) (key : K) (v v2 : V) (hpres : find hasher_ key m = some v) :
    insert hasher_ new_node key v2 m = (false, m) ∧
    find hasher_ key (insert hasher_ new_node key v2 m).2 = some v ∧
    (insert hasher_ new_node key v2 m).2.size = m.size := by
  have hc : chain_contains key (m.bucket_at (bucket_idx hasher_ key)).head = true := by
    cases hc : chain_contains key (m.bucket_at (bucket_idx hasher_ key)).head with
    | true => rfl
    | false =>
      have := (chain_contains_eq_false_iff key _).mp hc
      simp only [find] at hpres
      rw [this] at hpres
      cases hpres
  rw [insert_of_contains hasher_ new_node key v2 m hc]
  exact ⟨rfl, hpres, rfl⟩

/-- Witness for C7: a second insert for key 1 into the map holding `1 ↦ "one"`. -/
theorem map_duplicate_insert_noop_witness :
    find (fun k : Nat => k) 1
      (insert (fun k : Nat => k) 100 1 "one" (new : concurrent_map Nat String)).2 = some "one" ∧
    insert (fun k : Nat => k) 101 1 "uno"
        (insert (fun k : Nat => k) 100 1 "one" (new : concurrent_map Nat String)).2 =
      (false, (insert (fun k : Nat => k) 100 1 "one" (new : concurrent_map Nat String)).2) ∧
    find (fun k : Nat => k) 1 (insert (fun k : Nat => k) 101 1 "uno"
        (insert (fun k : Nat => k) 100 1 "one" (new : concurrent_map Nat String)).2).2 =
      some "one" ∧
    (insert (fun k : Nat => k) 101 1 "uno"
        (insert (fun k : Nat => k) 100 1 "one" (new : concurrent_map Nat String)).2).2.size =
      (insert (fun k : Nat => k) 100 1 "one" (new : concurrent_map Nat String)).2.size :=
  ⟨by decide,
    map_duplicate_insert_noop (fun k : Nat => k)
      (insert (fun k : Nat => k) 100 1 "one" (new : concurrent_map Nat String)).2 101 1
      "one" "uno" (by decide)⟩

/-- C8 (map erase then find).  In every reachable map state, for every key, after
`erase(key)` the call `find(key)` returns absent, whether or not the key was present. -/
theorem map_erase_then_find (hasher_ : K → Nat) (m : concurrent_map K V)
    (hm : Reachable hasher_ m) (key : K) :
    find hasher_ key (erase hasher_ key m).2 = none := by
  have hwf := map_reachable_wf hasher_ m hm
  cases hc : chain_erase key (m.bucket_at (bucket_idx hasher_ key)).head with
  | none =>
    rw [erase_of_none hasher_ key m hc]
    exact (chain_erase_eq_none_iff key _).mp hc
  | some chain =>
    obtain ⟨pre, n, post, h1, h2, h3, h4⟩ := chain_erase_eq_some key _ _ hc
    rw [erase_of_some hasher_ key m chain hc]
    simp only
    rw [find_insert_bucket hasher_ key m _ _ (hwf.idx_lt key)]
    simp only
    rw [chain_find_eq_none_iff, h2]
    have hk := hwf.keys _ (getD_mem _ _ Bucket.init (hwf.idx_lt key))
    have hb : m.buckets_.getD (bucket_idx hasher_ key) Bucket.init =
        m.bucket_at (bucket_idx hasher_ key) := rfl
    rw [hb, h1, List.map_append, List.map_cons, h3] at hk
    have hk2 := List.nodup_middle.mp hk
    rw [List.map_append]
    exact (List.nodup_cons.mp hk2).1

/-- Witness for C8: erasing key 1 from the map holding `1 ↦ "one"` and `33 ↦ "x"`, which
share bucket 1. -/
theorem map_erase_then_find_witness :
    Reachable (fun k : Nat => k)
      (insert (fun k : Nat => k) 101 33 "x"
        (insert (fun k : Nat => k) 100 1 "one" (new : concurrent_map Nat String)).2).2 ∧
    find (fun k : Nat => k) 1 (erase (fun k : Nat => k) 1
      (insert (fun k : Nat => k) 101 33 "x"
        (insert (fun k : Nat => k) 100 1 "one" (new : concurrent_map Nat String)).2).2).2 =
      none :=
  ⟨Reachable.insert _ 101 33 "x" (Reachable.insert _ 100 1 "one" Reachable.new (by decide))
      (by decide),
    map_erase_then_find (fun k : Nat => k) _
      (Reachable.insert _ 101 33 "x" (Reachable.insert _ 100 1 "one" Reachable.new (by decide))
        (by decide)) 1⟩

/-- C9 (map erase result).  In every reachable map state, `erase(key)` returns `true` exactly
when `key` is present before the call.  When it returns `false` the whole map state is
unchanged.  When it returns `true` exactly one node, the first one of the bucket chain with
that key (the only one), is unlinked: the bucket chain loses that node and keeps the others in
order, the bucket counter and the global counter go down by one, every other bucket is
unchanged, and the nodes of the map are the old ones without that node. -/
theorem map_erase_result (hasher_ : K → Nat) (m : concurrent_map K V)
    (hm : Reachable hasher_ m) (key : K) :
    ((erase hasher_ key m).1 = true ↔ find hasher_ key m ≠ none) ∧
    ((erase hasher_ key m).1 = false → (erase hasher_ key m).2 = m) ∧
    ((erase hasher_ key m).1 = true →
      ∃ pre n post,
        (m.bucket_at (bucket_idx hasher_ key)).head = pre ++ n :: post ∧
        n.data.1 = key ∧ find hasher_ key m = some n.data.2 ∧
        (∀ n1 ∈ pre ++ post, n1.data.1 ≠ key) ∧
        (erase hasher_ key m).2.buckets_ = m.buckets_.set (bucket_idx hasher_ key)
          { head := pre ++ post,
            size := (m.bucket_at (bucket_idx hasher_ key)).size - 1 } ∧
        0 < (m.bucket_at (bucket_idx hasher_ key)).size ∧
        (erase hasher_ key m).2.size + 1 = m.size ∧
        (all_nodes m.buckets_).Perm (n :: all_nodes (erase hasher_ key m).2.buckets_)) := by
  have hwf := map_reachable_wf hasher_ m hm
  cases hc : chain_erase key (m.bucket_at (bucket_idx hasher_ key)).head with
  | none =>
    have hf := (chain_erase_eq_none_iff key _).mp hc
    rw [erase_of_none hasher_ key m hc]
    refine ⟨?_, fun _ => rfl, ?_⟩
    · simp only [find]; simp [hf]
    · intro h; cases h
  | some chain =>
    obtain ⟨pre, n, post, h1, h2, h3, h4⟩ := chain_erase_eq_some key _ _ hc
    subst h2
    obtain ⟨hs1, hs2, hperm, _⟩ := erase_found_wf hasher_ key m hwf pre post n h1 hc
    have hfind : find hasher_ key m = some n.data.2 := by
      simp only [find]
      rw [h1, chain_find_append_of_not_mem key pre _ h4]
      simp [chain_find, h3]
    have hk := hwf.keys _ (getD_mem _ _ Bucket.init (hwf.idx_lt key))
    have hb : m.buckets_.getD (bucket_idx hasher_ key) Bucket.init =
        m.bucket_at (bucket_idx hasher_ key) := rfl
    rw [hb, h1, List.map_append, List.map_cons, h3] at hk
    have hk2 := (List.nodup_cons.mp (List.nodup_middle.mp hk)).1
    have he := erase_of_some hasher_ key m _ hc
    have hpos : 0 < (m.bucket_at (bucket_idx hasher_ key)).size := by
      omega
    have hsub : fetch_sub_one (m.bucket_at (bucket_idx hasher_ key)).size =
        (m.bucket_at (bucket_idx hasher_ key)).size - 1 := by
      omega
    have hbk : (erase hasher_ key m).2.buckets_ = m.buckets_.set (bucket_idx hasher_ key)
        { head := pre ++ post,
          size := (m.bucket_at (bucket_idx hasher_ key)).size - 1 } := by
      rw [he, ← hsub]
    have hsize : (erase hasher_ key m).2.size + 1 = m.size := by
      simp only [he, size]
      rw [hs2]
    have hret : (erase hasher_ key m).1 = true := by rw [he]
    refine ⟨?_, ?_, ?_⟩
    · rw [hret, hfind]; simp
    · intro h; rw [hret] at h; cases h
    · intro _
      refine ⟨pre, n, post, h1, h3, hfind, ?_, hbk, hpos, hsize, hperm⟩
      intro n1 hn1 hkey
      apply hk2
      rw [← List.map_append, ← hkey]
      exact List.mem_map_of_mem _ hn1

/-- Witness for C9: erasing key 1 from the map holding `33 ↦ "x"` and `1 ↦ "one"`. -/
theorem map_erase_result_witness :
    Reachable (fun k : Nat => k)
      (insert (fun k : Nat => k) 101 33 "x"
        (insert (fun k : Nat => k) 100 1 "one" (new : concurrent_map Nat String)).2).2 ∧
    (erase (fun k : Nat => k) 1
      (insert (fun k : Nat => k) 101 33 "x"
        (insert (fun k : Nat => k) 100 1 "one" (new : concurrent_map Nat String)).2).2).1 =
      true ∧
    ((erase (fun k : Nat => k) 1
      (insert (fun k : Nat => k) 101 33 "x"
        (insert (fun k : Nat => k) 100 1 "one" (new : concurrent_map Nat String)).2).2).1 = true ↔
      find (fun k : Nat => k) 1
        (insert (fun k : Nat => k) 101 33 "x"
          (insert (fun k : Nat => k) 100 1 "one" (new : concurrent_map Nat String)).2).2 ≠
        none) :=
  ⟨Reachable.insert _ 101 33 "x" (Reachable.insert _ 100 1 "one" Reachable.new (by decide))
      (by decide),
    by decide,
    (map_erase_result (fun k : Nat => k) _
      (Reachable.insert _ 101 33 "x" (Reachable.insert _ 100 1 "one" Reachable.new (by decide))
        (by decide)) 1).1⟩

/-- In a well-formed state the stored keys are exactly the keys that `find` finds. -/
theorem WF.find_iff_stored {hasher_ : K → Nat} {m : concurrent_map K V} (h : WF hasher_ m)
    (key : K) :
    find hasher_ key m ≠ none ↔ key ∈ (all_nodes m.buckets_).map (fun n => n.data.1) := by
  simp only [find, ne_eq, chain_find_eq_none_iff, not_not, List.mem_map]
  constructor
  · rintro ⟨n, hn, hkey⟩
    exact ⟨n, (mem_all_nodes n _).mpr ⟨_, h.idx_lt key, hn⟩, hkey⟩
  · rintro ⟨n, hn, hkey⟩
    obtain ⟨i, _, hi⟩ := (mem_all_nodes n _).mp hn
    have := h.placed i n hi
    rw [hkey] at this
    exact ⟨n, this ▸ hi, hkey⟩

/-- C10 (map counters).  In every state reachable by `insert`, `erase` and `clear` calls
executed one at a time, each bucket's counter is the length of that bucket's chain and the
global counter is the sum of the bucket counters; the stored keys are pairwise distinct and
are exactly the keys `find` finds, so `size()` is the number of stored keys and `empty()`
holds exactly when there are none.  A successful `insert` adds one to `size()`, a successful
`erase` subtracts one, and a failed `insert` or `erase` changes nothing (`find` has no effect
on the state at all: it only returns a value). -/
theorem map_counters (hasher_ : K → Nat) (m : concurrent_map K V)
    (hm : Reachable hasher_ m) :
    (∀ bucket ∈ m.buckets_, bucket.size = bucket.head.length) ∧
    m.size_ = (m.buckets_.map Bucket.size).sum ∧
    ((all_nodes m.buckets_).map (fun n => n.data.1)).Nodup ∧
    (∀ key, find hasher_ key m ≠ none ↔ key ∈ (all_nodes m.buckets_).map (fun n => n.data.1)) ∧
    m.size = ((all_nodes m.buckets_).map (fun n => n.data.1)).length ∧
    (m.empty = true ↔ (all_nodes m.buckets_).map (fun n => n.data.1) = []) ∧
    (∀ new_node key value, allocatable m new_node →
      (insert hasher_ new_node key value m).1 = true →
      (insert hasher_ new_node key value m).2.size = m.size + 1) ∧
    (∀ new_node key value, (insert hasher_ new_node key value m).1 = false →
      (insert hasher_ new_node key value m).2 = m) ∧
    (∀ key, (erase hasher_ key m).1 = true → (erase hasher_ key m).2.size + 1 = m.size) ∧
    (∀ key, (erase hasher_ key m).1 = false → (erase hasher_ key m).2 = m) := by
  have hwf := map_reachable_wf hasher_ m hm
  have hsize : m.size = ((all_nodes m.buckets_).map (fun n => n.data.1)).length := by
    rw [List.length_map]; exact hwf.total
  refine ⟨hwf.count, ?_, ?_, fun key => hwf.find_iff_stored key, hsize, ?_, ?_, ?_, ?_, ?_⟩
  · rw [sum_sizes_eq _ hwf.count]; exact hwf.total
  · exact keys_nodup_of_placed (bucket_idx hasher_) m.buckets_ 0
      (fun i n hn => by rw [hwf.placed i n hn]; omega) hwf.keys
  · simp only [empty, beq_iff_eq, hsize]
    exact List.length_eq_zero
  · intro p key value ha hret
    cases hc : chain_contains key (m.bucket_at (bucket_idx hasher_ key)).head with
    | true =>
      rw [insert_of_contains hasher_ p key value m hc] at hret
      cases hret
    | false =>
      obtain ⟨_, hs, _, _⟩ := insert_fresh_wf hasher_ p key value m hwf ha hc
      simp only [insert_of_not_contains hasher_ p key value m hc, size]
      rw [hs]
  · intro p key value hret
    cases hc : chain_contains key (m.bucket_at (bucket_idx hasher_ key)).head with
    | true => rw [insert_of_contains hasher_ p key value m hc]
    | false =>
      rw [insert_of_not_contains hasher_ p key value m hc] at hret
      cases hret
  · intro key hret
    cases hc : chain_erase key (m.bucket_at (bucket_idx hasher_ key)).head with
    | none =>
      rw [erase_of_none hasher_ key m hc] at hret
      cases hret
    | some chain =>
      obtain ⟨pre, n, post, h1, h2, _, _⟩ := chain_erase_eq_some key _ _ hc
      subst h2
      obtain ⟨_, hs, _, _⟩ := erase_found_wf hasher_ key m hwf pre post n h1 hc
      simp only [erase_of_some hasher_ key m _ hc, size]
      rw [hs]
  · intro key hret
    cases hc : chain_erase key (m.bucket_at (bucket_idx hasher_ key)).head with
    | none => rw [erase_of_none hasher_ key m hc]
    | some chain =>
      rw [erase_of_some hasher_ key m _ hc] at hret
      cases hret

/-- Witness for C10, on the scenario of the test `ConcurrentMapTest.BasicOperations`: after
`insert(1, "one")` the size is 1 and the map is not empty; after `erase(1)` it is empty. -/
theorem map_counters_witness :
    Reachable (fun k : Nat => k)
      (insert (fun k : Nat => k) 100 1 "one" (new : concurrent_map Nat String)).2 ∧
    ((insert (fun k : Nat => k) 100 1 "one" (new : concurrent_map Nat String)).2.size = 1 ∧
     (insert (fun k : Nat => k) 100 1 "one" (new : concurrent_map Nat String)).2.empty = false ∧
     (erase (fun k : Nat => k) 1
       (insert (fun k : Nat => k) 100 1 "one" (new : concurrent_map Nat String)).2).2.empty =
       true) ∧
    (insert (fun k : Nat => k) 100 1 "one" (new : concurrent_map Nat String)).2.size =
      ((all_nodes (insert (fun k : Nat => k) 100 1 "one"
        (new : concurrent_map Nat String)).2.buckets_).map (fun n => n.data.1)).length :=
  ⟨Reachable.insert _ 100 1 "one" Reachable.new (by decide),
    ⟨by decide, by decide, by decide⟩,
    (map_counters (fun k : Nat => k) _
      (Reachable.insert _ 100 1 "one" Reachable.new (by decide))).2.2.2.2.1⟩

/-- `insert` leaves every bucket but the one of its key as it is. -/
theorem insert_bucket_other (hasher_ : K → Nat) (p : Nat) (key : K) (value : V)
    (m : concurrent_map K V) (i : Nat) (hi : i ≠ bucket_idx hasher_ key) :
    (insert hasher_ p key value m).2.bucket_at i = m.bucket_at i := by
  cases hc : chain_contains key (m.bucket_at (bucket_idx hasher_ key)).head with
  | true => rw [insert_of_contains hasher_ p key value m hc]
  | false =>
    rw [insert_of_not_contains hasher_ p key value m hc]
    exact getD_set_other _ _ _ _ _ hi

/-- `erase` leaves every bucket but the one of its key as it is. -/
theorem erase_bucket_other (hasher_ : K → Nat) (key : K) (m : concurrent_map K V) (i : Nat)
    (hi : i ≠ bucket_idx hasher_ key) :
    (erase hasher_ key m).2.bucket_at i = m.bucket_at i := by
  cases hc : chain_erase key (m.bucket_at (bucket_idx hasher_ key)).head with
  | none => rw [erase_of_none hasher_ key m hc]
  | some chain =>
    rw [erase_of_some hasher_ key m chain hc]
    exact getD_set_other _ _ _ _ _ hi

/-- `insert(key, _)` does not change what `find` returns for another key. -/
theorem find_insert_other (hasher_ : K → Nat) (p : Nat) (key key2 : K) (value : V)
    (m : concurrent_map K V) (hne : key2 ≠ key) :
    find hasher_ key2 (insert hasher_ p key value m).2 = find hasher_ key2 m := by
  by_cases hi : bucket_idx hasher_ key2 = bucket_idx hasher_ key
  · cases hc : chain_contains key (m.bucket_at (bucket_idx hasher_ key)).head with
    | true => rw [insert_of_contains hasher_ p key value m hc]
    | false =>
      rw [insert_of_not_contains hasher_ p key value m hc]
      by_cases hlen : bucket_idx hasher_ key < m.buckets_.length
      · simp only [find, bucket_at]
        rw [hi, getD_set _ _ _ _ _ hlen, if_pos rfl]
        have hk : ¬ key = key2 := fun h => hne h.symm
        simp only [chain_find, hk, if_false]
      · simp only [find, bucket_at]
        rw [List.set_eq_of_length_le (by omega)]
  · simp only [find]
    rw [insert_bucket_other hasher_ p key value m _ hi]

/-- After a successful `insert` into a well-formed map `find` returns the inserted value. -/
theorem find_insert_self (hasher_ : K → Nat) (p : Nat) (key : K) (value : V)
    (m : concurrent_map K V) (hwf : WF hasher_ m)
    (hc : chain_contains key (m.bucket_at (bucket_idx hasher_ key)).head = false) :
    find hasher_ key (insert hasher_ p key value m).2 = some value := by
  rw [insert_of_not_contains hasher_ p key value m hc]
  simp only
  rw [find_insert_bucket hasher_ key m _ _ (hwf.idx_lt key)]
  simp [chain_find]

theorem insert_all_cons (hasher_ : K → Nat) (p : Nat) (key : K) (value : V)
    (es : List (Nat × K × V)) (m : concurrent_map K V) :
    insert_all hasher_ ((p, key, value) :: es) m =
      ((insert hasher_ p key value m).1 ::
          (insert_all hasher_ es (insert hasher_ p key value m).2).1,
        (insert_all hasher_ es (insert hasher_ p key value m).2).2) := rfl

/-- Inserting entries with pairwise distinct keys, none of them stored yet, into a
well-formed map: every call returns `true`, the size grows by the number of entries, every
entry is found afterwards, and what was found before is still found. -/
theorem insert_all_fresh (hasher_ : K → Nat) :
    ∀ (es : List (Nat × K × V)) (m : concurrent_map K V), WF hasher_ m →
      (es.map (fun e => e.2.1)).Nodup → (∀ e ∈ es, find hasher_ e.2.1 m = none) →
      (es.map (fun e => e.1)).Nodup →
      (∀ e ∈ es, valid_addr e.1 ∧ e.1 ∉ (all_nodes m.buckets_).map Node.addr) →
      (insert_all hasher_ es m).1 = List.replicate es.length true ∧
      (insert_all hasher_ es m).2.size_ = m.size_ + es.length ∧
      (∀ e ∈ es, find hasher_ e.2.1 (insert_all hasher_ es m).2 = some e.2.2) ∧
      (∀ k v, find hasher_ k m = some v →
        find hasher_ k (insert_all hasher_ es m).2 = some v)
  | [], m, _, _, _, _, _ => by
    refine ⟨rfl, rfl, ?_, fun k v h => h⟩
    intro e he; cases he
  | (p, key, value) :: es, m, hwf, hkeys, habs, haddrs, hvalid => by
    have hfind : find hasher_ key m = none := habs (p, key, value) (by simp)
    have hc := (chain_contains_eq_false_iff key _).mpr hfind
    have hp := hvalid (p, key, value) (by simp)
    obtain ⟨_, hsz, hperm, hwf1⟩ := insert_fresh_wf hasher_ p key value m hwf ⟨hp.1, hp.2⟩ hc
    have hsz1 : (insert hasher_ p key value m).2.size_ = m.size_ + 1 := by
      simp only [insert_of_not_contains hasher_ p key value m hc]
      rw [hsz]
    have hret : (insert hasher_ p key value m).1 = true := by
      rw [insert_of_not_contains hasher_ p key value m hc]
    simp only [List.map_cons, List.nodup_cons] at hkeys haddrs
    have habs1 : ∀ e ∈ es, find hasher_ e.2.1 (insert hasher_ p key value m).2 = none := by
      intro e he
      have hne : e.2.1 ≠ key := by
        intro h
        exact hkeys.1 (h ▸ List.mem_map_of_mem (fun e => e.2.1) he)
      rw [find_insert_other hasher_ p key e.2.1 value m hne]
      exact habs e (List.mem_cons_of_mem _ he)
    have hvalid1 : ∀ e ∈ es, valid_addr e.1 ∧
        e.1 ∉ (all_nodes (insert hasher_ p key value m).2.buckets_).map Node.addr := by
      intro e he
      have h1 := hvalid e (List.mem_cons_of_mem _ he)
      refine ⟨h1.1, ?_⟩
      intro hmem
      have hmem1 := (hperm.map Node.addr).mem_iff.mp hmem
      simp only [List.map_cons, List.mem_cons] at hmem1
      rcases hmem1 with h2 | h2
      · exact haddrs.1 (h2 ▸ List.mem_map_of_mem (fun e => e.1) he)
      · exact h1.2 h2
    obtain ⟨ih1, ih2, ih3, ih4⟩ :=
      insert_all_fresh hasher_ es _ hwf1 hkeys.2 habs1 haddrs.2 hvalid1
    rw [insert_all_cons]
    refine ⟨?_, ?_, ?_, ?_⟩
    · simp only [ih1, hret, List.length_cons, List.replicate_succ]
    · simp only [ih2, hsz1, List.length_cons]; omega
    · intro e he
      rcases List.mem_cons.mp he with h | h
      · subst h
        exact ih4 key value (find_insert_self hasher_ p key value m hwf hc)
      · exact ih3 e h
    · intro k v hk
      have hne : k ≠ key := by
        intro h
        rw [h, hfind] at hk
        cases hk
      apply ih4
      rw [find_insert_other hasher_ p key k value m hne]
      exact hk

/-- C11 (map disjoint bulk insert).  For every list of entries with pairwise distinct keys
(each with the address the allocator returns for its node, the addresses being valid and
pairwise distinct) and every order in which the inserts are applied to a new map, every
`insert` returns `true`, `size()` ends as the number of entries, and afterwards `find`
returns for each inserted key the value inserted for it. -/
theorem map_disjoint_bulk_insert (hasher_ : K → Nat) (entries order : List (Nat × K × V))
    (hkeys : (entries.map (fun e => e.2.1)).Nodup)
    (haddrs : (entries.map (fun e => e.1)).Nodup)
    (hvalid : ∀ e ∈ entries, valid_addr e.1)
    (horder : order.Perm entries) :
    (insert_all hasher_ order new).1 = List.replicate entries.length true ∧
    (insert_all hasher_ order new).2.size = entries.length ∧
    ∀ e ∈ entries, find hasher_ e.2.1 (insert_all hasher_ order new).2 = some e.2.2 := by
  have hk : (order.map (fun e => e.2.1)).Nodup :=
    ((horder.map (fun e => e.2.1)).nodup_iff).mpr hkeys
  have ha : (order.map (fun e => e.1)).Nodup :=
    ((horder.map (fun e => e.1)).nodup_iff).mpr haddrs
  have hnew : ∀ k, find hasher_ k (new : concurrent_map K V) = none := by
    intro k
    simp only [find, bucket_at_new, Bucket.init, chain_find]
  have hv : ∀ e ∈ order, valid_addr e.1 ∧
      e.1 ∉ (all_nodes (new : concurrent_map K V).buckets_).map Node.addr := by
    intro e he
    refine ⟨hvalid e (horder.mem_iff.mp he), ?_⟩
    simp [new, Bucket.init, all_nodes_replicate_init]
  obtain ⟨h1, h2, h3, _⟩ := insert_all_fresh hasher_ order new (map_new_wf hasher_) hk
    (fun e _ => hnew e.2.1) ha hv
  refine ⟨?_, ?_, ?_⟩
  · rw [h1, horder.length_eq]
  · show (insert_all hasher_ order new).2.size_ = entries.length
    rw [h2, horder.length_eq]
    show 0 + entries.length = entries.length
    omega
  · intro e he
    exact h3 e (horder.mem_iff.mpr he)

/-- Witness for C11, on the entries of the test `ConcurrentMapTest.ConcurrentOperations`
(4 threads, keys `i * 1000 + j`, value `2 * key`), inserted in descending key order: the size
is 4000. -/
theorem map_disjoint_bulk_insert_witness :
    ((test_entries.map (fun e => e.2.1)).Nodup ∧
     (test_entries.map (fun e => e.1)).Nodup ∧
     (∀ e ∈ test_entries, valid_addr e.1) ∧
     test_entries.reverse.Perm test_entries ∧
     test_entries.length = 4000) ∧
    ((insert_all (fun k : Nat => k) test_entries.reverse new).1 =
       List.replicate test_entries.length true ∧
     (insert_all (fun k : Nat => k) test_entries.reverse new).2.size = test_entries.length ∧
     ∀ e ∈ test_entries,
       find (fun k : Nat => k) e.2.1 (insert_all (fun k : Nat => k) test_entries.reverse new).2 =
         some e.2.2) := by
  have hk : (test_entries.map (fun e => e.2.1)).Nodup := by
    unfold test_entries
    rw [List.map_map]
    exact List.Nodup.map (fun a b h => h) (List.nodup_range 4000)
  have ha : (test_entries.map (fun e => e.1)).Nodup := by
    unfold test_entries
    rw [List.map_map]
    exact List.Nodup.map (fun a b h => Nat.succ.inj h) (List.nodup_range 4000)
  have hv : ∀ e ∈ test_entries, valid_addr e.1 := by
    intro e he
    unfold test_entries at he
    obtain ⟨key, hkey, rfl⟩ := List.mem_map.mp he
    have hlt : key < 4000 := List.mem_range.mp hkey
    have hmod : (4001 : Nat) ≤ SIZE_MOD := by decide
    exact ⟨Nat.succ_ne_zero key, by show key + 1 < SIZE_MOD; omega⟩
  have hlen : test_entries.length = 4000 := by
    unfold test_entries
    rw [List.length_map, List.length_range]
  exact ⟨⟨hk, ha, hv, List.reverse_perm _, hlen⟩,
    map_disjoint_bulk_insert (fun k : Nat => k) test_entries test_entries.reverse hk ha hv
      (List.reverse_perm _)⟩

theorem WF.bucket_keys_nodup {hasher_ : K → Nat} {m : concurrent_map K V}
    (h : WF hasher_ m) (i : Nat) : ((m.bucket_at i).head.map (fun n => n.data.1)).Nodup := by
  by_cases hi : i < m.buckets_.length
  · exact h.keys _ (getD_mem _ _ _ hi)
  · have : m.bucket_at i = Bucket.init := List.getD_eq_default _ _ (by omega)
    rw [this]
    simp [Bucket.init]

/-- C12 (map key placement and uniqueness).  In every state reachable by `insert`, `erase`
and `clear`, for any hash function: a node stored in bucket `i` has a key with
`hash(key) mod 32 = i`, so a stored key lies only in the bucket of its hash; a key occurs at
most once in a bucket chain, and at most once in the whole map. -/
theorem map_key_placement (hasher_ : K → Nat) (m : concurrent_map K V)
    (hm : Reachable hasher_ m) :
    (∀ i, ∀ n ∈ (m.bucket_at i).head, bucket_idx hasher_ n.data.1 = i) ∧
    (∀ i key, i ≠ bucket_idx hasher_ key →
      key ∉ (m.bucket_at i).head.map (fun n => n.data.1)) ∧
    (∀ i key, ((m.bucket_at i).head.map (fun n => n.data.1)).count key ≤ 1) ∧
    (∀ key, ((all_nodes m.buckets_).map (fun n => n.data.1)).count key ≤ 1) := by
  have hwf := map_reachable_wf hasher_ m hm
  refine ⟨hwf.placed, ?_, ?_, ?_⟩
  · intro i key hi hmem
    obtain ⟨n, hn, hkey⟩ := List.mem_map.mp hmem
    have := hwf.placed i n hn
    rw [hkey] at this
    exact hi this.symm
  · intro i key
    exact List.nodup_iff_count_le_one.mp (hwf.bucket_keys_nodup i) key
  · intro key
    refine List.nodup_iff_count_le_one.mp ?_ key
    exact keys_nodup_of_placed (bucket_idx hasher_) m.buckets_ 0
      (fun i n hn => by rw [hwf.placed i n hn]; omega) hwf.keys

/-- Witness for C12: the map holding `1 ↦ "one"` and `33 ↦ "x"`, both in bucket 1. -/
theorem map_key_placement_witness :
    Reachable (fun k : Nat => k)
      (insert (fun k : Nat => k) 101 33 "x"
        (insert (fun k : Nat => k) 100 1 "one" (new : concurrent_map Nat String)).2).2 ∧
    ∀ i, ∀ n ∈ ((insert (fun k : Nat => k) 101 33 "x"
        (insert (fun k : Nat => k) 100 1 "one" (new : concurrent_map Nat String)).2).2.bucket_at
          i).head,
      bucket_idx (fun k : Nat => k) n.data.1 = i :=
  ⟨Reachable.insert _ 101 33 "x" (Reachable.insert _ 100 1 "one" Reachable.new (by decide))
      (by decide),
    (map_key_placement (fun k : Nat => k) _
      (Reachable.insert _ 101 33 "x" (Reachable.insert _ 100 1 "one" Reachable.new (by decide))
        (by decide))).1⟩

theorem insert_length (hasher_ : K → Nat) (p : Nat) (key : K) (value : V)
    (m : concurrent_map K V) :
    (insert hasher_ p key value m).2.buckets_.length = m.buckets_.length := by
  cases hc : chain_contains key (m.bucket_at (bucket_idx hasher_ key)).head with
  | true => rw [insert_of_contains hasher_ p key value m hc]
  | false =>
    rw [insert_of_not_contains hasher_ p key value m hc]
    exact List.length_set _ _ _

theorem erase_length (hasher_ : K → Nat) (key : K) (m : concurrent_map K V) :
    (erase hasher_ key m).2.buckets_.length = m.buckets_.length := by
  cases hc : chain_erase key (m.bucket_at (bucket_idx hasher_ key)).head with
  | none => rw [erase_of_none hasher_ key m hc]
  | some chain =>
    rw [erase_of_some hasher_ key m chain hc]
    exact List.length_set _ _ _

/-- C13 (map shard independence).  In every map state, `insert(key, value)` and `erase(key)`
leave every bucket other than bucket `hash(key) mod 32` as it is (chain and counter) and keep
the number of buckets; and they read only that bucket and the global counter: on two maps
that agree on that bucket and on the global counter they return the same `bool` and produce
the same bucket and the same global counter.  `find(key)` reads only that bucket; it is a
function with no state result, as the `const` method it embeds. -/
theorem map_shard_independence (hasher_ : K → Nat) (m : concurrent_map K V) (new_node : Nat)
    (key : K) (value : V) :
    (∀ i, i ≠ bucket_idx hasher_ key →
      (insert hasher_ new_node key value m).2.bucket_at i = m.bucket_at i ∧
      (erase hasher_ key m).2.bucket_at i = m.bucket_at i) ∧
    (insert hasher_ new_node key value m).2.buckets_.length = m.buckets_.length ∧
    (erase hasher_ key m).2.buckets_.length = m.buckets_.length ∧
    (∀ m2 : concurrent_map K V,
      m2.bucket_at (bucket_idx hasher_ key) = m.bucket_at (bucket_idx hasher_ key) →
      m2.size_ = m.size_ →
      bucket_idx hasher_ key < m.buckets_.length →
      bucket_idx hasher_ key < m2.buckets_.length →
      ((insert hasher_ new_node key value m2).1 = (insert hasher_ new_node key value m).1 ∧
       (insert hasher_ new_node key value m2).2.bucket_at (bucket_idx hasher_ key) =
         (insert hasher_ new_node key value m).2.bucket_at (bucket_idx hasher_ key) ∧
       (insert hasher_ new_node key value m2).2.size_ =
         (insert hasher_ new_node key value m).2.size_) ∧
      ((erase hasher_ key m2).1 = (erase hasher_ key m).1 ∧
       (erase hasher_ key m2).2.bucket_at (bucket_idx hasher_ key) =
         (erase hasher_ key m).2.bucket_at (bucket_idx hasher_ key) ∧
       (erase hasher_ key m2).2.size_ = (erase hasher_ key m).2.size_)) ∧
    (∀ m2 : concurrent_map K V,
      m2.bucket_at (bucket_idx hasher_ key) = m.bucket_at (bucket_idx hasher_ key) →
      find hasher_ key m2 = find hasher_ key m) := by
  refine ⟨fun i hi => ⟨insert_bucket_other hasher_ new_node key value m i hi,
    erase_bucket_other hasher_ key m i hi⟩, insert_length hasher_ new_node key value m,
    erase_length hasher_ key m, ?_, ?_⟩
  · intro m2 hb hs hl hl2
    constructor
    · cases hc : chain_contains key (m.bucket_at (bucket_idx hasher_ key)).head with
      | true =>
        rw [insert_of_contains hasher_ new_node key value m hc,
          insert_of_contains hasher_ new_node key value m2 (hb ▸ hc)]
        exact ⟨rfl, hb, hs⟩
      | false =>
        rw [insert_of_not_contains hasher_ new_node key value m hc,
          insert_of_not_contains hasher_ new_node key value m2 (hb ▸ hc)]
        refine ⟨rfl, ?_, ?_⟩
        · simp only [bucket_at]
          rw [getD_set _ _ _ _ _ hl, getD_set _ _ _ _ _ hl2, if_pos rfl, if_pos rfl]
          simp only [bucket_at] at hb
          rw [hb]
        · simp only
          rw [hs]
    · cases hc : chain_erase key (m.bucket_at (bucket_idx hasher_ key)).head with
      | none =>
        rw [erase_of_none hasher_ key m hc, erase_of_none hasher_ key m2 (hb ▸ hc)]
        exact ⟨rfl, hb, hs⟩
      | some chain =>
        rw [erase_of_some hasher_ key m chain hc, erase_of_some hasher_ key m2 chain (hb ▸ hc)]
        refine ⟨rfl, ?_, ?_⟩
        · simp only [bucket_at]
          rw [getD_set _ _ _ _ _ hl, getD_set _ _ _ _ _ hl2, if_pos rfl, if_pos rfl]
          simp only [bucket_at] at hb
          rw [hb]
        · simp only
          rw [hs]
  · intro m2 hb
    simp only [find]
    rw [hb]

theorem find_new (hasher_ : K → Nat) (key : K) :
    find hasher_ key (new : concurrent_map K V) = none := by
  simp only [find, bucket_at_new, Bucket.init, chain_find]

/-- C14 (map clear resets to the empty map).  In every reachable map state `clear()` yields
exactly the state of a newly constructed map: 32 buckets with empty chain and counter 0, and
global counter 0.  Afterwards `size()` is 0, `empty()` is true, `find` is absent for every
key and `insert` returns `true` for every key. -/
theorem map_clear_resets (hasher_ : K → Nat) (m : concurrent_map K V)
    (hm : Reachable hasher_ m) :
    clear m = new ∧
    (clear m).buckets_.length = 32 ∧
    (∀ bucket ∈ (clear m).buckets_, bucket.head = [] ∧ bucket.size = 0) ∧
    (clear m).size_ = 0 ∧
    (clear m).size = 0 ∧ (clear m).empty = true ∧
    (∀ key, find hasher_ key (clear m) = none) ∧
    (∀ new_node key value, (insert hasher_ new_node key value (clear m)).1 = true) := by
  have hwf := map_reachable_wf hasher_ m hm
  have hnew := clear_eq_new m hwf.length
  rw [hnew]
  refine ⟨rfl, by simp [new, NUM_SHARDS], ?_, rfl, rfl, rfl, find_new hasher_, ?_⟩
  · intro b hb
    rw [List.eq_of_mem_replicate hb]
    exact ⟨rfl, rfl⟩
  · intro p key value
    have hc : chain_contains key
        ((new : concurrent_map K V).bucket_at (bucket_idx hasher_ key)).head = false := by
      rw [bucket_at_new]; rfl
    rw [insert_of_not_contains hasher_ p key value new hc]

/-- Witness for C14: clearing the map holding `1 ↦ "one"` and `33 ↦ "x"`. -/
theorem map_clear_resets_witness :
    Reachable (fun k : Nat => k)
      (insert (fun k : Nat => k) 101 33 "x"
        (insert (fun k : Nat => k) 100 1 "one" (new : concurrent_map Nat String)).2).2 ∧
    clear (insert (fun k : Nat => k) 101 33 "x"
        (insert (fun k : Nat => k) 100 1 "one" (new : concurrent_map Nat String)).2).2 = new :=
  ⟨Reachable.insert _ 101 33 "x" (Reachable.insert _ 100 1 "one" Reachable.new (by decide))
      (by decide),
    (map_clear_resets (fun k : Nat => k) _
      (Reachable.insert _ 101 33 "x" (Reachable.insert _ 100 1 "one" Reachable.new (by decide))
        (by decide))).1⟩

/-- C15 (map shard table is fixed and indexing is safe).  A new map has exactly
`NUM_SHARDS = 32 = 2 ^ 5` buckets; `insert`, `erase` and `clear` keep the number of buckets
of any map; for every hash function and key `bucket_idx(key)` is below 32; so in every
reachable state the table has 32 buckets and the bucket index used by `insert`, `find` and
`erase` is inside the table. -/
theorem map_shard_table_fixed (hasher_ : K → Nat) :
    (new : concurrent_map K V).buckets_.length = NUM_SHARDS ∧
    NUM_SHARDS = 32 ∧ NUM_SHARDS = 2 ^ 5 ∧
    (∀ (m : concurrent_map K V) new_node key value,
      (insert hasher_ new_node key value m).2.buckets_.length = m.buckets_.length) ∧
    (∀ (m : concurrent_map K V) key,
      (erase hasher_ key m).2.buckets_.length = m.buckets_.length) ∧
    (∀ m : concurrent_map K V, (clear m).buckets_.length = m.buckets_.length) ∧
    (∀ key, bucket_idx hasher_ key = hasher_ key % 32 ∧ bucket_idx hasher_ key < 32) ∧
    (∀ m : concurrent_map K V, Reachable hasher_ m →
      m.buckets_.length = 32 ∧ ∀ key, bucket_idx hasher_ key < m.buckets_.length) := by
  refine ⟨by simp [new], rfl, rfl, fun m p key value => insert_length hasher_ p key value m,
    fun m key => erase_length hasher_ key m, fun m => by simp [clear], ?_, ?_⟩
  · intro key
    exact ⟨rfl, Nat.mod_lt _ (by decide)⟩
  · intro m hm
    have hwf := map_reachable_wf hasher_ m hm
    exact ⟨hwf.length, fun key => hwf.idx_lt key⟩

/-- The steps of `clear`, run without interruption, are `clear`. -/
theorem steps_clear_steps (hasher_ : K → Nat) (m : concurrent_map K V) :
    steps hasher_ (clear_steps m.buckets_.length) m = clear m := by
  unfold steps clear_steps
  rw [List.foldl_append, List.foldl_map]
  have h : (fun (m1 : concurrent_map K V) (i : Nat) => step hasher_ (Step.clear_bucket i) m1) =
      fun m1 i => clear_bucket i m1 := rfl
  rw [h, foldl_clear_bucket_map, foldl_clear_bucket _ _ _ (le_refl _)]
  simp only [List.foldl_cons, List.foldl_nil, step, clear_store, clear, List.drop_length,
    List.append_nil]
  congr 1
  exact (List.map_const' _ _).symm

/-- C27 fails at `clear_race`.  `clear` writes the global counter by `size_.store(0)` with no
bucket lock held, and the store changes the counter.  In `clear_race`, which interleaves the
steps of one `clear()` with one `insert(1, 10)` on a new map, the insert runs between the loop
of `clear` and the store: both calls have returned, `size()` is 0 and `empty()` is true, and
the map stores one entry, which `find` returns.  An `erase(1)` after that returns the entry
count to 0 and leaves `size()` at 2^64 - 1. -/
theorem map_clear_store_unlocked :
    Step.lock id (Step.clear_store : Step Nat Nat) = none ∧
    (∀ bucket_index, Step.lock id (Step.clear_bucket bucket_index : Step Nat Nat) =
      some bucket_index) ∧
    size (step id Step.clear_store (step id (Step.insert 100 1 10) new)) ≠
      size (step id (Step.insert 100 1 10) new) ∧
    clear_race = (clear_steps NUM_SHARDS).take NUM_SHARDS ++ [Step.insert 100 1 10] ++
      (clear_steps NUM_SHARDS).drop NUM_SHARDS ∧
    size (steps id clear_race new) = 0 ∧
    empty (steps id clear_race new) = true ∧
    find id 1 (steps id clear_race new) = some 10 ∧
    (all_nodes (steps id clear_race new).buckets_).length = 1 ∧
    (all_nodes (steps id (clear_race ++ [Step.erase 1]) new).buckets_).length = 0 ∧
    size (steps id (clear_race ++ [Step.erase 1]) new) = SIZE_MOD - 1 := by
  refine ⟨rfl, fun _ => rfl, by decide, by decide, by decide, by decide, by decide, by decide,
    by decide, by decide⟩


theorem chain_find_erase_other (key key2 : K) (hne : key2 ≠ key) :
    ∀ (chain chain1 : List (Node K V)), chain_erase key chain = some chain1 →
      chain_find key2 chain1 = chain_find key2 chain
  | [], _, h => by simp [chain_erase] at h
  | n :: rest, chain1, h => by
    by_cases hk : n.data.1 = key
    · simp only [chain_erase, hk, if_true, Option.some.injEq] at h
      subst h
      have hk2 : ¬ n.data.1 = key2 := fun e => hne (by rw [← e, hk])
      simp only [chain_find, hk2, if_false]
    · simp only [chain_erase, hk, if_false, Option.map_eq_some'] at h
      obtain ⟨rest1, hr, hc⟩ := h
      subst hc
      have ih := chain_find_erase_other key key2 hne rest rest1 hr
      simp only [chain_find, ih]

/-- `erase(key)` does not change what `find` returns for another key. -/
theorem find_erase_other (hasher_ : K → Nat) (key key2 : K) (m : concurrent_map K V)
    (hne : key2 ≠ key) :
    find hasher_ key2 (erase hasher_ key m).2 = find hasher_ key2 m := by
  by_cases hi : bucket_idx hasher_ key2 = bucket_idx hasher_ key
  · cases hc : chain_erase key (m.bucket_at (bucket_idx hasher_ key)).head with
    | none => rw [erase_of_none hasher_ key m hc]
    | some chain =>
      rw [erase_of_some hasher_ key m chain hc]
      by_cases hlen : bucket_idx hasher_ key < m.buckets_.length
      · simp only [find, bucket_at]
        rw [hi, getD_set _ _ _ _ _ hlen, if_pos rfl]
        exact chain_find_erase_other key key2 hne _ _ hc
      · simp only [find, bucket_at]
        rw [List.set_eq_of_length_le (by omega)]
  · simp only [find]
    rw [erase_bucket_other hasher_ key m _ hi]

/-- After `erase(key)` on a well-formed map, `find(key)` returns absent. -/
theorem find_erase_self (hasher_ : K → Nat) (key : K) (m : concurrent_map K V)
    (hwf : WF hasher_ m) : find hasher_ key (erase hasher_ key m).2 = none := by
  cases hc : chain_erase key (m.bucket_at (bucket_idx hasher_ key)).head with
  | none =>
    rw [erase_of_none hasher_ key m hc]
    exact (chain_erase_eq_none_iff key _).mp hc
  | some chain =>
    obtain ⟨pre, n, post, h1, h2, h3, h4⟩ := chain_erase_eq_some key _ _ hc
    rw [erase_of_some hasher_ key m chain hc]
    simp only
    rw [find_insert_bucket hasher_ key m _ _ (hwf.idx_lt key)]
    simp only
    rw [chain_find_eq_none_iff, h2]
    have hk := hwf.keys _ (getD_mem _ _ Bucket.init (hwf.idx_lt key))
    have hb : m.buckets_.getD (bucket_idx hasher_ key) Bucket.init =
        m.bucket_at (bucket_idx hasher_ key) := rfl
    rw [hb, h1, List.map_append, List.map_cons, h3] at hk
    have hk2 := List.nodup_middle.mp hk
    rw [List.map_append]
    exact (List.nodup_cons.mp hk2).1

theorem fetch_sub_add_one (s : Nat) (h : s < SIZE_MOD) :
    fetch_sub_one (fetch_add_one s) = s := by
  unfold fetch_sub_one fetch_add_one
  simp only [SIZE_MOD] at h ⊢
  omega

/-- C32 (map operations on one key do not disturb other keys).  In every map state
(reachable or not), for keys `key2 ≠ key`, whether or not they fall into the same bucket,
`find(key2)` returns the same after `insert(key, value)` and after `erase(key)` as before. -/
theorem map_other_keys_untouched (hasher_ : K → Nat) (m : concurrent_map K V)
    (new_node : Nat) (key key2 : K) (value : V) (hne : key2 ≠ key) :
    find hasher_ key2 (insert hasher_ new_node key value m).2 = find hasher_ key2 m ∧
    find hasher_ key2 (erase hasher_ key m).2 = find hasher_ key2 m :=
  ⟨find_insert_other hasher_ new_node key key2 value m hne,
    find_erase_other hasher_ key key2 m hne⟩

/-- Witness for C32: the keys 1 and 33 share bucket 1 under the identity hash; the map holds
both. -/
theorem map_other_keys_untouched_witness :
    (33 : Nat) ≠ 1 ∧
    bucket_idx (fun k : Nat => k) 33 = bucket_idx (fun k : Nat => k) 1 ∧
    find (fun k : Nat => k) 33
        (insert (fun k : Nat => k) 103 1 30
          (insert_all (fun k : Nat => k) [(101, 33, 20), (102, 1, 10)] new).2).2 =
      find (fun k : Nat => k) 33
        (insert_all (fun k : Nat => k) [(101, 33, 20), (102, 1, 10)] new).2 ∧
    find (fun k : Nat => k) 33
        (erase (fun k : Nat => k) 1
          (insert_all (fun k : Nat => k) [(101, 33, 20), (102, 1, 10)] new).2).2 =
      find (fun k : Nat => k) 33
        (insert_all (fun k : Nat => k) [(101, 33, 20), (102, 1, 10)] new).2 :=
  ⟨by decide, by decide,
    map_other_keys_untouched (fun k : Nat => k) _ 103 1 33 30 (by decide)⟩

/-- C34 (map insert/erase round trip).  In every reachable map state in which `key` is
absent, `insert(key, value)` returns `true`, the `erase(key)` that follows returns `true`, and
the state after the two calls is the state before them: the same table of buckets, each with
the same chain in the same order and the same counter, and the same global counter.  After
the `insert` the new entry is the first node of the chain of its bucket and the rest of the
chain is the old chain, which is what `erase` leaves. -/
theorem map_insert_erase_round_trip (hasher_ : K → Nat) (m : concurrent_map K V)
    (hm : Reachable hasher_ m) (new_node : Nat) (key : K) (value : V)
    (habs : find hasher_ key m = none) :
    (insert hasher_ new_node key value m).1 = true ∧
    ((insert hasher_ new_node key value m).2.bucket_at (bucket_idx hasher_ key)).head =
      { addr := new_node, data := (key, value) } ::
        (m.bucket_at (bucket_idx hasher_ key)).head ∧
    (erase hasher_ key (insert hasher_ new_node key value m).2).1 = true ∧
    (erase hasher_ key (insert hasher_ new_node key value m).2).2 = m := by
  have hwf := map_reachable_wf hasher_ m hm
  have hidx := hwf.idx_lt key
  have hc : chain_contains key (m.bucket_at (bucket_idx hasher_ key)).head = false :=
    (chain_contains_eq_false_iff key _).mpr habs
  have hins := insert_of_not_contains hasher_ new_node key value m hc
  have hb : (insert hasher_ new_node key value m).2.bucket_at (bucket_idx hasher_ key) =
      { head := { addr := new_node, data := (key, value) } ::
          (m.bucket_at (bucket_idx hasher_ key)).head,
        size := fetch_add_one (m.bucket_at (bucket_idx hasher_ key)).size } := by
    rw [hins]
    simp only [bucket_at]
    rw [getD_set _ _ _ _ _ hidx, if_pos rfl]
  have he : chain_erase key
      ((insert hasher_ new_node key value m).2.bucket_at (bucket_idx hasher_ key)).head =
      some (m.bucket_at (bucket_idx hasher_ key)).head := by
    rw [hb]
    simp only [chain_erase, if_true]
  have hers := erase_of_some hasher_ key _ _ he
  have hbsize : (m.bucket_at (bucket_idx hasher_ key)).size < SIZE_MOD := by
    have h1 := hwf.count _ (getD_mem m.buckets_ _ Bucket.init hidx)
    have h2 := bucket_length_le m.buckets_ _ hidx
    have h3 := hwf.nodes_bound
    have h4 : (m.bucket_at (bucket_idx hasher_ key)).size =
        (m.bucket_at (bucket_idx hasher_ key)).head.length := h1
    have h5 : (m.bucket_at (bucket_idx hasher_ key)).head.length ≤
        (all_nodes m.buckets_).length := h2
    omega
  have hsize : m.size_ < SIZE_MOD := by
    have h1 := hwf.total
    have h3 := hwf.nodes_bound
    omega
  refine ⟨by rw [hins], by rw [hb], by rw [hers], ?_⟩
  rw [hers]
  simp only
  rw [hb]
  simp only
  rw [fetch_sub_add_one _ hbsize, hins]
  simp only
  rw [fetch_sub_add_one _ hsize, List.set_set]
  have hset : m.buckets_.set (bucket_idx hasher_ key)
      { head := (m.bucket_at (bucket_idx hasher_ key)).head,
        size := (m.bucket_at (bucket_idx hasher_ key)).size } = m.buckets_ :=
    set_getD_self m.buckets_ _ Bucket.init hidx
  rw [hset]

/-- Witness for C34: the key 65 is absent from the map that holds 33 and 1; all three share
bucket 1 under the identity hash. -/
theorem map_insert_erase_round_trip_witness :
    find (fun k : Nat => k) 65
      (insert_all (fun k : Nat => k) [(101, 33, 20), (102, 1, 10)] new).2 = none ∧
    (erase (fun k : Nat => k) 65
      (insert (fun k : Nat => k) 103 65 30
        (insert_all (fun k : Nat => k) [(101, 33, 20), (102, 1, 10)] new).2).2).2 =
      (insert_all (fun k : Nat => k) [(101, 33, 20), (102, 1, 10)] new).2 :=
  ⟨by decide,
    (map_insert_erase_round_trip (fun k : Nat => k)
      (insert_all (fun k : Nat => k) [(101, 33, 20), (102, 1, 10)] new).2
      (Reachable.insert _ 102 1 10 (Reachable.insert _ 101 33 20 Reachable.new (by decide))
        (by decide)) 103 65 30 (by decide)).2.2.2⟩

theorem assoc_lookup_eq_none_iff (key : K) :
    ∀ a : List (K × V), assoc_lookup key a = none ↔ key ∉ a.map Prod.fst
  | [] => by simp [assoc_lookup]
  | e :: rest => by
    have ih := assoc_lookup_eq_none_iff key rest
    by_cases h : e.1 = key
    · simp [assoc_lookup, h]
    · simp only [assoc_lookup, h, if_false, List.map_cons, List.mem_cons, not_or]
      rw [ih]
      exact ⟨fun h1 => ⟨fun h2 => h h2.symm, h1⟩, fun h1 => h1.2⟩

theorem assoc_lookup_remove_other (key key2 : K) (hne : key2 ≠ key) :
    ∀ a : List (K × V), assoc_lookup key2 (assoc_remove key a) = assoc_lookup key2 a
  | [] => rfl
  | e :: rest => by
    have ih := assoc_lookup_remove_other key key2 hne rest
    by_cases h : e.1 = key
    · have h2 : ¬ e.1 = key2 := fun e2 => hne (by rw [← e2, h])
      simp only [assoc_remove, if_pos h]
      simp only [assoc_lookup, if_neg h2]
    · simp only [assoc_remove, h, if_false, assoc_lookup, ih]

theorem assoc_remove_sublist (key : K) :
    ∀ a : List (K × V), (assoc_remove key a).Sublist a
  | [] => List.Sublist.slnil
  | e :: rest => by
    by_cases h : e.1 = key
    · simp only [assoc_remove, h, if_true]
      exact List.sublist_cons_self _ _
    · simp only [assoc_remove, h, if_false]
      exact (assoc_remove_sublist key rest).cons₂ _

theorem assoc_lookup_remove_self (key : K) :
    ∀ a : List (K × V), (a.map Prod.fst).Nodup → assoc_lookup key (assoc_remove key a) = none
  | [], _ => rfl
  | e :: rest, hn => by
    rw [List.map_cons, List.nodup_cons] at hn
    by_cases h : e.1 = key
    · simp only [assoc_remove, h, if_true]
      rw [assoc_lookup_eq_none_iff, ← h]
      exact hn.1
    · simp only [assoc_remove, h, if_false, assoc_lookup]
      exact assoc_lookup_remove_self key rest hn.2

theorem assoc_remove_length (key : K) :
    ∀ a : List (K × V), assoc_lookup key a ≠ none →
      (assoc_remove key a).length + 1 = a.length
  | [], h => by simp [assoc_lookup] at h
  | e :: rest, h => by
    by_cases hk : e.1 = key
    · simp only [assoc_remove, hk, if_true, List.length_cons]
    · simp only [assoc_lookup, hk, if_false] at h
      have ih := assoc_remove_length key rest h
      simp only [assoc_remove, hk, if_false, List.length_cons, ih]

/-- A new map holds the empty association list. -/
theorem refines_new (hasher_ : K → Nat) :
    Refines hasher_ (new : concurrent_map K V) [] where
  wf := map_new_wf hasher_
  lookup := fun key => find_new hasher_ key
  nodup := List.nodup_nil
  count := rfl

/-- One call keeps the refinement and returns what the association map returns, when the
allocator keeps its contract for an `insert` that allocates. -/
theorem call_refines (hasher_ : K → Nat) (c : Call K V) (m : concurrent_map K V)
    (a : List (K × V)) (h : Refines hasher_ m a)
    (halloc : ∀ new_node key value, c = .insert new_node key value →
      chain_contains key (m.bucket_at (bucket_idx hasher_ key)).head = false →
      allocatable m new_node) :
    (call hasher_ c m).1 = (assoc_call c a).1 ∧
    Refines hasher_ (call hasher_ c m).2 (assoc_call c a).2 := by
  cases c with
  | insert new_node key value =>
    have hl := h.lookup key
    cases hc : chain_contains key (m.bucket_at (bucket_idx hasher_ key)).head with
    | true =>
      have hfind : find hasher_ key m ≠ none := by
        intro hf
        have := (chain_contains_eq_false_iff key _).mpr hf
        rw [hc] at this
        cases this
      rw [hl] at hfind
      cases hla : assoc_lookup key a with
      | none => exact absurd hla hfind
      | some v =>
        simp only [call, assoc_call, assoc_insert, hla, insert_of_contains hasher_ _ _ _ m hc]
        exact ⟨trivial, h⟩
    | false =>
      have hfind : find hasher_ key m = none := (chain_contains_eq_false_iff key _).mp hc
      rw [hl] at hfind
      have ha := halloc new_node key value rfl hc
      obtain ⟨_, hsz, _, hwf1⟩ := insert_fresh_wf hasher_ new_node key value m h.wf ha hc
      simp only [call, assoc_call, assoc_insert, hfind]
      refine ⟨by rw [insert_of_not_contains hasher_ _ _ _ m hc], hwf1, ?_, ?_, ?_⟩
      · intro key2
        by_cases hk : key2 = key
        · subst hk
          rw [find_insert_self hasher_ new_node key2 value m h.wf hc]
          simp only [assoc_lookup, if_true]
        · rw [find_insert_other hasher_ new_node key key2 value m hk, h.lookup key2]
          have hk2 : ¬ key = key2 := fun e => hk e.symm
          simp only [assoc_lookup, hk2, if_false]
      · rw [List.map_cons, List.nodup_cons]
        exact ⟨(assoc_lookup_eq_none_iff key a).mp hfind, h.nodup⟩
      · rw [insert_of_not_contains hasher_ _ _ _ m hc]
        simp only [List.length_cons]
        rw [hsz, h.count]
  | find key =>
    simp only [call, assoc_call]
    exact ⟨by rw [h.lookup key], h⟩
  | erase key =>
    have hl := h.lookup key
    cases hc : chain_erase key (m.bucket_at (bucket_idx hasher_ key)).head with
    | none =>
      have hfind : find hasher_ key m = none := (chain_erase_eq_none_iff key _).mp hc
      rw [hl] at hfind
      simp only [call, assoc_call, assoc_delete, hfind, erase_of_none hasher_ key m hc]
      exact ⟨trivial, h⟩
    | some chain =>
      have hfind : find hasher_ key m ≠ none := by
        intro hf
        have := (chain_erase_eq_none_iff key _).mpr hf
        rw [hc] at this
        cases this
      rw [hl] at hfind
      obtain ⟨pre, n, post, h1, h2, _, _⟩ := chain_erase_eq_some key _ _ hc
      obtain ⟨_, hsz, _, hwf1⟩ := erase_found_wf hasher_ key m h.wf pre post n h1 (by rw [hc, h2])
      cases hla : assoc_lookup key a with
      | none => exact absurd hla hfind
      | some v =>
        simp only [call, assoc_call, assoc_delete, hla]
        refine ⟨by rw [erase_of_some hasher_ key m chain hc], hwf1, ?_, ?_, ?_⟩
        · intro key2
          by_cases hk : key2 = key
          · subst hk
            rw [find_erase_self hasher_ key2 m h.wf, assoc_lookup_remove_self key2 a h.nodup]
          · rw [find_erase_other hasher_ key key2 m hk, h.lookup key2,
              assoc_lookup_remove_other key key2 hk]
        · exact h.nodup.sublist ((assoc_remove_sublist key a).map Prod.fst)
        · have hlen := assoc_remove_length key a hfind
          have hcount := h.count
          rw [erase_of_some hasher_ key m chain hc]
          simp only
          omega
  | size =>
    simp only [call, assoc_call, size, assoc_count]
    exact ⟨by rw [h.count], h⟩
  | empty =>
    simp only [call, assoc_call, empty, size, assoc_count]
    exact ⟨by rw [h.count], h⟩
  | clear =>
    simp only [call, assoc_call]
    refine ⟨trivial, map_clear_wf hasher_ m h.wf, ?_, List.nodup_nil, rfl⟩
    intro key
    rw [clear_eq_new m h.wf.length]
    exact find_new hasher_ key

/-- A sequence of calls returns what the association map returns, when the allocator keeps
its contract. -/
theorem run_refines (hasher_ : K → Nat) :
    ∀ (calls : List (Call K V)) (m : concurrent_map K V) (a : List (K × V)),
      Refines hasher_ m a → alloc_ok hasher_ calls m = true →
      (run hasher_ calls m).1 = assoc_run calls a
  | [], _, _, _, _ => rfl
  | c :: calls, m, a, h, hok => by
    have hstep : ∀ new_node key value, c = .insert new_node key value →
        chain_contains key (m.bucket_at (bucket_idx hasher_ key)).head = false →
        allocatable m new_node := by
      intro new_node key value hc hcont
      subst hc
      simp only [alloc_ok, Bool.and_eq_true, Bool.or_eq_true, decide_eq_true_eq] at hok
      rcases hok.1 with h1 | h1
      · rw [hcont] at h1; cases h1
      · exact h1
    have hrest : alloc_ok hasher_ calls (call hasher_ c m).2 = true := by
      cases c with
      | insert new_node key value =>
        simp only [alloc_ok, Bool.and_eq_true] at hok
        exact hok.2
      | find key => exact hok
      | erase key => exact hok
      | size => exact hok
      | empty => exact hok
      | clear => exact hok
    obtain ⟨h1, h2⟩ := call_refines hasher_ c m a h hstep
    have ih := run_refines hasher_ calls _ _ h2 hrest
    simp only [run, assoc_run, h1, ih]

/-- C33 (map results do not depend on the hash function).  For every sequence of `insert`,
`find`, `erase`, `size`, `empty` and `clear` calls executed one at a time on a new map, the
allocator keeping its contract, the calls return exactly what the same calls return on a
single association map keyed by equality (insert-if-absent, lookup, delete, count), which has
no hash function; hence two maps with any two hash functions return the same at every
call. -/
theorem map_hash_independent (hasher1 hasher2 : K → Nat) (calls : List (Call K V))
    (h1 : alloc_ok hasher1 calls (new : concurrent_map K V) = true)
    (h2 : alloc_ok hasher2 calls (new : concurrent_map K V) = true) :
    (run hasher1 calls new).1 = assoc_run calls [] ∧
    (run hasher2 calls new).1 = assoc_run calls [] ∧
    (run hasher1 calls new).1 = (run hasher2 calls new).1 := by
  have e1 := run_refines hasher1 calls new [] (refines_new hasher1) h1
  have e2 := run_refines hasher2 calls new [] (refines_new hasher2) h2
  exact ⟨e1, e2, by rw [e1, e2]⟩

/-- Witness for C33: `sample_calls` with the identity hash and with the hash that sends
every key to bucket 0. -/
theorem map_hash_independent_witness :
    alloc_ok (fun k : Nat => k) sample_calls new = true ∧
    alloc_ok (fun _ : Nat => 0) sample_calls new = true ∧
    (run (fun k : Nat => k) sample_calls new).1 = assoc_run sample_calls [] ∧
    (run (fun _ : Nat => 0) sample_calls new).1 = assoc_run sample_calls [] ∧
    (run (fun k : Nat => k) sample_calls new).1 = (run (fun _ : Nat => 0) sample_calls new).1 ∧
    assoc_run sample_calls [] =
      [.bool true, .bool true, .bool true, .bool false, .bool true, .optional (some 10),
       .optional (some 20), .optional none, .count 3, .bool true, .bool false,
       .optional (some 20), .bool true, .count 3, .bool false, .void, .optional none,
       .count 0, .bool true] :=
  ⟨by decide, by decide,
    (map_hash_independent (fun k : Nat => k) (fun _ : Nat => 0) sample_calls (by decide)
      (by decide)).1,
    (map_hash_independent (fun k : Nat => k) (fun _ : Nat => 0) sample_calls (by decide)
      (by decide)).2.1,
    (map_hash_independent (fun k : Nat => k) (fun _ : Nat => 0) sample_calls (by decide)
      (by decide)).2.2, by decide⟩

end concurrent_map

end hcstl

/-! ## Proofs: concurrent_vector -/

namespace hcstl

namespace concurrent_vector

variable {T : Type}

theorem getD_snoc (vs : List T) (x d : T) (i : Nat) :
    (vs ++ [x]).getD i d = if i = vs.length then x else vs.getD i d := by
  rw [List.getD_eq_getElem?_getD, List.getD_eq_getElem?_getD]
  rcases Nat.lt_trichotomy i vs.length with h | h | h
  · rw [List.getElem?_append_left h, if_neg (by omega)]
  · subst h
    rw [List.getElem?_append_right (Nat.le_refl _)]
    simp
  · rw [if_neg (by omega), List.getElem?_eq_none (by simp; omega),
      List.getElem?_eq_none (by omega)]

theorem segment_addrs_append (l : List (Option (Segment T))) (s : Segment T) :
    segment_addrs (l ++ [some s]) = segment_addrs l ++ [s.addr] := by
  induction l with
  | nil => rfl
  | cons a l ih =>
    cases a with
    | none => simpa [segment_addrs] using ih
    | some b => simp [segment_addrs, ih]

theorem fill_sum_append (l : List (Option (Segment T))) (s : Segment T) :
    fill_sum (l ++ [some s]) = fill_sum l + s.size := by
  induction l with
  | nil => simp [fill_sum]
  | cons a l ih =>
    cases a with
    | none => simpa [fill_sum] using ih
    | some b => simp [fill_sum, ih]; omega

/-- Replacing a segment by one at the same address keeps the list of addresses. -/
theorem segment_addrs_set :
    ∀ (l : List (Option (Segment T))) (j : Nat) (s s1 : Segment T),
      l[j]? = some (some s) → s1.addr = s.addr →
      segment_addrs (l.set j (some s1)) = segment_addrs l
  | [], _, _, _, h, _ => by simp at h
  | a :: l, 0, s, s1, h, ha => by
    simp only [List.getElem?_cons_zero, Option.some.injEq] at h
    subst h
    simp [segment_addrs, ha]
  | a :: l, j + 1, s, s1, h, ha => by
    simp only [List.getElem?_cons_succ] at h
    have ih := segment_addrs_set l j s s1 h ha
    cases a with
    | none => simpa [segment_addrs] using ih
    | some b => simp [segment_addrs, ih]

/-- Replacing a segment changes the sum of the fill counters by the change of its counter. -/
theorem fill_sum_set :
    ∀ (l : List (Option (Segment T))) (j : Nat) (s s1 : Segment T),
      l[j]? = some (some s) →
      fill_sum (l.set j (some s1)) + s.size = fill_sum l + s1.size
  | [], _, _, _, h => by simp at h
  | a :: l, 0, s, s1, h => by
    simp only [List.getElem?_cons_zero, Option.some.injEq] at h
    subst h
    simp [fill_sum]; omega
  | a :: l, j + 1, s, s1, h => by
    simp only [List.getElem?_cons_succ] at h
    have ih := fill_sum_set l j s s1 h
    cases a with
    | none => simpa [fill_sum] using ih
    | some b => simp [fill_sum]; omega

/-- When every table entry is an allocated segment there are as many addresses as entries. -/
theorem segment_addrs_length :
    ∀ (l : List (Option (Segment T))), (∀ j < l.length, ∃ s, l[j]? = some (some s)) →
      (segment_addrs l).length = l.length
  | [], _ => rfl
  | a :: l, h => by
    obtain ⟨s, hs⟩ := h 0 (by simp)
    simp only [List.getElem?_cons_zero, Option.some.injEq] at hs
    subst hs
    have ih := segment_addrs_length l (fun j hj => by
      obtain ⟨s1, hs1⟩ := h (j + 1) (by simpa using hj)
      exact ⟨s1, by simpa using hs1⟩)
    simp [segment_addrs, ih]

theorem apart_symm {a b : Nat} (h : apart a b) : apart b a := Or.symm h

/-- Segments that do not overlap and lie inside the address space: their number is bounded
by the size of the address space divided by the size of a segment. -/
theorem apart_length_bound (addrs : List Nat) (hp : addrs.Pairwise apart)
    (hin : ∀ a ∈ addrs, a + SEGMENT_BYTES ≤ SIZE_MOD) :
    addrs.length ≤ SIZE_MOD / SEGMENT_BYTES := by
  have hL : 0 < SEGMENT_BYTES := by decide
  have hnd : (addrs.map (fun a => a / SEGMENT_BYTES)).Nodup := by
    rw [List.Nodup, List.pairwise_map]
    refine hp.imp ?_
    intro a b hab heq
    have h1 := Nat.div_add_mod a SEGMENT_BYTES
    have h2 := Nat.div_add_mod b SEGMENT_BYTES
    have h3 := Nat.mod_lt a hL
    have h4 := Nat.mod_lt b hL
    rw [heq] at h1
    rcases hab with h | h <;> omega
  have hsub : (addrs.map (fun a => a / SEGMENT_BYTES)).toFinset ⊆
      Finset.range (SIZE_MOD / SEGMENT_BYTES) := by
    intro q hq
    obtain ⟨a, ha, rfl⟩ := List.mem_map.mp (List.mem_toFinset.mp hq)
    have := hin a ha
    rw [Finset.mem_range]
    have h5 : (a + SEGMENT_BYTES) / SEGMENT_BYTES ≤ SIZE_MOD / SEGMENT_BYTES :=
      Nat.div_le_div_right this
    rw [Nat.add_div_right a hL] at h5
    exact h5
  have hcard := Finset.card_le_card hsub
  rw [List.toFinset_card_of_nodup hnd, Finset.card_range, List.length_map] at hcard
  exact hcard

theorem resize_succ_length (l : List (Option (Segment T))) :
    resize l (l.length + 1) = l ++ [none] := by
  unfold resize
  have h : l.length + 1 - l.length = 1 := by omega
  rw [h]
  exact List.take_of_length_le (by simp)

/-- `ensure_segment` when the table ends just before the target index: the table gets one
more entry, a newly made segment. -/
theorem ensure_segment_grow [Inhabited T] (p j : Nat) (v : concurrent_vector T)
    (hj : v.segments_.length = j) :
    ensure_segment p j v =
      { segments_ := v.segments_ ++ [some (Segment.init p)], size_ := v.size_ } := by
  subst hj
  unfold ensure_segment
  simp only [ge_iff_le, Nat.le_refl, if_true, resize_succ_length]
  have h1 : (v.segments_ ++ [none])[v.segments_.length]? = some (none : Option (Segment T)) := by
    rw [List.getElem?_append_right (Nat.le_refl _)]
    simp
  rw [h1]
  simp only
  congr 1
  rw [List.set_append_right _ _ (Nat.le_refl _)]
  simp

/-- `ensure_segment` when the target segment is there: nothing changes. -/
theorem ensure_segment_present [Inhabited T] (p j : Nat) (v : concurrent_vector T)
    (s : Segment T) (hs : v.segments_[j]? = some (some s)) :
    ensure_segment p j v = v := by
  have hj : j < v.segments_.length := by
    by_contra h
    rw [List.getElem?_eq_none (by omega)] at hs
    cases hs
  unfold ensure_segment
  have h1 : ¬ j ≥ v.segments_.length := by omega
  simp only [h1, if_false, hs]

theorem needs_segment_of_length_le (v : concurrent_vector T)
    (h : v.segments_.length ≤ v.size_ / SEGMENT_SIZE) : needs_segment v = true := by
  unfold needs_segment
  rw [List.getElem?_eq_none h]

/-- After `ensure_segment` for the index of the next slot the invariant holds with a table
that has room for one more value. -/
theorem ensure_segment_inv [Inhabited T] (p : Nat) (v : concurrent_vector T) (vs : List T)
    (hwf : WF v vs) (halloc : needs_segment v = true → allocatable v p) :
    Inv (ensure_segment p (v.size_ / SEGMENT_SIZE) v) vs (vs.length / SEGMENT_SIZE + 1) := by
  have hsize := hwf.size
  have htable := hwf.table
  rw [hsize]
  by_cases hmod : vs.length % SEGMENT_SIZE = 0
  · have hlen : v.segments_.length = vs.length / SEGMENT_SIZE := by
      rw [htable]; unfold SEGMENT_SIZE at hmod ⊢; omega
    have ha := halloc (needs_segment_of_length_le v (by rw [hsize, hlen]))
    rw [ensure_segment_grow p _ v hlen]
    constructor
    · exact hsize
    · simp [hlen]
    · intro j hj
      by_cases hjl : j < v.segments_.length
      · obtain ⟨seg, h1, h2⟩ := hwf.segment j (by rw [← htable]; exact hjl)
        refine ⟨seg, ?_, h2⟩
        simp only
        rw [List.getElem?_append_left hjl]
        exact h1
      · have hje : j = v.segments_.length := by omega
        refine ⟨Segment.init p, ?_, ?_, ?_, ?_⟩
        · simp only
          rw [hje, List.getElem?_append_right (Nat.le_refl _)]
          simp
        · simp [Segment.init]
        · show 0 = min SEGMENT_SIZE (vs.length - j * SEGMENT_SIZE)
          rw [hje, hlen]
          unfold SEGMENT_SIZE at hmod ⊢
          omega
        · intro o ho
          have hge : vs.length ≤ j * SEGMENT_SIZE + o := by
            rw [hje, hlen]
            unfold SEGMENT_SIZE at hmod ⊢
            omega
          rw [List.getD_eq_default _ _ hge]
          simp only [Segment.init]
          rw [List.getElem?_replicate, if_pos ho]
    · simp only
      rw [segment_addrs_append, List.pairwise_append]
      refine ⟨hwf.apart, by simp, ?_⟩
      intro a ha1 b hb
      have hb1 : b = p := by simpa [Segment.init] using hb
      rw [hb1]
      exact apart_symm (ha.2.2 a ha1)
    · intro a ha1
      simp only at ha1
      rw [segment_addrs_append, List.mem_append] at ha1
      rcases ha1 with h | h
      · exact hwf.inside a h
      · have hb1 : a = p := by simpa [Segment.init] using h
        rw [hb1]
        exact ⟨ha.1, ha.2.1⟩
    · simp only
      rw [fill_sum_append]
      show v.size_ = fill_sum v.segments_ + 0
      rw [Nat.add_zero]
      exact hwf.fill
  · have hlen : v.segments_.length = vs.length / SEGMENT_SIZE + 1 := by
      rw [htable]; unfold SEGMENT_SIZE at hmod ⊢; omega
    obtain ⟨seg, h1, _⟩ := hwf.segment (vs.length / SEGMENT_SIZE) (by rw [← htable, hlen]; omega)
    rw [ensure_segment_present p _ v seg h1]
    exact { size := hwf.size, table := hlen,
            segment := fun j hj => hwf.segment j (by rw [← htable, hlen]; exact hj),
            apart := hwf.apart, inside := hwf.inside, fill := hwf.fill }

/-- A table of allocated segments with room for `n + 1` values: `n + 1` fits `size_t`. -/
theorem Inv.slots_bound [Inhabited T] {v : concurrent_vector T} {vs : List T} {c : Nat}
    (h : Inv v vs c) : c * SEGMENT_SIZE < SIZE_MOD := by
  have hcount : (segment_addrs v.segments_).length = v.segments_.length :=
    segment_addrs_length _ (fun j hj => by
      obtain ⟨seg, h1, _⟩ := h.segment j (by rw [← h.table]; exact hj)
      exact ⟨seg, h1⟩)
  have hb := apart_length_bound _ h.apart (fun a ha => (h.inside a ha).2)
  rw [hcount, h.table] at hb
  have hQ : SIZE_MOD / SEGMENT_BYTES * SEGMENT_SIZE < SIZE_MOD := by decide
  generalize SIZE_MOD / SEGMENT_BYTES = Q at hb hQ
  unfold SEGMENT_SIZE at hQ ⊢
  omega

/-- The write of `push_back` into a table that has room for one more value: the slot for
the new value is there, neither counter wraps, and the state afterwards is well formed for
the values with the new one appended. -/
theorem write_inv [Inhabited T] (x : T) (v1 : concurrent_vector T) (vs : List T)
    (h : Inv v1 vs (vs.length / SEGMENT_SIZE + 1)) :
    ∃ seg, v1.segments_[vs.length / SEGMENT_SIZE]? = some (some seg) ∧
      vs.length % SEGMENT_SIZE < seg.data.length ∧
      fetch_add_one seg.size = seg.size + 1 ∧ fetch_add_one v1.size_ = v1.size_ + 1 ∧
      WF { segments_ := v1.segments_.set (vs.length / SEGMENT_SIZE)
             (some { addr := seg.addr, data := seg.data.set (vs.length % SEGMENT_SIZE) x,
                     size := fetch_add_one seg.size }),
           size_ := fetch_add_one v1.size_ } (vs ++ [x]) := by
  obtain ⟨seg, hseg, hdlen, hssize, hdata⟩ := h.segment (vs.length / SEGMENT_SIZE) (by omega)
  have hbound := h.slots_bound
  have hmodlt : vs.length % SEGMENT_SIZE < SEGMENT_SIZE := Nat.mod_lt _ (by decide)
  have hX : 1025 < SIZE_MOD := by decide
  have hs1 : fetch_add_one seg.size = seg.size + 1 := by
    apply fetch_add_one_eq
    rw [hssize]
    unfold SEGMENT_SIZE
    omega
  have hs2 : fetch_add_one v1.size_ = v1.size_ + 1 := by
    apply fetch_add_one_eq
    rw [h.size]
    unfold SEGMENT_SIZE at hbound
    omega
  have hjlt : vs.length / SEGMENT_SIZE < v1.segments_.length := by rw [h.table]; omega
  have hsa := segment_addrs_set v1.segments_ (vs.length / SEGMENT_SIZE) seg
    { addr := seg.addr, data := seg.data.set (vs.length % SEGMENT_SIZE) x,
      size := seg.size + 1 } hseg rfl
  refine ⟨seg, hseg, by rw [hdlen]; exact hmodlt, hs1, hs2, ?_⟩
  rw [hs1, hs2]
  constructor
  · show v1.size_ + 1 = (vs ++ [x]).length
    rw [h.size]; simp
  · show (v1.segments_.set _ _).length = _
    rw [List.length_set, h.table]
    simp only [List.length_append, List.length_singleton]
    unfold SEGMENT_SIZE
    omega
  · intro j hj
    have hj1 : j < vs.length / SEGMENT_SIZE + 1 := by
      simp only [List.length_append, List.length_singleton] at hj
      unfold SEGMENT_SIZE at hj ⊢
      omega
    by_cases hjj : j = vs.length / SEGMENT_SIZE
    · subst hjj
      refine ⟨{ addr := seg.addr, data := seg.data.set (vs.length % SEGMENT_SIZE) x,
                size := seg.size + 1 }, ?_, ?_, ?_, ?_⟩
      · show (v1.segments_.set _ _)[_]? = _
        rw [List.getElem?_set, if_pos rfl, if_pos hjlt]
      · show (seg.data.set _ _).length = _
        rw [List.length_set]; exact hdlen
      · show seg.size + 1 = _
        rw [hssize]
        simp only [List.length_append, List.length_singleton]
        unfold SEGMENT_SIZE
        omega
      · intro o ho
        show (seg.data.set _ _)[o]? = _
        rw [List.getElem?_set, getD_snoc]
        by_cases ho1 : vs.length % SEGMENT_SIZE = o
        · rw [if_pos ho1, if_pos (by rw [hdlen]; exact hmodlt), if_pos]
          rw [← ho1]
          exact Nat.div_add_mod' _ _
        · rw [if_neg ho1, if_neg, hdata o ho]
          intro hc
          apply ho1
          have := Nat.div_add_mod' vs.length SEGMENT_SIZE
          omega
    · obtain ⟨seg1, h1, h2, h3, h4⟩ := h.segment j hj1
      refine ⟨seg1, ?_, h2, ?_, ?_⟩
      · show (v1.segments_.set _ _)[j]? = _
        rw [List.getElem?_set, if_neg (fun hc => hjj hc.symm)]
        exact h1
      · rw [h3]
        simp only [List.length_append, List.length_singleton]
        unfold SEGMENT_SIZE at hjj hj1 ⊢
        omega
      · intro o ho
        rw [h4 o ho, getD_snoc, if_neg]
        unfold SEGMENT_SIZE at hjj hj1 ho ⊢
        omega
  · show (segment_addrs (v1.segments_.set _ _)).Pairwise apart
    rw [hsa]
    exact h.apart
  · intro a ha
    have ha1 : a ∈ segment_addrs (v1.segments_.set (vs.length / SEGMENT_SIZE)
        (some { addr := seg.addr, data := seg.data.set (vs.length % SEGMENT_SIZE) x,
                size := seg.size + 1 })) := ha
    rw [hsa] at ha1
    exact h.inside a ha1
  · show v1.size_ + 1 = fill_sum (v1.segments_.set _ _)
    have := fill_sum_set v1.segments_ (vs.length / SEGMENT_SIZE) seg
      { addr := seg.addr, data := seg.data.set (vs.length % SEGMENT_SIZE) x,
        size := seg.size + 1 } hseg
    have hf := h.fill
    simp only at this
    omega

/-- The new vector is well formed for no values. -/
theorem vector_new_wf [Inhabited T] : WF (new : concurrent_vector T) [] where
  size := rfl
  table := by simp [new, SEGMENT_SIZE]
  segment := by
    intro j hj
    simp [SEGMENT_SIZE] at hj
  apart := by simp [new, segment_addrs]
  inside := by
    intro a ha
    simp [new, segment_addrs] at ha
  fill := rfl

/-- In a well-formed state `push_back` is defined, and the state afterwards is well formed
for the values with the new one appended. -/
theorem push_back_wf [Inhabited T] (p : Nat) (x : T) (v : concurrent_vector T) (vs : List T)
    (hwf : WF v vs) (halloc : needs_segment v = true → allocatable v p) :
    ∃ v2, push_back p x v = some v2 ∧ WF v2 (vs ++ [x]) ∧ v2.size_ = v.size_ + 1 := by
  have h1 := ensure_segment_inv p v vs hwf halloc
  have hsize := hwf.size
  rw [hsize] at h1
  obtain ⟨seg, hseg, hoff, _, hs2, hwf2⟩ := write_inv x _ vs h1
  refine ⟨_, ?_, hwf2, ?_⟩
  · simp only [push_back, hsize, hseg, hoff, if_true]
  · show fetch_add_one (ensure_segment p (vs.length / SEGMENT_SIZE) v).size_ = v.size_ + 1
    rw [hs2, h1.size, hsize]

/-- Every reachable vector state is well formed for some list of values. -/
theorem vector_reachable_wf [Inhabited T] (v : concurrent_vector T) (h : Reachable v) :
    ∃ vs, WF v vs := by
  induction h with
  | new => exact ⟨[], vector_new_wf⟩
  | push_back v v1 p x _ halloc hpush ih =>
    obtain ⟨vs, hwf⟩ := ih
    obtain ⟨v2, h2, hwf2, _⟩ := push_back_wf p x v vs hwf halloc
    rw [hpush] at h2
    cases h2
    exact ⟨_, hwf2⟩

/-- A sequence of `push_back` calls from a well-formed state is defined and appends its
values. -/
theorem push_back_all_wf [Inhabited T] :
    ∀ (calls : List (Nat × T)) (v : concurrent_vector T) (vs : List T), WF v vs →
      alloc_ok calls v = true →
      ∃ v2, push_back_all calls v = some v2 ∧ WF v2 (vs ++ calls.map Prod.snd) ∧
        (Reachable v → Reachable v2)
  | [], v, vs, hwf, _ => ⟨v, rfl, by simpa using hwf, fun h => h⟩
  | (p, x) :: calls, v, vs, hwf, hok => by
    simp only [alloc_ok, Bool.and_eq_true, Bool.or_eq_true, Bool.not_eq_true',
      decide_eq_true_eq] at hok
    have halloc : needs_segment v = true → allocatable v p := by
      intro hn
      rcases hok.1 with h | h
      · rw [hn] at h; cases h
      · exact h
    obtain ⟨v1, hpush, hwf1, _⟩ := push_back_wf p x v vs hwf halloc
    have hrest := hok.2
    rw [hpush] at hrest
    obtain ⟨v2, hall, hwf2, hreach⟩ := push_back_all_wf calls v1 _ hwf1 hrest
    refine ⟨v2, ?_, ?_, ?_⟩
    · simp only [push_back_all, hpush, hall]
    · simpa using hwf2
    · intro hr
      exact hreach (Reachable.push_back v v1 p x hr halloc hpush)

/-- In a well-formed state `push_back` makes a segment only when the number of values is a
multiple of `SEGMENT_SIZE`. -/
theorem needs_segment_mod [Inhabited T] (v : concurrent_vector T) (vs : List T)
    (hwf : WF v vs) (hn : needs_segment v = true) : vs.length % SEGMENT_SIZE = 0 := by
  by_contra hmod
  have hj : vs.length / SEGMENT_SIZE < (vs.length + (SEGMENT_SIZE - 1)) / SEGMENT_SIZE := by
    unfold SEGMENT_SIZE at hmod ⊢; omega
  obtain ⟨seg, h1, _⟩ := hwf.segment _ hj
  unfold needs_segment at hn
  rw [hwf.size, h1] at hn
  cases hn

/-- The addresses of the segments after `push_back`: the address given to the call is added
when the number of values is a multiple of `SEGMENT_SIZE`, and nothing changes otherwise. -/
theorem push_back_addrs [Inhabited T] (p : Nat) (x : T) (v v1 : concurrent_vector T)
    (vs : List T) (hwf : WF v vs) (halloc : needs_segment v = true → allocatable v p)
    (hpush : push_back p x v = some v1) :
    segment_addrs v1.segments_ =
      if vs.length % SEGMENT_SIZE = 0 then segment_addrs v.segments_ ++ [p]
      else segment_addrs v.segments_ := by
  have h1 := ensure_segment_inv p v vs hwf halloc
  have hsize := hwf.size
  rw [hsize] at h1
  obtain ⟨seg, hseg, hoff, _, _, _⟩ := write_inv x _ vs h1
  simp only [push_back, hsize, hseg, hoff, if_true, Option.some.injEq] at hpush
  rw [← hpush]
  simp only
  rw [segment_addrs_set _ _ seg
    { addr := seg.addr, data := seg.data.set (vs.length % SEGMENT_SIZE) x,
      size := fetch_add_one seg.size } hseg rfl]
  by_cases hmod : vs.length % SEGMENT_SIZE = 0
  · rw [if_pos hmod]
    have hlen : v.segments_.length = vs.length / SEGMENT_SIZE := by
      rw [hwf.table]; unfold SEGMENT_SIZE at hmod ⊢; omega
    rw [ensure_segment_grow p _ v hlen]
    simp only
    rw [segment_addrs_append]
    rfl
  · rw [if_neg hmod]
    have hj : vs.length / SEGMENT_SIZE < (vs.length + (SEGMENT_SIZE - 1)) / SEGMENT_SIZE := by
      unfold SEGMENT_SIZE at hmod ⊢; omega
    obtain ⟨seg0, h0, _⟩ := hwf.segment _ hj
    rw [ensure_segment_present p _ v seg0 h0]

theorem spaced_calls_values (start : Nat) (xs : List T) :
    (spaced_calls start xs).map Prod.snd = xs := by
  induction xs generalizing start with
  | nil => rfl
  | cons x xs ih => simp [spaced_calls, ih]

/-- The allocator's contract is met by the calls `spaced_calls`, as long as the segments fit
the address space. -/
theorem alloc_ok_spaced_from [Inhabited T] :
    ∀ (xs : List T) (v : concurrent_vector T) (vs : List T), WF v vs →
      segment_addrs v.segments_ =
        (List.range v.segments_.length).map (fun j => 16 + 2000 * j) →
      16 + 2000 * ((vs.length + xs.length) / SEGMENT_SIZE + 1) ≤ SIZE_MOD →
      alloc_ok (spaced_calls vs.length xs) v = true
  | [], _, _, _, _, _ => rfl
  | x :: xs, v, vs, hwf, haddrs, hfit => by
    have hle : vs.length / SEGMENT_SIZE ≤ (vs.length + (x :: xs).length) / SEGMENT_SIZE :=
      Nat.div_le_div_right (by omega)
    have halloc : needs_segment v = true →
        allocatable v (16 + 2000 * (vs.length / SEGMENT_SIZE)) := by
      intro hn
      have hmod := needs_segment_mod v vs hwf hn
      have hlen : v.segments_.length = vs.length / SEGMENT_SIZE := by
        rw [hwf.table]; unfold SEGMENT_SIZE at hmod ⊢; omega
      refine ⟨by unfold nullptr; omega, ?_, ?_⟩
      · unfold SEGMENT_BYTES SEGMENT_SIZE at *
        omega
      · intro a ha
        rw [haddrs, hlen] at ha
        obtain ⟨j, hj, rfl⟩ := List.mem_map.mp ha
        have hj1 := List.mem_range.mp hj
        right
        unfold SEGMENT_BYTES SEGMENT_SIZE at *
        omega
    obtain ⟨v1, hpush, hwf1, _⟩ :=
      push_back_wf (16 + 2000 * (vs.length / SEGMENT_SIZE)) x v vs hwf halloc
    have ha1 := push_back_addrs _ x v v1 vs hwf halloc hpush
    have haddrs1 : segment_addrs v1.segments_ =
        (List.range v1.segments_.length).map (fun j => 16 + 2000 * j) := by
      rw [ha1, hwf1.table]
      have ht := hwf.table
      simp only [List.length_append, List.length_singleton]
      by_cases hmod : vs.length % SEGMENT_SIZE = 0
      · rw [if_pos hmod, haddrs, ht]
        have e1 : (vs.length + 1 + (SEGMENT_SIZE - 1)) / SEGMENT_SIZE =
            (vs.length + (SEGMENT_SIZE - 1)) / SEGMENT_SIZE + 1 := by
          unfold SEGMENT_SIZE at hmod ⊢; omega
        have e2 : (vs.length + (SEGMENT_SIZE - 1)) / SEGMENT_SIZE =
            vs.length / SEGMENT_SIZE := by
          unfold SEGMENT_SIZE at hmod ⊢; omega
        rw [e1, List.range_succ, List.map_append, e2]
        rfl
      · rw [if_neg hmod, haddrs, ht]
        have e1 : (vs.length + 1 + (SEGMENT_SIZE - 1)) / SEGMENT_SIZE =
            (vs.length + (SEGMENT_SIZE - 1)) / SEGMENT_SIZE := by
          unfold SEGMENT_SIZE at hmod ⊢; omega
        rw [e1]
    have hfit1 : 16 + 2000 * (((vs ++ [x]).length + xs.length) / SEGMENT_SIZE + 1) ≤
        SIZE_MOD := by
      have e : (vs ++ [x]).length + xs.length = vs.length + (x :: xs).length := by
        simp; omega
      rw [e]; exact hfit
    have ih := alloc_ok_spaced_from xs v1 (vs ++ [x]) hwf1 haddrs1 hfit1
    have e3 : (vs ++ [x]).length = vs.length + 1 := by simp
    rw [e3] at ih
    simp only [spaced_calls, alloc_ok, hpush, ih, Bool.and_true, Bool.or_eq_true,
      Bool.not_eq_true', decide_eq_true_eq]
    cases hn : needs_segment v with
    | false => exact Or.inl rfl
    | true => exact Or.inr (halloc hn)

/-- The calls `spaced_calls 0 xs` on a new vector meet the allocator's contract, as long as
the segments fit the address space. -/
theorem alloc_ok_spaced [Inhabited T] (xs : List T)
    (hfit : 16 + 2000 * (xs.length / SEGMENT_SIZE + 1) ≤ SIZE_MOD) :
    alloc_ok (spaced_calls 0 xs) (new : concurrent_vector T) = true := by
  have h := alloc_ok_spaced_from xs (new : concurrent_vector T) [] vector_new_wf rfl
    (by simpa using hfit)
  exact h

/-- `at(index)` reads slot `index % SEGMENT_SIZE` of segment `index / SEGMENT_SIZE`. -/
theorem at_slot (index : Nat) (v : concurrent_vector T) (seg : Segment T) (y : T)
    (hi : index < v.size) (hseg : v.segments_[index / SEGMENT_SIZE]? = some (some seg))
    (hy : seg.data[index % SEGMENT_SIZE]? = some y) : at_ index v = .value y := by
  have h1 : ¬ index ≥ v.size := by omega
  simp only [at_, h1, if_false, hseg, hy]

/-- In a well-formed state `at` delivers the values in the order they were appended and
throws for every other index. -/
theorem at_wf [Inhabited T] (v : concurrent_vector T) (vs : List T) (hwf : WF v vs)
    (index : Nat) :
    at_ index v = if index < vs.length then .value (vs.getD index default) else .out_of_range := by
  by_cases hi : index < vs.length
  · rw [if_pos hi]
    have hj : index / SEGMENT_SIZE < (vs.length + (SEGMENT_SIZE - 1)) / SEGMENT_SIZE := by
      unfold SEGMENT_SIZE; omega
    obtain ⟨seg, h1, _, _, h4⟩ := hwf.segment _ hj
    have h5 := h4 (index % SEGMENT_SIZE) (Nat.mod_lt _ (by decide))
    rw [Nat.div_add_mod' index SEGMENT_SIZE] at h5
    exact at_slot index v seg _ (by show index < v.size_; rw [hwf.size]; exact hi) h1 h5
  · rw [if_neg hi]
    have h1 : index ≥ v.size := by
      show index ≥ v.size_
      rw [hwf.size]; omega
    simp only [at_, h1, if_true]

/-- C16 (vector read-back).  For every sequence of `push_back` calls executed one at a time
on a new vector (any number of them, so that any number of segments is used; the allocator
keeping its contract), every call is defined, and afterwards `at(i)` returns the `i`-th
appended value for every `i` below the number of calls. -/
theorem vector_read_back [Inhabited T] (calls : List (Nat × T))
    (halloc : alloc_ok calls (new : concurrent_vector T) = true) :
    ∃ v, push_back_all calls new = some v ∧
      ∀ (i : Nat) (x : T), (calls.map Prod.snd)[i]? = some x → at_ i v = .value x := by
  obtain ⟨v, hall, hwf, _⟩ := push_back_all_wf calls new [] vector_new_wf halloc
  refine ⟨v, hall, ?_⟩
  intro i x hx
  rw [List.nil_append] at hwf
  have hi : i < (calls.map Prod.snd).length := by
    by_contra h
    rw [List.getElem?_eq_none (by omega)] at hx
    cases hx
  rw [at_wf v _ hwf i, if_pos hi, List.getD_eq_getElem?_getD, hx]
  rfl

/-- Witness for C16: `push_back(0)`, ..., `push_back(1999)` on a new vector, which uses two
segments (allocated at the addresses 16 and 2016), then `at(i) == i` for every `i < 2000`. -/
theorem vector_read_back_witness :
    alloc_ok (spaced_calls 0 (List.range 2000)) (new : concurrent_vector Nat) = true ∧
    ∃ v, push_back_all (spaced_calls 0 (List.range 2000)) (new : concurrent_vector Nat) =
        some v ∧
      ∀ i : Nat, i < 2000 → at_ i v = .value i := by
  have hfit : 16 + 2000 * ((List.range 2000).length / SEGMENT_SIZE + 1) ≤ SIZE_MOD := by
    rw [List.length_range]; decide
  have hok := alloc_ok_spaced (List.range 2000) hfit
  obtain ⟨v, h1, h2⟩ := vector_read_back (spaced_calls 0 (List.range 2000)) hok
  refine ⟨hok, v, h1, fun i hi => h2 i i ?_⟩
  rw [spaced_calls_values, List.getElem?_range hi]

/-- C18 (vector size tracking).  A new vector has `size()` 0 and is empty.  After `n`
`push_back` calls executed one at a time `size()` is `n` and `empty()` holds exactly when
`n = 0`; a further `push_back` is defined and makes `size()` one larger. -/
theorem vector_size_tracking [Inhabited T] (calls : List (Nat × T))
    (halloc : alloc_ok calls (new : concurrent_vector T) = true) :
    (new : concurrent_vector T).size = 0 ∧ (new : concurrent_vector T).empty = true ∧
    ∃ v, push_back_all calls new = some v ∧ v.size = calls.length ∧
      (v.empty = true ↔ calls.length = 0) ∧
      ∀ new_segment value, (needs_segment v = true → allocatable v new_segment) →
        ∃ v1, push_back new_segment value v = some v1 ∧ v1.size = v.size + 1 := by
  obtain ⟨v, hall, hwf, _⟩ := push_back_all_wf calls new [] vector_new_wf halloc
  have hsize : v.size = calls.length := by
    show v.size_ = _
    rw [hwf.size]; simp
  refine ⟨rfl, rfl, v, hall, hsize, ?_, ?_⟩
  · simp only [empty, beq_iff_eq, hsize]
  · intro p x hp
    obtain ⟨v1, h1, _, h3⟩ := push_back_wf p x v _ hwf hp
    exact ⟨v1, h1, h3⟩

set_option maxRecDepth 100000 in
/-- Witness for C18, on the scenario of the test `ConcurrentVectorTest.BasicOperations`:
`push_back(1)` on a new vector gives size 1, a non-empty vector and `at(0) == 1`. -/
theorem vector_size_tracking_witness :
    alloc_ok [(16, 1)] (new : concurrent_vector Nat) = true ∧
    (push_back 16 1 (new : concurrent_vector Nat)).map (fun v => (v.size, v.empty, at_ 0 v)) =
      some (1, false, Access.value 1) ∧
    ((new : concurrent_vector Nat).size = 0 ∧ (new : concurrent_vector Nat).empty = true ∧
     ∃ v, push_back_all [(16, 1)] (new : concurrent_vector Nat) = some v ∧
      v.size = [(16, 1)].length ∧
      (v.empty = true ↔ [(16, 1)].length = 0) ∧
      ∀ new_segment value, (needs_segment v = true → allocatable v new_segment) →
        ∃ v1, push_back new_segment value v = some v1 ∧ v1.size = v.size + 1) :=
  ⟨by decide, by decide, vector_size_tracking [(16, 1)] (by decide)⟩

/-- C19 (vector index mapping).  In every reachable state, `push_back(value)` observing
size `i` stores `value` in slot `i % 1024` of segment `i / 1024`, and `at(i)` afterwards
returns it; `at(index)` reads slot `index % 1024` of segment `index / 1024`.  The offset is
below `SEGMENT_SIZE`, the number of slots of a segment; `i = segment * 1024 + offset`, and two
indices with the same segment and offset are equal. -/
theorem vector_index_mapping [Inhabited T] (v : concurrent_vector T) (hv : Reachable v)
    (new_segment : Nat) (value : T)
    (halloc : needs_segment v = true → allocatable v new_segment) :
    (∃ v1 seg, push_back new_segment value v = some v1 ∧
      v1.segments_[v.size / SEGMENT_SIZE]? = some (some seg) ∧
      seg.data.length = SEGMENT_SIZE ∧
      seg.data[v.size % SEGMENT_SIZE]? = some value ∧
      at_ v.size v1 = .value value) ∧
    (∀ (index : Nat) (w : concurrent_vector T) (seg : Segment T) (y : T), index < w.size →
      w.segments_[index / SEGMENT_SIZE]? = some (some seg) →
      seg.data[index % SEGMENT_SIZE]? = some y → at_ index w = .value y) ∧
    (∀ i : Nat, i % SEGMENT_SIZE < SEGMENT_SIZE ∧
      i = i / SEGMENT_SIZE * SEGMENT_SIZE + i % SEGMENT_SIZE) ∧
    (∀ i j : Nat, i / SEGMENT_SIZE = j / SEGMENT_SIZE → i % SEGMENT_SIZE = j % SEGMENT_SIZE →
      i = j) := by
  obtain ⟨vs, hwf⟩ := vector_reachable_wf v hv
  have hsize : v.size = vs.length := hwf.size
  refine ⟨?_, fun index w seg y => at_slot index w seg y, ?_, ?_⟩
  · obtain ⟨v1, h1, hwf1, _⟩ := push_back_wf new_segment value v vs hwf halloc
    have hj : vs.length / SEGMENT_SIZE <
        ((vs ++ [value]).length + (SEGMENT_SIZE - 1)) / SEGMENT_SIZE := by
      simp only [List.length_append, List.length_singleton]
      unfold SEGMENT_SIZE; omega
    obtain ⟨seg, h2, h3, _, h5⟩ := hwf1.segment _ hj
    have h6 := h5 (vs.length % SEGMENT_SIZE) (Nat.mod_lt _ (by decide))
    rw [Nat.div_add_mod' vs.length SEGMENT_SIZE, getD_snoc, if_pos rfl] at h6
    rw [hsize]
    refine ⟨v1, seg, h1, h2, h3, h6, ?_⟩
    rw [at_wf v1 _ hwf1, if_pos (by simp), getD_snoc, if_pos rfl]
  · intro i
    exact ⟨Nat.mod_lt _ (by decide), (Nat.div_add_mod' i SEGMENT_SIZE).symm⟩
  · intro i j h1 h2
    rw [← Nat.div_add_mod' i SEGMENT_SIZE, ← Nat.div_add_mod' j SEGMENT_SIZE, h1, h2]

/-- Witness for C19: the first `push_back` on a new vector. -/
theorem vector_index_mapping_witness :
    Reachable (new : concurrent_vector Nat) ∧
    (needs_segment (new : concurrent_vector Nat) = true →
      allocatable (new : concurrent_vector Nat) 16) ∧
    ∃ v1 seg, push_back 16 7 (new : concurrent_vector Nat) = some v1 ∧
      v1.segments_[(new : concurrent_vector Nat).size / SEGMENT_SIZE]? = some (some seg) ∧
      seg.data.length = SEGMENT_SIZE ∧
      seg.data[(new : concurrent_vector Nat).size % SEGMENT_SIZE]? = some 7 ∧
      at_ (new : concurrent_vector Nat).size v1 = .value 7 :=
  ⟨Reachable.new, fun _ => by decide,
    (vector_index_mapping new Reachable.new 16 7 (fun _ => by decide)).1⟩

/-- C20 (vector size equals the sum of the segment fill counts).  In every state reached by
`push_back` calls executed one at a time on a new vector, `size()` is the sum, over the
allocated segments, of the segment's counter of filled slots. -/
theorem vector_size_is_fill_sum [Inhabited T] (v : concurrent_vector T) (hv : Reachable v) :
    v.size = fill_sum v.segments_ := by
  obtain ⟨vs, hwf⟩ := vector_reachable_wf v hv
  exact hwf.fill

set_option maxRecDepth 100000 in
/-- Witness for C20: the vector after `push_back(7)` and `push_back(8)`. -/
theorem vector_size_is_fill_sum_witness :
    ∃ v, push_back_all [(16, 7), (0, 8)] (new : concurrent_vector Nat) = some v ∧
      Reachable v ∧ v.size = 2 ∧ v.size = fill_sum v.segments_ := by
  obtain ⟨v, h1, h2, h3⟩ :=
    push_back_all_wf [(16, 7), (0, 8)] (new : concurrent_vector Nat) [] vector_new_wf (by decide)
  exact ⟨v, h1, h3 Reachable.new, h2.size, vector_size_is_fill_sum v (h3 Reachable.new)⟩

/-- `ensure_segment` keeps every entry of the table that is an allocated segment. -/
theorem ensure_segment_keeps [Inhabited T] (p j k : Nat) (v : concurrent_vector T)
    (seg : Segment T) (hk : v.segments_[k]? = some (some seg)) :
    (ensure_segment p j v).segments_[k]? = some (some seg) := by
  have hklt : k < v.segments_.length := by
    by_contra h
    rw [List.getElem?_eq_none (by omega)] at hk
    cases hk
  unfold ensure_segment
  simp only
  have hres : ∀ n, v.segments_.length ≤ n → (resize v.segments_ n)[k]? = some (some seg) := by
    intro n hn
    unfold resize
    rw [List.getElem?_take_of_lt (by omega), List.getElem?_append_left hklt]
    exact hk
  by_cases hj : j ≥ v.segments_.length
  · simp only [hj, if_true]
    cases h1 : (resize v.segments_ (j + 1))[j]? with
    | none => simp only; exact hres _ (by omega)
    | some e =>
      cases e with
      | some s => simp only; exact hres _ (by omega)
      | none =>
        simp only
        rw [List.getElem?_set_ne (by omega)]
        exact hres _ (by omega)
  · simp only [hj, if_false]
    cases h1 : v.segments_[j]? with
    | none => simp only; exact hk
    | some e =>
      cases e with
      | some s => simp only; exact hk
      | none =>
        simp only
        have hne : j ≠ k := by
          intro h; subst h; rw [hk] at h1; cases h1
        rw [List.getElem?_set_ne hne]
        exact hk

theorem push_back_locked_events [Inhabited T] (new_segment : Nat) (value : T)
    (v : concurrent_vector T) :
    (push_back_locked new_segment value v).1 = [LockEvent.unique_lock] := by
  unfold push_back_locked
  simp only [ensure_segment_locked]
  split
  · split <;> rfl
  · rfl

theorem push_back_locked_result [Inhabited T] (new_segment : Nat) (value : T)
    (v : concurrent_vector T) :
    (push_back_locked new_segment value v).2 = push_back new_segment value v := by
  unfold push_back_locked push_back
  simp only [ensure_segment_locked]
  cases (ensure_segment new_segment (v.size_ / SEGMENT_SIZE) v).segments_[v.size_ / SEGMENT_SIZE]? with
  | none => rfl
  | some e =>
    cases e with
    | none => rfl
    | some segment =>
      simp only []
      split <;> rfl

set_option maxRecDepth 100000 in
theorem one_element_reachable : Reachable one_element :=
  Reachable.push_back new one_element 16 7 Reachable.new (fun _ => by decide) (by decide)

set_option maxRecDepth 100000 in
/-- Counterexample for C22: on the reachable vector `one_element` the target segment of the
next `push_back` is allocated, and `push_back` still acquires the exclusive lock. -/
theorem vector_lock_only_for_growth_counterexample :
    ¬ (∀ (v : concurrent_vector Nat), Reachable v → needs_segment v = false →
        ∀ new_segment value,
          LockEvent.unique_lock ∉ (push_back_locked new_segment value v).1) := by
  intro h
  have h1 := h one_element one_element_reachable (by decide) 0 8
  rw [push_back_locked_events] at h1
  exact h1 (List.mem_singleton.mpr rfl)

/-- C22, as amended.  Every `push_back` acquires the vector's exclusive lock exactly once, in
`ensure_segment`, whether or not the target segment is allocated, and takes no other lock;
when the target segment is allocated, `ensure_segment` holds the lock without changing the
table.  The lock events are those of `push_back` itself: the second component of
`push_back_locked` is `push_back`. -/
theorem vector_lock_on_every_append [Inhabited T] (new_segment : Nat) (value : T)
    (v : concurrent_vector T) :
    (push_back_locked new_segment value v).1 = [LockEvent.unique_lock] ∧
    (push_back_locked new_segment value v).2 = push_back new_segment value v ∧
    (needs_segment v = false →
      ensure_segment_locked new_segment (v.size_ / SEGMENT_SIZE) v =
        ([LockEvent.unique_lock], v)) := by
  refine ⟨push_back_locked_events _ _ _, push_back_locked_result _ _ _, ?_⟩
  intro hn
  unfold needs_segment at hn
  cases hseg : v.segments_[v.size_ / SEGMENT_SIZE]? with
  | none => rw [hseg] at hn; cases hn
  | some e =>
    cases e with
    | none => rw [hseg] at hn; cases hn
    | some seg =>
      simp only [ensure_segment_locked]
      rw [ensure_segment_present new_segment _ v seg hseg]

theorem resize_getElem? (l : List (Option (Segment T))) (n k : Nat) (seg : Segment T)
    (h : (resize l n)[k]? = some (some seg)) : l[k]? = some (some seg) := by
  unfold resize at h
  by_cases hk : k < n
  · rw [List.getElem?_take_of_lt hk] at h
    by_cases hk2 : k < l.length
    · rw [List.getElem?_append_left hk2] at h
      exact h
    · rw [List.getElem?_append_right (by omega), List.getElem?_replicate] at h
      split at h <;> cases h
  · rw [List.getElem?_eq_none (by simp; omega)] at h
    cases h

theorem resize_length (l : List (Option (Segment T))) (n : Nat) (h : l.length ≤ n) :
    (resize l n).length = n := by
  unfold resize
  simp
  omega

theorem ensure_segment_sized [Inhabited T] (p j : Nat) (v : concurrent_vector T)
    (hs : Sized v) : Sized (ensure_segment p j v) ∧ present (ensure_segment p j v) j := by
  have key : ∀ segs1 : List (Option (Segment T)), j < segs1.length →
      (∀ (k : Nat) (seg : Segment T), segs1[k]? = some (some seg) →
        v.segments_[k]? = some (some seg)) →
      Sized { segments_ := (match segs1[j]? with
                | some none => segs1.set j (some (Segment.init p))
                | _ => segs1), size_ := v.size_ } ∧
      present { segments_ := (match segs1[j]? with
                | some none => segs1.set j (some (Segment.init p))
                | _ => segs1), size_ := v.size_ } j := by
    intro segs1 hj hfrom
    have hget : segs1[j]? = some segs1[j] := List.getElem?_eq_getElem hj
    cases hcase : segs1[j] with
    | none =>
      rw [hcase] at hget
      rw [hget]
      constructor
      · intro k seg hk
        simp only at hk
        by_cases hkj : j = k
        · subst hkj
          rw [List.getElem?_set_self hj] at hk
          cases hk
          simp [Segment.init]
        · rw [List.getElem?_set_ne hkj] at hk
          exact hs k seg (hfrom k seg hk)
      · exact ⟨Segment.init p, by simp only; rw [List.getElem?_set_self hj]⟩
    | some seg0 =>
      rw [hcase] at hget
      rw [hget]
      constructor
      · intro k seg hk
        exact hs k seg (hfrom k seg hk)
      · exact ⟨seg0, hget⟩
  unfold ensure_segment
  simp only
  by_cases hlen : j ≥ v.segments_.length
  · rw [if_pos hlen]
    exact key _ (by rw [resize_length _ _ (by omega)]; omega)
      (fun k seg h => resize_getElem? _ _ _ _ h)
  · rw [if_neg hlen]
    exact key _ (by omega) (fun k seg h => h)

theorem ensure_segment_size_ [Inhabited T] (p j : Nat) (v : concurrent_vector T) :
    (ensure_segment p j v).size_ = v.size_ := rfl

theorem present_ensure_segment [Inhabited T] (p j k : Nat) (v : concurrent_vector T)
    (h : present v k) : present (ensure_segment p j v) k := by
  obtain ⟨seg, hseg⟩ := h
  exact ⟨seg, ensure_segment_keeps p j k v seg hseg⟩

theorem set_segment_sized (v : concurrent_vector T) (j n : Nat) (seg seg1 : Segment T)
    (hseg : v.segments_[j]? = some (some seg)) (hlen : seg1.data.length = seg.data.length)
    (hs : Sized v) :
    Sized { segments_ := v.segments_.set j (some seg1), size_ := n } ∧
    ∀ k, present v k → present { segments_ := v.segments_.set j (some seg1), size_ := n } k := by
  have hj : j < v.segments_.length := by
    by_contra h
    rw [List.getElem?_eq_none (by omega)] at hseg
    cases hseg
  constructor
  · intro k sg hk
    simp only at hk
    by_cases hkj : j = k
    · subst hkj
      rw [List.getElem?_set_self hj] at hk
      cases hk
      rw [hlen]
      exact hs j seg hseg
    · rw [List.getElem?_set_ne hkj] at hk
      exact hs k sg hk
  · intro k hk
    by_cases hkj : j = k
    · subst hkj
      exact ⟨seg1, by simp only; rw [List.getElem?_set_self hj]⟩
    · obtain ⟨sg, hsg⟩ := hk
      exact ⟨sg, by simp only; rw [List.getElem?_set_ne hkj]; exact hsg⟩

/-- A statement of a thread, run on the current table, does not dereference a null segment
pointer or index out of range on a vector that satisfies the invariant, and keeps the
invariant.  (The data race on `segments_` is the matter of `sys_step_checked`.) -/
theorem thread_step_inv [Inhabited T] (p : Nat) (t : Thread T) (v : concurrent_vector T)
    (hs : Sized v) (hr : v.size_ < SIZE_MOD) (ht : ∀ j, t.target = some j → present v j) :
    ∃ t1 v1, thread_step p t v = some (t1, v1) ∧ Sized v1 ∧ v1.size_ < SIZE_MOD ∧
      (∀ j, present v j → present v1 j) ∧ (∀ j, t1.target = some j → present v1 j) ∧
      (v1.size_ + t1.pending) % SIZE_MOD = (v.size_ + t.pending) % SIZE_MOD ∧
      t1.remaining_steps = t.remaining_steps - 1 := by
  obtain ⟨todo, pc⟩ := t
  cases pc with
  | idle =>
    cases todo with
    | nil =>
      exact ⟨_, _, rfl, hs, hr, fun _ h => h, ht, rfl, rfl⟩
    | cons value rest =>
      refine ⟨_, _, rfl, hs, hr, fun _ h => h, ?_, ?_, ?_⟩
      · intro j hj
        cases hj
      · simp only [Thread.pending, List.length_cons]
      · simp only [Thread.remaining_steps, List.length_cons]
        omega
  | loaded value cs =>
    have h1 := ensure_segment_sized p (cs / SEGMENT_SIZE) v hs
    refine ⟨_, _, rfl, h1.1, hr, fun j h => present_ensure_segment p _ j v h, ?_, rfl, ?_⟩
    · intro j hj
      simp only [Thread.target, Option.some.injEq] at hj
      subst hj
      exact h1.2
    · simp only [Thread.remaining_steps]
      omega
  | ensured value cs =>
    obtain ⟨seg, hseg⟩ := ht _ rfl
    have hlen := hs _ seg hseg
    have hoff : cs % SEGMENT_SIZE < seg.data.length := by
      rw [hlen]
      exact Nat.mod_lt _ (by decide)
    have h1 := set_segment_sized v (cs / SEGMENT_SIZE) v.size_ seg
      { addr := seg.addr, data := seg.data.set (cs % SEGMENT_SIZE) value, size := seg.size }
      hseg (by simp) hs
    refine ⟨{ todo := todo, pc := .written cs }, _, ?_, h1.1, hr, h1.2, ?_, rfl, ?_⟩
    · simp only [thread_step, hseg, if_pos hoff]
    · intro j hj
      simp only [Thread.target, Option.some.injEq] at hj
      subst hj
      exact h1.2 _ ⟨seg, hseg⟩
    · simp only [Thread.remaining_steps]
      omega
  | written cs =>
    obtain ⟨seg, hseg⟩ := ht _ rfl
    have h1 := set_segment_sized v (cs / SEGMENT_SIZE) v.size_ seg
      { addr := seg.addr, data := seg.data, size := fetch_add_one seg.size }
      hseg rfl hs
    refine ⟨{ todo := todo, pc := .counted }, _, ?_, h1.1, hr, h1.2, ?_, rfl, ?_⟩
    · simp only [thread_step, hseg]
    · intro j hj
      cases hj
    · simp only [Thread.remaining_steps]
      omega
  | counted =>
    refine ⟨{ todo := todo, pc := .idle }, _, rfl, hs, ?_, fun _ h => h, ?_, ?_, ?_⟩
    · exact Nat.mod_lt _ (by decide)
    · intro j hj
      cases hj
    · simp only [Thread.pending, fetch_add_one, SIZE_MOD]
      omega
    · simp only [Thread.remaining_steps]
      omega

theorem pending_sum_set (t t1 : Thread T) :
    ∀ (threads : List (Thread T)) (i : Nat), threads[i]? = some t →
      pending_sum (threads.set i t1) + t.pending = pending_sum threads + t1.pending
  | [], i, h => by simp at h
  | t0 :: rest, 0, h => by
    simp only [List.getElem?_cons_zero, Option.some.injEq] at h
    subst h
    simp only [List.set_cons_zero, pending_sum]
    omega
  | t0 :: rest, i + 1, h => by
    simp only [List.getElem?_cons_succ] at h
    have ih := pending_sum_set t t1 rest i h
    simp only [List.set_cons_succ, pending_sum]
    omega

/-- A step of `sys_step`, which has no check for the data race on `segments_`, returns a
state in a state that satisfies the invariant, keeps the invariant, and is one step of the
thread it names. -/
theorem sys_step_inv [Inhabited T] (e : Nat × Nat) (s : System T) (total : Nat)
    (h : SysInv s total) :
    ∃ s1, sys_step e s = some s1 ∧ SysInv s1 total ∧
      ∀ i, s1.remaining i = if e.1 = i then s.remaining i - 1 else s.remaining i := by
  unfold sys_step
  cases hth : s.threads[e.1]? with
  | none =>
    refine ⟨s, rfl, h, ?_⟩
    intro i
    split
    · rename_i hi
      subst hi
      simp only [System.remaining, hth]
    · rfl
  | some t =>
    have hlt : e.1 < s.threads.length := by
      by_contra hc
      rw [List.getElem?_eq_none (by omega)] at hth
      cases hth
    have hmem : t ∈ s.threads := List.getElem?_mem hth
    obtain ⟨t1, v1, hstep, hs1, hr1, hpres, htar, hcount, hrem⟩ :=
      thread_step_inv e.2 t s.v h.sized h.range (h.targets t hmem)
    refine ⟨{ v := v1, threads := s.threads.set e.1 t1 }, by simp only [hstep], ?_, ?_⟩
    · refine ⟨hs1, ?_, hr1, ?_⟩
      · intro t2 ht2 j hj
        rcases List.mem_or_eq_of_mem_set ht2 with hin | heq
        · exact hpres j (h.targets t2 hin j hj)
        · subst heq
          exact htar j hj
      · have hsum := pending_sum_set t t1 s.threads e.1 hth
        have hc := h.count
        simp only [SIZE_MOD] at hcount hc ⊢
        omega
    · intro i
      by_cases hi : e.1 = i
      · subst hi
        rw [if_pos rfl]
        simp only [System.remaining, hth, List.getElem?_set_self hlt]
        exact hrem
      · rw [if_neg hi]
        simp only [System.remaining, List.getElem?_set_ne hi]

theorem steps_of_cons (i : Nat) (e : Nat × Nat) (schedule : List (Nat × Nat)) :
    steps_of i (e :: schedule) = (if e.1 = i then 1 else 0) + steps_of i schedule := by
  unfold steps_of
  by_cases h : e.1 = i
  · simp [List.filter_cons, h]
    omega
  · simp [List.filter_cons, h]

/-- Without the check for the data race on `segments_`, every schedule runs to its end from
a state that satisfies the invariant; the invariant holds at the end, and each thread has
taken its steps of the schedule. -/
theorem run_schedule_inv [Inhabited T] (total : Nat) :
    ∀ (schedule : List (Nat × Nat)) (s : System T), SysInv s total →
      ∃ s1, run_schedule schedule s = some s1 ∧ SysInv s1 total ∧
        ∀ i, s1.remaining i = s.remaining i - steps_of i schedule
  | [], s, h => ⟨s, rfl, h, fun _ => rfl⟩
  | e :: rest, s, h => by
    obtain ⟨s1, hstep, hinv1, hrem1⟩ := sys_step_inv e s total h
    obtain ⟨s2, hrun, hinv2, hrem2⟩ := run_schedule_inv total rest s1 hinv1
    refine ⟨s2, by simp only [run_schedule, hstep, hrun], hinv2, ?_⟩
    intro i
    rw [hrem2 i, hrem1 i, steps_of_cons]
    split <;> omega

theorem pending_sum_start (values : List (List T)) :
    pending_sum (values.map (fun l => ({ todo := l, pc := .idle } : Thread T))) =
      (values.map List.length).sum := by
  induction values with
  | nil => rfl
  | cons l rest ih =>
    simp only [List.map_cons, pending_sum, List.sum_cons, ih, Thread.pending]
    omega

theorem start_inv (values : List (List T)) :
    SysInv (System.start values) (values.map List.length).sum := by
  refine ⟨?_, ?_, (by show 0 < SIZE_MOD; decide), ?_⟩
  · intro j seg h
    simp [System.start, new] at h
  · intro t ht j hj
    simp only [System.start, List.mem_map] at ht
    obtain ⟨l, _, rfl⟩ := ht
    cases hj
  · simp only [System.start, new, pending_sum_start]
    simp

theorem pending_sum_finished :
    ∀ threads : List (Thread T), (∀ t ∈ threads, t.todo = [] ∧ t.pc = .idle) →
      pending_sum threads = 0
  | [], _ => rfl
  | t :: rest, h => by
    have h1 := h t (List.mem_cons_self _ _)
    have h2 := pending_sum_finished rest (fun t ht => h t (List.mem_cons_of_mem _ ht))
    simp only [pending_sum, Thread.pending, h1.1, h1.2, h2, List.length_nil]

theorem remaining_zero (t : Thread T) (h : t.remaining_steps = 0) :
    t.todo = [] ∧ t.pc = .idle := by
  obtain ⟨todo, pc⟩ := t
  cases pc <;> cases todo <;> simp [Thread.remaining_steps] at h ⊢

theorem sum_length_const (M : Nat) :
    ∀ values : List (List T), (∀ l ∈ values, l.length = M) →
      (values.map List.length).sum = values.length * M
  | [], _ => by simp
  | l :: rest, h => by
    have h1 := h l (List.mem_cons_self _ _)
    have h2 := sum_length_const M rest (fun l hl => h l (List.mem_cons_of_mem _ hl))
    simp only [List.map_cons, List.sum_cons, h1, h2, List.length_cons]
    rw [Nat.add_mul]
    omega

theorem steps_of_append (i : Nat) (l1 l2 : List (Nat × Nat)) :
    steps_of i (l1 ++ l2) = steps_of i l1 + steps_of i l2 := by
  unfold steps_of
  rw [List.filter_append, List.length_append]

/-- The five steps of a call, run without interruption, are `push_back`. -/
theorem solo_call_push_back [Inhabited T] (p : Nat) (value : T) (rest : List T)
    (v : concurrent_vector T) :
    solo_call p { todo := value :: rest, pc := .idle } v =
      (push_back p value v).map (fun v1 => ({ todo := rest, pc := .idle }, v1)) := by
  unfold solo_call
  have h1 : thread_step p { todo := value :: rest, pc := .idle } v =
      some ({ todo := rest, pc := .loaded value v.size_ }, v) := rfl
  have h2 : thread_step p { todo := rest, pc := .loaded value v.size_ } v =
      some ({ todo := rest, pc := .ensured value v.size_ },
        ensure_segment p (v.size_ / SEGMENT_SIZE) v) := rfl
  rw [h1, Option.some_bind]
  simp only []
  rw [h2, Option.some_bind]
  simp only []
  unfold push_back
  simp only []
  cases hseg : (ensure_segment p (v.size_ / SEGMENT_SIZE) v).segments_[v.size_ / SEGMENT_SIZE]? with
  | none =>
    have h3 : thread_step p { todo := rest, pc := .ensured value v.size_ }
        (ensure_segment p (v.size_ / SEGMENT_SIZE) v) = none := by
      simp only [thread_step, hseg]
    rw [h3]
    rfl
  | some e =>
    cases e with
    | none =>
      have h3 : thread_step p { todo := rest, pc := .ensured value v.size_ }
          (ensure_segment p (v.size_ / SEGMENT_SIZE) v) = none := by
        simp only [thread_step, hseg]
      rw [h3]
      rfl
    | some segment =>
      have hj : v.size_ / SEGMENT_SIZE <
          (ensure_segment p (v.size_ / SEGMENT_SIZE) v).segments_.length := by
        by_contra hc
        rw [List.getElem?_eq_none (by omega)] at hseg
        cases hseg
      by_cases hoff : v.size_ % SEGMENT_SIZE < segment.data.length
      · have h3 : thread_step p { todo := rest, pc := .ensured value v.size_ }
            (ensure_segment p (v.size_ / SEGMENT_SIZE) v) =
            some ({ todo := rest, pc := .written v.size_ },
              { segments_ := (ensure_segment p (v.size_ / SEGMENT_SIZE) v).segments_.set
                  (v.size_ / SEGMENT_SIZE)
                  (some { addr := segment.addr,
                          data := segment.data.set (v.size_ % SEGMENT_SIZE) value,
                          size := segment.size }),
                size_ := v.size_ }) := by
          simp only [thread_step, hseg, if_pos hoff, ensure_segment_size_]
        rw [h3, Option.some_bind]
        simp only []
        have h4 : thread_step p { todo := rest, pc := .written v.size_ }
            { segments_ := (ensure_segment p (v.size_ / SEGMENT_SIZE) v).segments_.set
                (v.size_ / SEGMENT_SIZE)
                (some { addr := segment.addr,
                        data := segment.data.set (v.size_ % SEGMENT_SIZE) value,
                        size := segment.size }),
              size_ := v.size_ } =
            some ({ todo := rest, pc := .counted },
              { segments_ := (ensure_segment p (v.size_ / SEGMENT_SIZE) v).segments_.set
                  (v.size_ / SEGMENT_SIZE)
                  (some { addr := segment.addr,
                          data := segment.data.set (v.size_ % SEGMENT_SIZE) value,
                          size := fetch_add_one segment.size }),
                size_ := v.size_ }) := by
          simp only [thread_step, List.getElem?_set_self hj, List.set_set]
        rw [h4, Option.some_bind]
        simp only [if_pos hoff, Option.map_some']
        rfl
      · have h3 : thread_step p { todo := rest, pc := .ensured value v.size_ }
            (ensure_segment p (v.size_ / SEGMENT_SIZE) v) = none := by
          simp only [thread_step, hseg, if_neg hoff]
        rw [h3]
        simp only [if_neg hoff]
        rfl

set_option maxRecDepth 100000 in
/-- C24.  Two threads call `push_back(1)` and `push_back(2)` on a new vector.  In the
schedule `overwrite_race` both load `size_` = 0 before either goes on (after two steps both
hold the snapshot 0).  When both have returned `size()` is 2, the one segment counts 2, slot
0 holds 2, the value 1 is stored nowhere, and slot 1, which `at(1)` now reads, holds the
value the segment was made with: it was never written. -/
theorem vector_slot_race :
    run_schedule (overwrite_race.take 2) (System.start [[1], [2]]) =
      some { v := new, threads := [{ todo := [], pc := .loaded 1 0 },
                                   { todo := [], pc := .loaded 2 0 }] } ∧
    ∃ s, run_schedule overwrite_race (System.start [[1], [2]]) = some s ∧
      s.finished ∧ size s.v = 2 ∧
      s.v.segments_ =
        [some { addr := 16, data := 2 :: List.replicate 1023 default, size := 2 }] ∧
      at_ 0 s.v = .value 2 ∧ at_ 1 s.v = .value default ∧ ∀ i, at_ i s.v ≠ .value 1 := by
  have h2 : run_schedule overwrite_race (System.start [[1], [2]]) =
      some { v := { segments_ := [some { addr := 16,
                                         data := 2 :: List.replicate 1023 default,
                                         size := 2 }],
                    size_ := 2 },
             threads := [{ todo := [], pc := .idle }, { todo := [], pc := .idle }] } := by
    decide
  refine ⟨by decide, _, h2, ?_, rfl, rfl, by decide, by decide, ?_⟩
  · intro t ht
    simp only [List.mem_cons, List.mem_singleton, List.not_mem_nil, or_false] at ht
    rcases ht with rfl | rfl <;> exact ⟨rfl, rfl⟩
  · intro i hc
    by_cases hi : i < 2
    · interval_cases i <;> (revert hc; decide)
    · unfold at_ size at hc
      rw [if_pos (by simp only; omega)] at hc
      cases hc

/-- C35 (vector segment table is well-formed in sequential use).  In every state reached by
`push_back` calls executed one at a time on a new vector: the table has
`ceil(size() / 1024)` entries; each is an allocated segment of 1024 slots whose fill counter
is at most 1024, and is 1024 unless the segment is the last; for every `index < size()`
the table entry `index / 1024` exists and is allocated, slot `index % 1024` exists, and
`at(index)` returns its content; `at` never indexes out of range or dereferences a null
entry, whatever the index; and `push_back` never does either. -/
theorem vector_table_well_formed [Inhabited T] (v : concurrent_vector T) (hv : Reachable v) :
    v.segments_.length = (v.size + (SEGMENT_SIZE - 1)) / SEGMENT_SIZE ∧
    (∀ j, j < v.segments_.length → ∃ seg, v.segments_[j]? = some (some seg) ∧
      seg.data.length = SEGMENT_SIZE ∧ seg.size ≤ SEGMENT_SIZE ∧
      (j + 1 < v.segments_.length → seg.size = SEGMENT_SIZE)) ∧
    (∀ index, index < v.size → ∃ seg x, index / SEGMENT_SIZE < v.segments_.length ∧
      v.segments_[index / SEGMENT_SIZE]? = some (some seg) ∧
      seg.data[index % SEGMENT_SIZE]? = some x ∧ at_ index v = .value x) ∧
    (∀ index, at_ index v ≠ .fault) ∧
    (∀ new_segment value, ∃ v1, push_back new_segment value v = some v1) := by
  obtain ⟨vs, hwf⟩ := vector_reachable_wf v hv
  have hsize : v.size = vs.length := hwf.size
  have htable := hwf.table
  have hsized : Sized v := by
    intro j seg hj
    have hjlt : j < v.segments_.length := by
      by_contra hc
      rw [List.getElem?_eq_none (by omega)] at hj
      cases hj
    obtain ⟨seg1, h1, h2, _⟩ := hwf.segment j (by rw [← htable]; exact hjlt)
    rw [h1] at hj
    cases hj
    exact h2
  refine ⟨by rw [htable, hsize], ?_, ?_, ?_, ?_⟩
  · intro j hj
    obtain ⟨seg, h1, h2, h3, _⟩ := hwf.segment j (by rw [← htable]; exact hj)
    refine ⟨seg, h1, h2, ?_, ?_⟩
    · rw [h3]
      exact Nat.min_le_left _ _
    · intro hj1
      rw [h3]
      rw [htable] at hj1
      simp only [SEGMENT_SIZE] at hj1 ⊢
      omega
  · intro index hi
    rw [hsize] at hi
    have hj : index / SEGMENT_SIZE < (vs.length + (SEGMENT_SIZE - 1)) / SEGMENT_SIZE := by
      simp only [SEGMENT_SIZE]
      omega
    obtain ⟨seg, h1, h2, _, h4⟩ := hwf.segment _ hj
    have ho : index % SEGMENT_SIZE < SEGMENT_SIZE := Nat.mod_lt _ (by decide)
    refine ⟨seg, _, by rw [htable]; exact hj, h1, h4 _ ho, ?_⟩
    exact at_slot index v seg _ (by rw [hsize]; exact hi) h1 (h4 _ ho)
  · intro index
    rw [at_wf v vs hwf index]
    split <;> exact fun h => by cases h
  · intro new_segment value
    obtain ⟨hs1, seg, hseg⟩ := ensure_segment_sized new_segment (v.size_ / SEGMENT_SIZE) v hsized
    have hlen := hs1 _ seg hseg
    have ho : v.size_ % SEGMENT_SIZE < seg.data.length := by
      rw [hlen]
      exact Nat.mod_lt _ (by decide)
    unfold push_back
    simp only [hseg, if_pos ho]
    exact ⟨_, rfl⟩

/-- Witness for C35: the vector after 1025 appends has two table entries, the first a full
segment. -/
theorem vector_table_well_formed_witness :
    ∃ v : concurrent_vector Nat,
      push_back_all (spaced_calls 0 (List.range 1025)) new = some v ∧ Reachable v ∧
      v.size = 1025 ∧ v.segments_.length = 2 ∧
      (∀ j, j < v.segments_.length → ∃ seg, v.segments_[j]? = some (some seg) ∧
        seg.data.length = SEGMENT_SIZE ∧ seg.size ≤ SEGMENT_SIZE ∧
        (j + 1 < v.segments_.length → seg.size = SEGMENT_SIZE)) := by
  obtain ⟨v, hv, hwf, hr⟩ := push_back_all_wf (spaced_calls 0 (List.range 1025))
    (new : concurrent_vector Nat) [] vector_new_wf
    (alloc_ok_spaced _ (by simp only [List.length_range, SEGMENT_SIZE, SIZE_MOD]; decide))
  have hreach := hr Reachable.new
  have hsize : v.size = 1025 := by
    have := hwf.size
    simp only [List.nil_append, spaced_calls_values, List.length_range] at this
    exact this
  have h := vector_table_well_formed v hreach
  refine ⟨v, hv, hreach, hsize, ?_, h.2.1⟩
  rw [h.1, hsize]
  decide

theorem set_thread_self (t : Thread T) :
    ∀ (threads : List (Thread T)) (i : Nat), threads[i]? = some t → threads.set i t = threads
  | [], _, h => by simp at h
  | t0 :: rest, 0, h => by
    simp only [List.getElem?_cons_zero, Option.some.injEq] at h
    rw [h, List.set_cons_zero]
  | t0 :: rest, i + 1, h => by
    simp only [List.getElem?_cons_succ] at h
    rw [List.set_cons_succ, set_thread_self t rest i h]

theorem run_schedule_append [Inhabited T] :
    ∀ (l1 l2 : List (Nat × Nat)) (s : System T),
      run_schedule (l1 ++ l2) s = (run_schedule l1 s).bind (run_schedule l2)
  | [], _, _ => rfl
  | e :: l1, l2, s => by
    simp only [List.cons_append, run_schedule]
    cases sys_step e s with
    | none => rfl
    | some s1 => exact run_schedule_append l1 l2 s1

theorem run_schedule_cons [Inhabited T] (e : Nat × Nat) (rest : List (Nat × Nat))
    (s : System T) :
    run_schedule (e :: rest) s = (sys_step e s).bind (run_schedule rest) := by
  simp only [run_schedule]
  cases sys_step e s <;> rfl

/-- A step of the system is the step of the thread it names. -/
theorem sys_step_thread [Inhabited T] (e : Nat × Nat) (s : System T) (t t1 : Thread T)
    (v1 : concurrent_vector T) (ht : s.threads[e.1]? = some t)
    (hstep : thread_step e.2 t s.v = some (t1, v1)) :
    sys_step e s = some { v := v1, threads := s.threads.set e.1 t1 } := by
  unfold sys_step
  rw [ht]
  simp only [hstep]

/-- The four steps of a thread that has loaded `current_size`, on a vector whose segment
`current_size / 1024` is allocated: the table keeps its length, the slot
`current_size % 1024` is written, and both counters are incremented. -/
theorem run_schedule_finish [Inhabited T] (i p : Nat) (s : System T) (todo : List T)
    (x : T) (cs : Nat) (seg : Segment T)
    (ht : s.threads[i]? = some { todo := todo, pc := .loaded x cs })
    (hseg : s.v.segments_[cs / SEGMENT_SIZE]? = some (some seg))
    (hlen : seg.data.length = SEGMENT_SIZE) :
    run_schedule (List.replicate 4 (i, p)) s =
      some { v := { segments_ := s.v.segments_.set (cs / SEGMENT_SIZE)
                      (some { addr := seg.addr, data := seg.data.set (cs % SEGMENT_SIZE) x,
                              size := fetch_add_one seg.size }),
                    size_ := fetch_add_one s.v.size_ },
             threads := s.threads.set i { todo := todo, pc := .idle } } := by
  have hi : i < s.threads.length := by
    by_contra hc
    rw [List.getElem?_eq_none (by omega)] at ht
    cases ht
  have hj : cs / SEGMENT_SIZE < s.v.segments_.length := by
    by_contra hc
    rw [List.getElem?_eq_none (by omega)] at hseg
    cases hseg
  have hoff : cs % SEGMENT_SIZE < seg.data.length := by
    rw [hlen]
    exact Nat.mod_lt _ (by decide)
  have e1 : thread_step p { todo := todo, pc := .loaded x cs } s.v =
      some ({ todo := todo, pc := .ensured x cs }, s.v) := by
    simp only [thread_step, ensure_segment_present p _ s.v seg hseg]
  have e2 : thread_step p { todo := todo, pc := .ensured x cs } s.v =
      some ({ todo := todo, pc := .written cs },
        { segments_ := s.v.segments_.set (cs / SEGMENT_SIZE)
            (some { addr := seg.addr, data := seg.data.set (cs % SEGMENT_SIZE) x,
                    size := seg.size }),
          size_ := s.v.size_ }) := by
    simp only [thread_step, hseg, if_pos hoff]
  have e3 : thread_step p { todo := todo, pc := .written cs }
      { segments_ := s.v.segments_.set (cs / SEGMENT_SIZE)
          (some { addr := seg.addr, data := seg.data.set (cs % SEGMENT_SIZE) x,
                  size := seg.size }),
        size_ := s.v.size_ } =
      some ({ todo := todo, pc := .counted },
        { segments_ := s.v.segments_.set (cs / SEGMENT_SIZE)
            (some { addr := seg.addr, data := seg.data.set (cs % SEGMENT_SIZE) x,
                    size := fetch_add_one seg.size }),
          size_ := s.v.size_ }) := by
    simp only [thread_step, List.getElem?_set_self hj, List.set_set]
  have e4 : thread_step p { todo := todo, pc := .counted }
      { segments_ := s.v.segments_.set (cs / SEGMENT_SIZE)
          (some { addr := seg.addr, data := seg.data.set (cs % SEGMENT_SIZE) x,
                  size := fetch_add_one seg.size }),
        size_ := s.v.size_ } =
      some ({ todo := todo, pc := .idle },
        { segments_ := s.v.segments_.set (cs / SEGMENT_SIZE)
            (some { addr := seg.addr, data := seg.data.set (cs % SEGMENT_SIZE) x,
                    size := fetch_add_one seg.size }),
          size_ := fetch_add_one s.v.size_ }) := rfl
  have h1 := sys_step_thread (i, p) s _ _ _ ht e1
  have h2 := sys_step_thread (i, p)
    { v := s.v, threads := s.threads.set i { todo := todo, pc := .ensured x cs } } _ _ _
    (List.getElem?_set_self hi) e2
  have h3 := sys_step_thread (i, p)
    { v := { segments_ := s.v.segments_.set (cs / SEGMENT_SIZE)
               (some { addr := seg.addr, data := seg.data.set (cs % SEGMENT_SIZE) x,
                       size := seg.size }),
             size_ := s.v.size_ },
      threads := s.threads.set i { todo := todo, pc := .written cs } } _ _ _
    (List.getElem?_set_self hi) e3
  have h4 := sys_step_thread (i, p)
    { v := { segments_ := s.v.segments_.set (cs / SEGMENT_SIZE)
               (some { addr := seg.addr, data := seg.data.set (cs % SEGMENT_SIZE) x,
                       size := fetch_add_one seg.size }),
             size_ := s.v.size_ },
      threads := s.threads.set i { todo := todo, pc := .counted } } _ _ _
    (List.getElem?_set_self hi) e4
  simp only [List.set_set] at h2 h3 h4
  simp only [List.replicate, run_schedule, h1, h2, h3, h4]

/-- The five steps of a thread that makes a whole call without being interrupted are
`push_back`. -/
theorem run_schedule_call [Inhabited T] (i p : Nat) (value : T) (rest : List T)
    (s : System T) (v1 : concurrent_vector T)
    (ht : s.threads[i]? = some { todo := value :: rest, pc := .idle })
    (hp : push_back p value s.v = some v1) :
    run_schedule (List.replicate 5 (i, p)) s =
      some { v := v1, threads := s.threads.set i { todo := rest, pc := .idle } } := by
  have hi : i < s.threads.length := by
    by_contra hc
    rw [List.getElem?_eq_none (by omega)] at ht
    cases ht
  have hsolo := solo_call_push_back p value rest s.v
  rw [hp, Option.map_some'] at hsolo
  unfold solo_call at hsolo
  obtain ⟨r1, e1, hsolo⟩ := Option.bind_eq_some.mp hsolo
  obtain ⟨r2, e2, hsolo⟩ := Option.bind_eq_some.mp hsolo
  obtain ⟨r3, e3, hsolo⟩ := Option.bind_eq_some.mp hsolo
  obtain ⟨r4, e4, e5⟩ := Option.bind_eq_some.mp hsolo
  have h1 := sys_step_thread (i, p) s _ r1.1 r1.2 ht e1
  have h2 := sys_step_thread (i, p) { v := r1.2, threads := s.threads.set i r1.1 } r1.1 r2.1 r2.2
    (List.getElem?_set_self hi) e2
  have h3 := sys_step_thread (i, p) { v := r2.2, threads := s.threads.set i r2.1 } r2.1 r3.1 r3.2
    (List.getElem?_set_self hi) e3
  have h4 := sys_step_thread (i, p) { v := r3.2, threads := s.threads.set i r3.1 } r3.1 r4.1 r4.2
    (List.getElem?_set_self hi) e4
  have h5 := sys_step_thread (i, p) { v := r4.2, threads := s.threads.set i r4.1 } r4.1
    { todo := rest, pc := .idle } v1 (List.getElem?_set_self hi) e5
  simp only [List.set_set] at h2 h3 h4 h5
  simp only [List.replicate, run_schedule, h1, h2, h3, h4, h5]

/-- The steps of a thread that makes calls without being interrupted are the calls executed
one at a time. -/
theorem run_schedule_calls [Inhabited T] (i : Nat) (rest : List T) :
    ∀ (calls : List (Nat × T)) (s : System T) (v2 : concurrent_vector T),
      s.threads[i]? = some { todo := calls.map Prod.snd ++ rest, pc := .idle } →
      push_back_all calls s.v = some v2 →
      run_schedule (solo_steps i calls) s =
        some { v := v2, threads := s.threads.set i { todo := rest, pc := .idle } }
  | [], s, v2, ht, hp => by
    simp only [push_back_all, Option.some.injEq] at hp
    simp only [List.map_nil, List.nil_append] at ht
    simp only [solo_steps, run_schedule, set_thread_self _ _ _ ht, ← hp]
  | c :: calls, s, v2, ht, hp => by
    obtain ⟨p, value⟩ := c
    have hi : i < s.threads.length := by
      by_contra hc
      rw [List.getElem?_eq_none (by omega)] at ht
      cases ht
    simp only [push_back_all] at hp
    cases hpush : push_back p value s.v with
    | none => rw [hpush] at hp; cases hp
    | some v1 =>
      rw [hpush] at hp
      simp only at hp
      simp only [List.map_cons, List.cons_append] at ht
      have h1 := run_schedule_call i p value _ s v1 ht hpush
      have h2 := run_schedule_calls i rest calls
        { v := v1, threads := s.threads.set i
            { todo := calls.map Prod.snd ++ rest, pc := .idle } } v2
        (List.getElem?_set_self hi) hp
      simp only [List.set_set] at h2
      simp only [solo_steps]
      rw [run_schedule_append, h1, Option.some_bind, h2]

/-- C36 fails at `stale_schedule`.  Thread 0 loads `size_` = 0 for its `push_back(7)` and is
held up; thread 1 makes 1024 whole calls, which fill segment 0; thread 0 then finishes its
call with the stale snapshot: it finds segment 0 allocated, overwrites slot 0, and increments
both counters.  When every call has returned, `size()` is 1025, the table has one entry, and
its segment has fill counter 1025; `at(1024)` passes the bounds check and indexes the table at
entry 1, which does not exist. -/
theorem vector_stale_snapshot_overruns :
    ∃ s, run_schedule stale_schedule stale_start = some s ∧ s.finished ∧
      size s.v = 1025 ∧ s.v.segments_.length = 1 ∧
      (∃ seg, s.v.segments_[0]? = some (some seg) ∧ seg.size = 1025 ∧
        seg.data[0]? = some 7) ∧
      s.v.segments_[1024 / SEGMENT_SIZE]? = none ∧
      at_ 1024 s.v = .fault := by
  -- thread 1 alone: 1024 appends on the new vector
  obtain ⟨v2, hv2, hwf, _⟩ := push_back_all_wf (spaced_calls 0 (List.range 1024))
    (new : concurrent_vector Nat) [] vector_new_wf
    (alloc_ok_spaced _ (by simp only [List.length_range, SEGMENT_SIZE, SIZE_MOD]; decide))
  simp only [List.nil_append, spaced_calls_values] at hwf
  have hsize2 : v2.size_ = 1024 := by
    have := hwf.size
    simp only [List.length_range] at this
    exact this
  have hc : ((List.range 1024).length + (SEGMENT_SIZE - 1)) / SEGMENT_SIZE = 1 := by
    rw [List.length_range]
    decide
  have htable2 : v2.segments_.length = 1 := by
    rw [← hc]
    exact hwf.table
  obtain ⟨seg, hseg, hlen, hfill, _⟩ := hwf.segment 0 (by rw [hc]; decide)
  have hfill2 : seg.size = 1024 := by
    rw [hfill, List.length_range]
    decide
  -- the first step: thread 0 loads `size_`
  have hs0 : stale_start =
      { v := new, threads := [{ todo := [7], pc := .idle },
                              { todo := List.range 1024, pc := .idle }] } := by
    simp only [stale_start, System.start, List.map]
  have h1 : sys_step (0, 16) stale_start =
      some { v := new, threads := [{ todo := [], pc := .loaded 7 0 },
                                   { todo := List.range 1024, pc := .idle }] } := by
    rw [hs0]
    simp only [sys_step, List.getElem?_cons_zero, thread_step, List.set_cons_zero]
    rfl
  -- the calls of thread 1
  have h2 := run_schedule_calls 1 [] (spaced_calls 0 (List.range 1024))
    { v := new, threads := [{ todo := [], pc := .loaded 7 0 },
                            { todo := List.range 1024, pc := .idle }] } v2
    (by rw [spaced_calls_values, List.append_nil]; rfl) hv2
  -- the remaining steps of thread 0
  have h3 := run_schedule_finish 0 4000
    { v := v2, threads := [{ todo := [], pc := .loaded 7 0 },
                           { todo := ([] : List Nat), pc := .idle }] } [] 7 0 seg rfl hseg hlen
  simp only [Nat.zero_div, Nat.zero_mod, List.set_cons_zero, List.set_cons_succ] at h2 h3
  have hrun : run_schedule stale_schedule stale_start =
      some { v := { segments_ := v2.segments_.set 0
                      (some { addr := seg.addr, data := seg.data.set 0 7,
                              size := fetch_add_one seg.size }),
                    size_ := fetch_add_one v2.size_ },
             threads := [{ todo := [], pc := .idle }, { todo := [], pc := .idle }] } := by
    unfold stale_schedule
    rw [run_schedule_append, run_schedule_cons, h1, Option.some_bind, h2, Option.some_bind]
    exact h3
  have h0 : 0 < v2.segments_.length := by omega
  refine ⟨_, hrun, ?_, ?_, ?_, ?_, ?_, ?_⟩
  · intro t ht
    simp only [List.mem_cons, List.mem_singleton, List.not_mem_nil, or_false] at ht
    rcases ht with rfl | rfl <;> exact ⟨rfl, rfl⟩
  · show fetch_add_one v2.size_ = 1025
    rw [hsize2]
    decide
  · show (v2.segments_.set 0 _).length = 1
    rw [List.length_set, htable2]
  · refine ⟨_, List.getElem?_set_self h0, ?_, ?_⟩
    · show fetch_add_one seg.size = 1025
      rw [hfill2]
      decide
    · show (seg.data.set 0 7)[0]? = some 7
      rw [List.getElem?_set_self (by rw [hlen]; decide)]
  · exact List.getElem?_eq_none (by rw [List.length_set, htable2]; decide)
  · have hfa : fetch_add_one v2.size_ = 1025 := by
      rw [hsize2]
      decide
    unfold at_ size
    simp only [hfa]
    rw [if_neg (by decide)]
    exact (by
      rw [List.getElem?_eq_none (by rw [List.length_set, htable2]; decide)])

theorem others_read_table_set (t1 : Thread T) :
    ∀ (i : Nat) (threads : List (Thread T)),
      others_read_table i (threads.set i t1) = others_read_table i threads
  | _, [] => rfl
  | 0, _ :: _ => rfl
  | i + 1, t :: rest => by
    simp only [List.set_cons_succ, others_read_table, others_read_table_set t1 i rest]

/-- A run that has no data race on `segments_` is a run of the steps. -/
theorem run_schedule_checked_sound [Inhabited T] :
    ∀ (schedule : List (Nat × Nat)) (s s1 : System T),
      run_schedule_checked schedule s = some s1 → run_schedule schedule s = some s1
  | [], _, _, h => h
  | e :: rest, s, s1, h => by
    simp only [run_schedule_checked, sys_step_checked] at h
    simp only [run_schedule]
    cases hr : races e.1 s with
    | true => rw [hr] at h; simp at h
    | false =>
      rw [hr] at h
      simp only [Bool.false_eq_true, if_false] at h
      cases hs : sys_step e s with
      | none => rw [hs] at h; cases h
      | some s2 =>
        rw [hs] at h
        exact run_schedule_checked_sound rest s2 s1 h

theorem run_schedule_checked_append [Inhabited T] :
    ∀ (l1 l2 : List (Nat × Nat)) (s : System T),
      run_schedule_checked (l1 ++ l2) s =
        (run_schedule_checked l1 s).bind (run_schedule_checked l2)
  | [], _, _ => rfl
  | e :: l1, l2, s => by
    simp only [List.cons_append, run_schedule_checked]
    cases sys_step_checked e s with
    | none => rfl
    | some s1 => exact run_schedule_checked_append l1 l2 s1

theorem run_schedule_checked_nil [Inhabited T] (s : System T) :
    run_schedule_checked [] s = some s := rfl

theorem run_schedule_checked_cons [Inhabited T] (e : Nat × Nat) (rest : List (Nat × Nat))
    (s : System T) :
    run_schedule_checked (e :: rest) s =
      (sys_step_checked e s).bind (run_schedule_checked rest) := by
  simp only [run_schedule_checked]
  cases sys_step_checked e s <;> rfl

/-- A step of a thread that does not resize the table is no data race. -/
theorem sys_step_checked_thread [Inhabited T] (e : Nat × Nat) (s : System T)
    (t t1 : Thread T) (v1 : concurrent_vector T) (ht : s.threads[e.1]? = some t)
    (hstep : thread_step e.2 t s.v = some (t1, v1))
    (hpc : ∀ x cs, t.pc = .loaded x cs → cs / SEGMENT_SIZE < s.v.segments_.length) :
    sys_step_checked e s = some { v := v1, threads := s.threads.set e.1 t1 } := by
  have hres : resizes e.1 s = false := by
    unfold resizes
    rw [ht]
    obtain ⟨todo, pc⟩ := t
    cases pc with
    | loaded x cs =>
      have := hpc x cs rfl
      simp only [decide_eq_false_iff_not]
      exact Nat.not_le.mpr this
    | idle => rfl
    | ensured x cs => rfl
    | written cs => rfl
    | counted => rfl
  unfold sys_step_checked races
  rw [hres, Bool.false_and]
  simp only [Bool.false_eq_true, if_false]
  exact sys_step_thread e s t t1 v1 ht hstep

/-- The five steps of a call that appends into an allocated segment, taken without
interruption: none resizes the table, so none is a data race, whatever the other threads are
about to do. -/
theorem run_schedule_checked_call [Inhabited T] (i p : Nat) (s : System T) (value : T)
    (rest : List T) (seg : Segment T)
    (ht : s.threads[i]? = some { todo := value :: rest, pc := .idle })
    (hseg : s.v.segments_[s.v.size_ / SEGMENT_SIZE]? = some (some seg))
    (hlen : seg.data.length = SEGMENT_SIZE) :
    run_schedule_checked (List.replicate 5 (i, p)) s =
      some { v := { segments_ := s.v.segments_.set (s.v.size_ / SEGMENT_SIZE)
                      (some { addr := seg.addr,
                              data := seg.data.set (s.v.size_ % SEGMENT_SIZE) value,
                              size := fetch_add_one seg.size }),
                    size_ := fetch_add_one s.v.size_ },
             threads := s.threads.set i { todo := rest, pc := .idle } } := by
  have hi : i < s.threads.length := by
    by_contra hc
    rw [List.getElem?_eq_none (by omega)] at ht
    cases ht
  have hj : s.v.size_ / SEGMENT_SIZE < s.v.segments_.length := by
    by_contra hc
    rw [List.getElem?_eq_none (by omega)] at hseg
    cases hseg
  have hoff : s.v.size_ % SEGMENT_SIZE < seg.data.length := by
    rw [hlen]
    exact Nat.mod_lt _ (by decide)
  have e0 : thread_step p { todo := value :: rest, pc := .idle } s.v =
      some ({ todo := rest, pc := .loaded value s.v.size_ }, s.v) := rfl
  have e1 : thread_step p { todo := rest, pc := .loaded value s.v.size_ } s.v =
      some ({ todo := rest, pc := .ensured value s.v.size_ }, s.v) := by
    simp only [thread_step, ensure_segment_present p _ s.v seg hseg]
  have e2 : thread_step p { todo := rest, pc := .ensured value s.v.size_ } s.v =
      some ({ todo := rest, pc := .written s.v.size_ },
        { segments_ := s.v.segments_.set (s.v.size_ / SEGMENT_SIZE)
            (some { addr := seg.addr, data := seg.data.set (s.v.size_ % SEGMENT_SIZE) value,
                    size := seg.size }),
          size_ := s.v.size_ }) := by
    simp only [thread_step, hseg, if_pos hoff]
  have e3 : thread_step p { todo := rest, pc := .written s.v.size_ }
      { segments_ := s.v.segments_.set (s.v.size_ / SEGMENT_SIZE)
          (some { addr := seg.addr, data := seg.data.set (s.v.size_ % SEGMENT_SIZE) value,
                  size := seg.size }),
        size_ := s.v.size_ } =
      some ({ todo := rest, pc := .counted },
        { segments_ := s.v.segments_.set (s.v.size_ / SEGMENT_SIZE)
            (some { addr := seg.addr, data := seg.data.set (s.v.size_ % SEGMENT_SIZE) value,
                    size := fetch_add_one seg.size }),
          size_ := s.v.size_ }) := by
    simp only [thread_step, List.getElem?_set_self hj, List.set_set]
  have e4 : thread_step p { todo := rest, pc := .counted }
      { segments_ := s.v.segments_.set (s.v.size_ / SEGMENT_SIZE)
          (some { addr := seg.addr, data := seg.data.set (s.v.size_ % SEGMENT_SIZE) value,
                  size := fetch_add_one seg.size }),
        size_ := s.v.size_ } =
      some ({ todo := rest, pc := .idle },
        { segments_ := s.v.segments_.set (s.v.size_ / SEGMENT_SIZE)
            (some { addr := seg.addr, data := seg.data.set (s.v.size_ % SEGMENT_SIZE) value,
                    size := fetch_add_one seg.size }),
          size_ := fetch_add_one s.v.size_ }) := rfl
  have h0 := sys_step_checked_thread (i, p) s _ _ _ ht e0 (fun _ _ h => by cases h)
  have h1 := sys_step_checked_thread (i, p)
    { v := s.v, threads := s.threads.set i { todo := rest, pc := .loaded value s.v.size_ } }
    _ _ _ (List.getElem?_set_self hi) e1
    (fun _ _ h => by
      simp only [PC.loaded.injEq] at h
      rw [← h.2]
      exact hj)
  have h2 := sys_step_checked_thread (i, p)
    { v := s.v, threads := s.threads.set i { todo := rest, pc := .ensured value s.v.size_ } }
    _ _ _ (List.getElem?_set_self hi) e2 (fun _ _ h => by cases h)
  have h3 := sys_step_checked_thread (i, p)
    { v := { segments_ := s.v.segments_.set (s.v.size_ / SEGMENT_SIZE)
               (some { addr := seg.addr,
                       data := seg.data.set (s.v.size_ % SEGMENT_SIZE) value,
                       size := seg.size }),
             size_ := s.v.size_ },
      threads := s.threads.set i { todo := rest, pc := .written s.v.size_ } } _ _ _
    (List.getElem?_set_self hi) e3 (fun _ _ h => by cases h)
  have h4 := sys_step_checked_thread (i, p)
    { v := { segments_ := s.v.segments_.set (s.v.size_ / SEGMENT_SIZE)
               (some { addr := seg.addr,
                       data := seg.data.set (s.v.size_ % SEGMENT_SIZE) value,
                       size := fetch_add_one seg.size }),
             size_ := s.v.size_ },
      threads := s.threads.set i { todo := rest, pc := .counted } } _ _ _
    (List.getElem?_set_self hi) e4 (fun _ _ h => by cases h)
  simp only [List.set_set] at h1 h2 h3 h4
  simp only [List.replicate, run_schedule_checked, h0, h1, h2, h3, h4]

/-- Calls of one thread that all append into segment 0, which is allocated, taken without
interruption: no step is a data race; the table keeps its length and `size_` grows by the
number of calls. -/
theorem run_schedule_checked_fill [Inhabited T] (i : Nat) (rest : List T) :
    ∀ (calls : List (Nat × T)) (s : System T),
      s.threads[i]? = some { todo := calls.map Prod.snd ++ rest, pc := .idle } →
      Sized s.v → present s.v 0 → s.v.size_ + calls.length ≤ SEGMENT_SIZE →
      ∃ v2, run_schedule_checked (solo_steps i calls) s =
          some { v := v2, threads := s.threads.set i { todo := rest, pc := .idle } } ∧
        Sized v2 ∧ present v2 0 ∧ v2.segments_.length = s.v.segments_.length ∧
        v2.size_ = s.v.size_ + calls.length
  | [], s, ht, hs, hp, _ => by
    simp only [List.map_nil, List.nil_append] at ht
    refine ⟨s.v, ?_, hs, hp, rfl, rfl⟩
    simp only [solo_steps, run_schedule_checked, set_thread_self _ _ _ ht]
  | c :: calls, s, ht, hs, hp, hfit => by
    obtain ⟨p, value⟩ := c
    have hi : i < s.threads.length := by
      by_contra hc
      rw [List.getElem?_eq_none (by omega)] at ht
      cases ht
    simp only [List.map_cons, List.cons_append] at ht
    simp only [List.length_cons] at hfit
    have hlt : s.v.size_ < SEGMENT_SIZE := by omega
    have hdiv : s.v.size_ / SEGMENT_SIZE = 0 := Nat.div_eq_of_lt hlt
    obtain ⟨seg, hseg⟩ := hp
    have hlen := hs 0 seg hseg
    have hseg2 : s.v.segments_[s.v.size_ / SEGMENT_SIZE]? = some (some seg) := by
      rw [hdiv]; exact hseg
    have h1 := run_schedule_checked_call i p s value (calls.map Prod.snd ++ rest) seg ht hseg2
      hlen
    rw [hdiv] at h1
    have hsized := set_segment_sized s.v 0 (fetch_add_one s.v.size_) seg
      { addr := seg.addr, data := seg.data.set (s.v.size_ % SEGMENT_SIZE) value,
        size := fetch_add_one seg.size } hseg (by simp) hs
    have hfa : fetch_add_one s.v.size_ = s.v.size_ + 1 := by
      unfold fetch_add_one
      simp only [SEGMENT_SIZE] at hlt
      simp only [SIZE_MOD]
      omega
    obtain ⟨v2, h2, hs2, hp2, hl2, hz2⟩ := run_schedule_checked_fill i rest calls
      { v := { segments_ := s.v.segments_.set 0
                 (some { addr := seg.addr,
                         data := seg.data.set (s.v.size_ % SEGMENT_SIZE) value,
                         size := fetch_add_one seg.size }),
               size_ := fetch_add_one s.v.size_ },
        threads := s.threads.set i { todo := calls.map Prod.snd ++ rest, pc := .idle } }
      (List.getElem?_set_self hi) hsized.1 (hsized.2 0 ⟨seg, hseg⟩)
      (by simp only [hfa]; omega)
    simp only [List.set_set] at h2
    refine ⟨v2, ?_, hs2, hp2, ?_, ?_⟩
    · simp only [solo_steps]
      rw [run_schedule_checked_append, h1, Option.some_bind, h2]
    · rw [hl2]
      simp only [List.length_set]
    · rw [hz2]
      simp only [hfa, List.length_cons]
      omega

theorem calls_at_values (p : Nat) (xs : List T) : (calls_at p xs).map Prod.snd = xs := by
  unfold calls_at
  rw [List.map_map]
  exact List.map_id _

theorem calls_at_length (p : Nat) (xs : List T) : (calls_at p xs).length = xs.length := by
  unfold calls_at
  rw [List.length_map]

theorem test_values_eq :
    test_values = [test_thread 0, test_thread 1, test_thread 2, test_thread 3] := rfl

theorem test_thread_length (i : Nat) : (test_thread i).length = 1000 := by
  unfold test_thread
  rw [List.length_map, List.length_range]

theorem test_thread_drop (i k : Nat) (hk : k < 1000) :
    (test_thread i).drop k = (i * 1000 + k) :: (test_thread i).drop (k + 1) := by
  have hlt : k < (test_thread i).length := by rw [test_thread_length]; exact hk
  have he : (test_thread i)[k] = i * 1000 + k := by
    simp only [test_thread, List.getElem_map, List.getElem_range]
  rw [List.drop_eq_getElem_cons hlt, he]

/-- C23 fails on the threads of the test `ConcurrentPushBack` (4 threads, 1000 calls each), at
`resize_steps` followed by a step of thread 2.  Thread 0 has executed `ensure_segment(0)` for
its first call and is held up before it reads `segments_[0]`, which it does without holding
`mutex_`.  Threads 1 and 2 fill segment 0 with 1024 whole calls, none of which is a data race,
and thread 2 loads `size_` = 1024 for its next call.  At the end of `resize_steps` the table
has one entry and `size()` is 1024.  The next step of thread 2 is `ensure_segment(1)`, which
calls `segments_.resize(2)` while thread 0 is about to read the table: a data race on
`segments_`, so that the behaviour of the program is undefined, and nothing brings `size()`
to the number of calls, 4000. -/
theorem vector_resize_races_with_append :
    ∃ s, run_schedule_checked resize_steps (System.start test_values) = some s ∧
      s.threads.map Thread.pc = [.ensured 0 0, .idle, .loaded 2024 1024, .idle] ∧
      s.threads.map (fun t => t.todo.length) = [999, 0, 975, 1000] ∧
      size s.v = 1024 ∧ s.v.segments_.length = 1 ∧
      resizes 2 s = true ∧ others_read_table 2 s.threads = true ∧ races 2 s = true ∧
      sys_step_checked (2, 2016) s = none ∧
      run_schedule_checked (resize_steps ++ [(2, 2016)]) (System.start test_values) = none := by
  have hs0 : System.start test_values =
      ⟨new, [⟨(0 * 1000 + 0) :: (test_thread 0).drop (0 + 1), .idle⟩,
             ⟨test_thread 1, .idle⟩,
             ⟨test_thread 2, .idle⟩, ⟨test_thread 3, .idle⟩]⟩ := by
    have h0 := test_thread_drop 0 0 (by decide)
    rw [List.drop_zero] at h0
    rw [test_values_eq]
    simp only [System.start, List.map]
    rw [← h0]
  -- thread 0 loads `size_`
  have hA1 : sys_step_checked (0, 16) (System.start test_values) =
      some ⟨new, [⟨(test_thread 0).drop (0 + 1), .loaded (0 * 1000 + 0) 0⟩,
                  ⟨test_thread 1, .idle⟩,
                  ⟨test_thread 2, .idle⟩, ⟨test_thread 3, .idle⟩]⟩ := by
    rw [hs0]
    exact sys_step_checked_thread (0, 16) _
      ⟨(0 * 1000 + 0) :: (test_thread 0).drop (0 + 1), .idle⟩
      ⟨(test_thread 0).drop (0 + 1), .loaded (0 * 1000 + 0) 0⟩ new rfl rfl
      (fun _ _ h => by cases h)
  -- thread 0 executes `ensure_segment(0)`: the table is resized, no other thread reads it
  have hA2 : sys_step_checked (0, 16)
      ⟨new, [⟨(test_thread 0).drop (0 + 1), .loaded (0 * 1000 + 0) 0⟩,
             ⟨test_thread 1, .idle⟩,
             ⟨test_thread 2, .idle⟩, ⟨test_thread 3, .idle⟩]⟩ =
      some ⟨ensure_segment 16 0 new,
        [⟨(test_thread 0).drop (0 + 1), .ensured (0 * 1000 + 0) 0⟩, ⟨test_thread 1, .idle⟩,
         ⟨test_thread 2, .idle⟩, ⟨test_thread 3, .idle⟩]⟩ := by
    have hr : races 0 (⟨new, [⟨(test_thread 0).drop (0 + 1), .loaded (0 * 1000 + 0) 0⟩,
        ⟨test_thread 1, .idle⟩,
        ⟨test_thread 2, .idle⟩, ⟨test_thread 3, .idle⟩]⟩ : System Nat) = false := by
      simp only [races, others_read_table, List.any_cons, List.any_nil, Thread.reads_table,
        Bool.or_false, Bool.and_false]
    unfold sys_step_checked
    rw [hr]
    simp only [Bool.false_eq_true, if_false]
    exact sys_step_thread (0, 16) _ ⟨(test_thread 0).drop (0 + 1), .loaded (0 * 1000 + 0) 0⟩
      ⟨(test_thread 0).drop (0 + 1), .ensured (0 * 1000 + 0) 0⟩ (ensure_segment 16 0 new)
      (List.getElem?_cons_zero ..) (by simp only [thread_step, Nat.zero_div])
  have hsz := ensure_segment_sized 16 0 (new : concurrent_vector Nat)
    (by intro j seg h; simp [new] at h)
  have hlen0 : (ensure_segment 16 0 (new : concurrent_vector Nat)).segments_.length = 1 := rfl
  have hsize0 : (ensure_segment 16 0 (new : concurrent_vector Nat)).size_ = 0 := rfl
  -- thread 1 makes its 1000 calls
  obtain ⟨v1, hB1, hs1, hp1, hl1, hz1⟩ := run_schedule_checked_fill 1 []
    (calls_at 16 (test_thread 1))
    ⟨ensure_segment 16 0 new,
      [⟨(test_thread 0).drop (0 + 1), .ensured (0 * 1000 + 0) 0⟩, ⟨test_thread 1, .idle⟩,
       ⟨test_thread 2, .idle⟩, ⟨test_thread 3, .idle⟩]⟩
    (by rw [calls_at_values, List.append_nil]; rfl) hsz.1 hsz.2
    (by
      rw [calls_at_length, test_thread_length, hsize0]
      decide)
  rw [calls_at_length, test_thread_length, hsize0] at hz1
  rw [hlen0] at hl1
  simp only [List.set_cons_succ, List.set_cons_zero] at hB1
  -- thread 2 makes 24 calls
  have htake : ((test_thread 2).take 24).length = 24 := by
    rw [List.length_take, test_thread_length]
    rfl
  obtain ⟨v2, hB2, _, _, hl2, hz2⟩ := run_schedule_checked_fill 2 ((test_thread 2).drop 24)
    (calls_at 16 ((test_thread 2).take 24))
    ⟨v1, [⟨(test_thread 0).drop (0 + 1), .ensured (0 * 1000 + 0) 0⟩, ⟨[], .idle⟩,
          ⟨test_thread 2, .idle⟩, ⟨test_thread 3, .idle⟩]⟩
    (by rw [calls_at_values, List.take_append_drop]; rfl) hs1 hp1
    (by
      rw [calls_at_length, htake, hz1]
      decide)
  rw [calls_at_length, htake, hz1] at hz2
  have hz2 : v2.size_ = 1024 := by rw [hz2]
  rw [hl1] at hl2
  simp only [List.set_cons_succ, List.set_cons_zero] at hB2
  rw [test_thread_drop 2 24 (by decide)] at hB2
  -- thread 2 loads `size_`
  have hC : sys_step_checked (2, 2016)
      ⟨v2, [⟨(test_thread 0).drop (0 + 1), .ensured (0 * 1000 + 0) 0⟩, ⟨[], .idle⟩,
            ⟨(2 * 1000 + 24) :: (test_thread 2).drop (24 + 1), .idle⟩,
            ⟨test_thread 3, .idle⟩]⟩ =
      some ⟨v2, [⟨(test_thread 0).drop (0 + 1), .ensured (0 * 1000 + 0) 0⟩, ⟨[], .idle⟩,
                 ⟨(test_thread 2).drop (24 + 1), .loaded (2 * 1000 + 24) 1024⟩,
                 ⟨test_thread 3, .idle⟩]⟩ := by
    rw [sys_step_checked_thread (2, 2016)
      ⟨v2, [⟨(test_thread 0).drop (0 + 1), .ensured (0 * 1000 + 0) 0⟩, ⟨[], .idle⟩,
            ⟨(2 * 1000 + 24) :: (test_thread 2).drop (24 + 1), .idle⟩,
            ⟨test_thread 3, .idle⟩]⟩
      ⟨(2 * 1000 + 24) :: (test_thread 2).drop (24 + 1), .idle⟩
      ⟨(test_thread 2).drop (24 + 1), .loaded (2 * 1000 + 24) v2.size_⟩ v2 rfl rfl
      (fun _ _ h => by cases h), hz2]
    rfl
  have hrun : run_schedule_checked resize_steps (System.start test_values) =
      some ⟨v2, [⟨(test_thread 0).drop (0 + 1), .ensured (0 * 1000 + 0) 0⟩, ⟨[], .idle⟩,
                 ⟨(test_thread 2).drop (24 + 1), .loaded (2 * 1000 + 24) 1024⟩,
                 ⟨test_thread 3, .idle⟩]⟩ := by
    unfold resize_steps
    rw [run_schedule_checked_append, run_schedule_checked_append,
      run_schedule_checked_append, run_schedule_checked_cons,
      hA1, Option.some_bind, run_schedule_checked_cons, hA2, Option.some_bind,
      run_schedule_checked_nil, Option.some_bind, hB1, Option.some_bind, hB2,
      Option.some_bind, run_schedule_checked_cons, hC, Option.some_bind,
      run_schedule_checked_nil]
  have hres : resizes 2
      (⟨v2, [⟨(test_thread 0).drop (0 + 1), .ensured (0 * 1000 + 0) 0⟩, ⟨[], .idle⟩,
             ⟨(test_thread 2).drop (24 + 1), .loaded (2 * 1000 + 24) 1024⟩,
             ⟨test_thread 3, .idle⟩]⟩ : System Nat) = true := by
    simp only [resizes, List.getElem?_cons_succ, List.getElem?_cons_zero, hl2]
    decide
  have hoth : others_read_table 2
      ([⟨(test_thread 0).drop (0 + 1), .ensured (0 * 1000 + 0) 0⟩, ⟨[], .idle⟩,
        ⟨(test_thread 2).drop (24 + 1), .loaded (2 * 1000 + 24) 1024⟩,
        ⟨test_thread 3, .idle⟩] : List (Thread Nat)) = true := rfl
  have hrace : races 2
      (⟨v2, [⟨(test_thread 0).drop (0 + 1), .ensured (0 * 1000 + 0) 0⟩, ⟨[], .idle⟩,
             ⟨(test_thread 2).drop (24 + 1), .loaded (2 * 1000 + 24) 1024⟩,
             ⟨test_thread 3, .idle⟩]⟩ : System Nat) = true := by
    unfold races
    rw [hres, hoth]
    rfl
  have hstep : sys_step_checked (2, 2016)
      (⟨v2, [⟨(test_thread 0).drop (0 + 1), .ensured (0 * 1000 + 0) 0⟩, ⟨[], .idle⟩,
             ⟨(test_thread 2).drop (24 + 1), .loaded (2 * 1000 + 24) 1024⟩,
             ⟨test_thread 3, .idle⟩]⟩ : System Nat) = none := by
    unfold sys_step_checked
    rw [hrace]
    rfl
  refine ⟨_, hrun, rfl, ?_, hz2, hl2, hres, hoth, hrace, hstep, ?_⟩
  · simp only [List.map_cons, List.map_nil, List.length_drop, test_thread_length,
      List.length_nil]
  · rw [run_schedule_checked_append, hrun, Option.some_bind, run_schedule_checked_cons, hstep]
    rfl

/-- Apart from the data race on `segments_`, the counter counts: when a run of any schedule
has no such race, `size()` plus the number of calls that have not yet incremented `size_` is
the number of calls, modulo 2^64, and once every thread has returned `size()` is the number
of calls, provided that number fits `size_type`; every thread has returned as soon as each
has taken its `5 * M` steps. -/
theorem run_schedule_checked_count [Inhabited T] (values : List (List T)) (M : Nat)
    (schedule : List (Nat × Nat)) (s : System T) (hM : ∀ l ∈ values, l.length = M)
    (hrun : run_schedule_checked schedule (System.start values) = some s) :
    (size s.v + pending_sum s.threads) % SIZE_MOD = (values.length * M) % SIZE_MOD ∧
    (s.finished → size s.v = (values.length * M) % SIZE_MOD) ∧
    (s.finished → values.length * M < SIZE_MOD → size s.v = values.length * M) ∧
    ((∀ i, i < values.length → 5 * M ≤ steps_of i schedule) → s.finished) := by
  obtain ⟨s1, hrun1, hinv, hrem⟩ := run_schedule_inv _ schedule _ (start_inv values)
  rw [run_schedule_checked_sound schedule _ s hrun] at hrun1
  cases hrun1
  rw [sum_length_const M values hM] at hinv
  have hfin : s.finished → size s.v = (values.length * M) % SIZE_MOD := by
    intro hf
    have hc := hinv.count
    rw [pending_sum_finished _ hf, Nat.add_zero, Nat.mod_eq_of_lt hinv.range] at hc
    exact hc
  refine ⟨hinv.count, hfin, ?_, ?_⟩
  · intro hf hfit
    rw [hfin hf, Nat.mod_eq_of_lt hfit]
  · intro hsteps t ht
    obtain ⟨i, hi, hti⟩ := List.getElem_of_mem ht
    have hti2 : s.threads[i]? = some t := by
      rw [List.getElem?_eq_getElem hi, hti]
    have hr := hrem i
    simp only [System.remaining, hti2] at hr
    apply remaining_zero
    rw [hr]
    cases hst : (System.start values).threads[i]? with
    | none => simp
    | some t0 =>
      simp only []
      simp only [System.start, List.getElem?_map, Option.map_eq_some'] at hst
      obtain ⟨l, hl, rfl⟩ := hst
      have hlmem : l ∈ values := List.getElem?_mem hl
      have hilt : i < values.length := by
        by_contra hc
        rw [List.getElem?_eq_none (by omega)] at hl
        cases hl
      have := hsteps i hilt
      simp only [Thread.remaining_steps, hM l hlmem]
      omega

/-- Steps of one thread taken while no other thread is about to read the table are no data
race. -/
theorem run_schedule_checked_quiet [Inhabited T] (i : Nat) :
    ∀ (schedule : List (Nat × Nat)) (s : System T), (∀ e ∈ schedule, e.1 = i) →
      others_read_table i s.threads = false →
      run_schedule_checked schedule s = run_schedule schedule s
  | [], _, _, _ => rfl
  | e :: rest, s, he, hq => by
    have hei : e.1 = i := he e (List.mem_cons_self _ _)
    have hrest : ∀ e1 ∈ rest, e1.1 = i := fun e1 h1 => he e1 (List.mem_cons_of_mem _ h1)
    have hr : races e.1 s = false := by
      unfold races
      rw [hei, hq, Bool.and_false]
    have hstep : sys_step_checked e s = sys_step e s := by
      unfold sys_step_checked
      rw [hr]
      simp only [Bool.false_eq_true, if_false]
    simp only [run_schedule_checked, run_schedule, hstep]
    cases hs : sys_step e s with
    | none => rfl
    | some s1 =>
      simp only []
      apply run_schedule_checked_quiet i rest s1 hrest
      unfold sys_step at hs
      cases ht : s.threads[e.1]? with
      | none =>
        rw [ht] at hs
        simp only [Option.some.injEq] at hs
        rw [← hs]
        exact hq
      | some t =>
        rw [ht] at hs
        simp only [] at hs
        cases hts : thread_step e.2 t s.v with
        | none => rw [hts] at hs; cases hs
        | some r =>
          rw [hts] at hs
          simp only [Option.some.injEq] at hs
          rw [← hs, hei]
          simp only []
          rw [others_read_table_set]
          exact hq

theorem solo_steps_thread (i : Nat) :
    ∀ (calls : List (Nat × T)), ∀ e ∈ solo_steps i calls, e.1 = i
  | [], e, h => by simp [solo_steps] at h
  | c :: calls, e, h => by
    simp only [solo_steps, List.mem_append] at h
    rcases h with h | h
    · rw [(List.mem_replicate.mp h).2]
    · exact solo_steps_thread i calls e h

set_option maxRecDepth 100000 in
/-- The schedule `overwrite_race` has no data race on `segments_`. -/
theorem overwrite_race_checked :
    run_schedule_checked overwrite_race (System.start [[1], [2]]) =
      run_schedule overwrite_race (System.start [[1], [2]]) := by
  decide

/-- The schedule `stale_schedule` has no data race on `segments_`: the one resize, in the
first call of thread 1, is executed while thread 0 has only loaded `size_`. -/
theorem stale_schedule_checked :
    run_schedule_checked stale_schedule stale_start =
      run_schedule stale_schedule stale_start := by
  obtain ⟨v2, hv2, _, _⟩ := push_back_all_wf (spaced_calls 0 (List.range 1024))
    (new : concurrent_vector Nat) [] vector_new_wf
    (alloc_ok_spaced _ (by simp only [List.length_range, SEGMENT_SIZE, SIZE_MOD]; decide))
  have hs0 : stale_start =
      ⟨new, [⟨[7], .idle⟩, ⟨List.range 1024, .idle⟩]⟩ := by
    simp only [stale_start, System.start, List.map]
  have h1 : sys_step (0, 16) stale_start =
      some ⟨new, [⟨[], .loaded 7 0⟩, ⟨List.range 1024, .idle⟩]⟩ := by
    rw [hs0]
    exact sys_step_thread (0, 16) _ ⟨[7], .idle⟩ ⟨[], .loaded 7 0⟩ new
      (List.getElem?_cons_zero ..) rfl
  have h1c : sys_step_checked (0, 16) stale_start =
      some ⟨new, [⟨[], .loaded 7 0⟩, ⟨List.range 1024, .idle⟩]⟩ := by
    rw [hs0]
    exact sys_step_checked_thread (0, 16) _ ⟨[7], .idle⟩ ⟨[], .loaded 7 0⟩ new
      (List.getElem?_cons_zero ..) rfl (fun _ _ h => by cases h)
  have h2 := run_schedule_calls 1 [] (spaced_calls 0 (List.range 1024))
    ⟨new, [⟨[], .loaded 7 0⟩, ⟨List.range 1024, .idle⟩]⟩ v2
    (by rw [spaced_calls_values, List.append_nil]; rfl) hv2
  simp only [List.set_cons_succ, List.set_cons_zero] at h2
  have h2c := run_schedule_checked_quiet 1 (solo_steps 1 (spaced_calls 0 (List.range 1024)))
    (⟨new, [⟨[], .loaded 7 0⟩, ⟨List.range 1024, .idle⟩]⟩ : System Nat)
    (solo_steps_thread 1 _) rfl
  have h3c := run_schedule_checked_quiet 0 (List.replicate 4 (0, 4000))
    (⟨v2, [⟨[], .loaded 7 0⟩, ⟨([] : List Nat), .idle⟩]⟩ : System Nat)
    (fun e he => by rw [(List.mem_replicate.mp he).2]) rfl
  unfold stale_schedule
  rw [run_schedule_checked_append, run_schedule_append, run_schedule_checked_cons,
    run_schedule_cons, h1c, h1, Option.some_bind, Option.some_bind, h2c, h2,
    Option.some_bind, Option.some_bind, h3c]

end concurrent_vector

end hcstl
